import Mathlib

/-!
# ArithmeticParser: a shallow embedding of `ap::Expression`

The embedding follows `ArithmeticParser.h` / `ArithmeticParser.cpp`:

* the token hierarchy is the closed sum `Token`;
* every entry of the `patterns` table is a matcher over `List Char`
  (section `patterns`), following the ECMAScript grammar of `std::regex`;
* `createTokenList` is the `while(state != FINISHED)` loop over `Lexer.step`;
* `resolveTokenList`, `resolveValueAtPos` and `getSubExpressionEndPos` work on
  `int` positions (`Int`) and report a read outside the vector as a fault;
* `evaluateExpression` sequences the two and re-throws what it catches.

`double` arithmetic is the platform's, not the repository's: it is a parameter
(`DoubleOps`), and every universally quantified theorem holds for every such
arithmetic.  `Dbl` is the instance used to evaluate concrete inputs, `Exact` is
the arithmetic of the rational numbers.

What the evaluator is compared with is defined apart from it: `Factors` and
`productOf` (a product read from left to right), `Visits` (the call sites of
the evaluator) and `convExpr` (the conventional evaluation of a token
sequence: `*` and `/` before `+` and `-`, from left to right).
-/

namespace ap

/-! ## Messages (`ArithmeticParser.h`) -/

def MSG_EMPTY_EXPRESSION : String := "no expression was provided"
def MSG_OPERATOR_NOT_FOUND : String := "expected arithmetic operator not found"
def MSG_VALUE_NOT_FOUND : String := "expected value or open parentheses not found"
def MSG_UNBALANCED_PARENS : String := "unmatched parentheses in expression"
def MSG_INFINFITE_RESULT : String := "infinite result encountered: possible division by zero"
def MSG_NO_ERROR : String := ""
def EXMSG_INVALID_OPERATOR : String :=
  "execution error: invalid operator encountered while parsing expression"
def EXMSG_UNEXPECTED_TOKEN : String :=
  "execution error: unexpected token type encountered during evaluation"

/-- The `what()` text of the `std::out_of_range` that `std::stod` throws when the
converted value is out of the range of `double` (the text libstdc++ uses). -/
def EXMSG_STOD : String := "stod"

/-! ## Enumerations and tokens -/

inductive parse_state
  | FIND_OPEN_PAREN | FIND_VALUE | FIND_CLOSE_PAREN | FIND_OPERATOR | OPERATOR_NOT_FOUND
  | FINISHED
  deriving DecidableEq, Repr

inductive token_type
  | OPEN_PAREN | CLOSE_PAREN | VALUE | OPERATOR
  deriving DecidableEq, Repr

inductive operator_function
  | ADDITION | SUBTRACTION | MUTILPICATION | DIVISION
  deriving DecidableEq, Repr

/-- The four structs derived from `Token`. -/
inductive Token (α : Type)
  | OpenParenToken
  | CloseParenToken
  | ValueToken (value : α)
  | OperatorToken (function : operator_function)
  deriving DecidableEq, Repr

/-- The virtual `getType()`. -/
def Token.getType {α : Type} : Token α → token_type
  | .OpenParenToken => .OPEN_PAREN
  | .CloseParenToken => .CLOSE_PAREN
  | .ValueToken _ => .VALUE
  | .OperatorToken _ => .OPERATOR

/-! ## The platform's `double` -/

/-- The operations on `double` that the program uses.  `stod` is `std::stod` on
the text matched by the `value` pattern: `none` stands for the
`std::out_of_range` it throws. -/
structure DoubleOps (α : Type) where
  add : α → α → α
  sub : α → α → α
  mul : α → α → α
  div : α → α → α
  neg_one : α
  isinf : α → Bool
  stod : List Char → Option α

/-! ## Faults -/

/-- How a call can fail to return a value. -/
inductive Fault
  /-- a C++ exception derived from `std::exception`, with its `what()` -/
  | exception (what : String)
  /-- `_token_list[i]` with `i` outside the vector: undefined behaviour -/
  | out_of_bounds
  /-- the fuel of the embedding ran out -/
  | out_of_fuel
  deriving DecidableEq, Repr

deriving instance DecidableEq for Except

/-! ## The `patterns` table

`std::regex` with the default ECMAScript grammar, in the "C" locale: `\s` is
`isspace`, `\d` is `0`..`9`, and `.` matches every character but the line
terminators `\n` and `\r`.  `regex_search` is always called with
`match_continuous`, so a match starts at the front of the text; it returns the
matched text `match.str(0)` and `match.suffix()`.  Quantifiers are greedy, and
in each of these patterns the greedy choice is the only one that can match. -/

namespace patterns

/-- The class `\s`: `isspace` of the "C" locale. -/
def isSpace (c : Char) : Bool :=
  c = ' ' || c = '\t' || c = '\n' || c = Char.ofNat 11 || c = Char.ofNat 12 || c = '\r'

/-- The class `\d`. -/
def isDigit (c : Char) : Bool := c.isDigit

/-- The characters `.` matches. -/
def isDot (c : Char) : Bool := !(c = '\n' || c = '\r')

/-- The optional `[-+]?`: the sign taken (if any) and the rest. -/
def optSign : List Char → List Char × List Char
  | c :: r => if c = '-' || c = '+' then ([c], r) else ([], c :: r)
  | [] => ([], [])

/-- The optional group `(\.\d+)?`: the text taken (possibly empty) and the rest. -/
def optFraction : List Char → List Char × List Char
  | '.' :: r =>
    if r.takeWhile isDigit = [] then ([], '.' :: r)
    else ('.' :: r.takeWhile isDigit, r.dropWhile isDigit)
  | r => ([], r)

/-- Pattern `value`, `\s*[-+]?\d+(\.\d+)?`. -/
def search_value (exp : List Char) : Option (List Char × List Char) :=
  let ws := exp.takeWhile isSpace
  let sg := optSign (exp.dropWhile isSpace)
  let ds := sg.2.takeWhile isDigit
  let fr := optFraction (sg.2.dropWhile isDigit)
  if ds = [] then none else some (ws ++ sg.1 ++ ds ++ fr.1, fr.2)

/-- Pattern `open_paren`, `\s*[-+]?\(`. -/
def search_open_paren (exp : List Char) : Option (List Char × List Char) :=
  let ws := exp.takeWhile isSpace
  let sg := optSign (exp.dropWhile isSpace)
  match sg.2 with
  | '(' :: r => some (ws ++ sg.1 ++ ['('], r)
  | _ => none

/-- Pattern `close_paren`, `\s*\)`. -/
def search_close_paren (exp : List Char) : Option (List Char × List Char) :=
  match exp.dropWhile isSpace with
  | ')' :: r => some (exp.takeWhile isSpace ++ [')'], r)
  | _ => none

/-- Pattern `operator`, `\s*[-+*/]`. -/
def search_operator (exp : List Char) : Option (List Char × List Char) :=
  match exp.dropWhile isSpace with
  | c :: r =>
    if c = '-' || c = '+' || c = '*' || c = '/' then some (exp.takeWhile isSpace ++ [c], r)
    else none
  | [] => none

/-- Pattern `whitespace`, `\s*`, with `regex_match` (the whole text). -/
def match_whitespace (s : List Char) : Bool := s.all isSpace

/-- `regex_match` of a text against `.*c.*`: the text holds the character `c`
and nothing that `.` refuses. -/
def match_containing (c : Char) (s : List Char) : Bool := s.all isDot && s.contains c

/-- Pattern `minus`, `.*-.*`. -/
def match_minus (s : List Char) : Bool := match_containing '-' s

/-- Pattern `plus`, `.*\+.*`. -/
def match_plus (s : List Char) : Bool := match_containing '+' s

/-- Pattern `divide`, `.*\/.*`. -/
def match_divide (s : List Char) : Bool := match_containing '/' s

/-- Pattern `times`, `.*\*.*`. -/
def match_times (s : List Char) : Bool := match_containing '*' s

end patterns

/-! ## The `Expression` object -/

/-- The data members of `class Expression`. -/
structure Expression (α : Type) where
  _value : α
  _exp : String
  _token_list : List (Token α)
  _is_valid : Bool
  _error_message : String
  deriving DecidableEq, Repr

/-- What a call of a `void` member function leaves behind. -/
inductive Outcome (α : Type)
  /-- the call returned; the object is `self` -/
  | returned (self : Expression α)
  /-- an exception with text `what` left the call; the object is `self` -/
  | thrown (what : String) (self : Expression α)
  /-- the call read outside the token vector -/
  | undefined
  /-- the fuel of the embedding ran out -/
  | out_of_fuel
  deriving DecidableEq, Repr

/-- The object after the call, when the call returned or threw. -/
def Outcome.self? {α : Type} : Outcome α → Option (Expression α)
  | .returned self => some self
  | .thrown _ self => some self
  | .undefined => none
  | .out_of_fuel => none

/-! ## `getOpTokenFromString` -/

def getOpTokenFromString {α : Type} (op_string : List Char) : Except Fault (Token α) :=
  if patterns.match_minus op_string then .ok (.OperatorToken .SUBTRACTION)
  else if patterns.match_plus op_string then .ok (.OperatorToken .ADDITION)
  else if patterns.match_times op_string then .ok (.OperatorToken .MUTILPICATION)
  else if patterns.match_divide op_string then .ok (.OperatorToken .DIVISION)
  else .error (.exception EXMSG_INVALID_OPERATOR)

/-! ## `createTokenList` -/

/-- The locals of `createTokenList` and the members it writes. -/
structure Lexer (α : Type) where
  state : parse_state
  exp : List Char
  paren_balance : Int
  _token_list : List (Token α)
  _is_valid : Bool
  _error_message : String
  deriving DecidableEq, Repr

/-- One pass through the body of `while(state != FINISHED)`. -/
def Lexer.step {α : Type} (D : DoubleOps α) (l : Lexer α) : Except Fault (Lexer α) :=
  match l.state with
  | .FIND_OPEN_PAREN =>
    match patterns.search_open_paren l.exp with
    | some (str, suffix) =>
      let pre : List (Token α) :=
        if patterns.match_minus str then
          [.ValueToken D.neg_one, .OperatorToken .MUTILPICATION]
        else []
      .ok { l with
        _token_list := l._token_list ++ pre ++ [.OpenParenToken]
        paren_balance := l.paren_balance + 1
        exp := suffix }
    | none => .ok { l with state := .FIND_VALUE }
  | .FIND_VALUE =>
    match patterns.search_value l.exp with
    | some (str, suffix) =>
      match D.stod str with
      | some v =>
        .ok { l with
          _token_list := l._token_list ++ [.ValueToken v]
          exp := suffix
          state := .FIND_CLOSE_PAREN }
      | none => .error (.exception EXMSG_STOD)
    | none =>
      .ok { l with
        _is_valid := false
        _error_message := MSG_VALUE_NOT_FOUND
        state := .FINISHED }
  | .FIND_CLOSE_PAREN =>
    match patterns.search_close_paren l.exp with
    | some (_, suffix) =>
      .ok { l with
        _token_list := l._token_list ++ [.CloseParenToken]
        paren_balance := l.paren_balance - 1
        exp := suffix }
    | none => .ok { l with state := .FIND_OPERATOR }
  | .FIND_OPERATOR =>
    match patterns.search_operator l.exp with
    | some (str, suffix) =>
      match getOpTokenFromString str with
      | .ok t =>
        .ok { l with
          _token_list := l._token_list ++ [t]
          exp := suffix
          state := .FIND_OPEN_PAREN }
      | .error e => .error e
    | none => .ok { l with state := .OPERATOR_NOT_FOUND }
  | .OPERATOR_NOT_FOUND =>
    if l.exp.isEmpty || patterns.match_whitespace l.exp then
      if l.paren_balance ≠ 0 then
        .ok { l with
          _is_valid := false
          _error_message := MSG_UNBALANCED_PARENS
          state := .FINISHED }
      else
        .ok { l with
          _is_valid := true
          _error_message := MSG_NO_ERROR
          state := .FINISHED }
    else
      .ok { l with
        _is_valid := false
        _error_message := MSG_OPERATOR_NOT_FOUND
        state := .FINISHED }
  | .FINISHED => .ok l

/-- The loop `while(state != FINISHED)`, at most `fuel` passes. -/
def Lexer.run {α : Type} (D : DoubleOps α) : Nat → Lexer α → Except Fault (Lexer α)
  | 0, l => if l.state = .FINISHED then .ok l else .error .out_of_fuel
  | fuel + 1, l =>
    if l.state = .FINISHED then .ok l
    else
      match l.step D with
      | .ok l' => Lexer.run D fuel l'
      | .error e => .error e

/-- The locals at the head of `createTokenList`, after `clearTokenList()`. -/
def Lexer.init {α : Type} (self : Expression α) : Lexer α :=
  { state := .FIND_OPEN_PAREN
    exp := self._exp.data
    paren_balance := 0
    _token_list := []
    _is_valid := self._is_valid
    _error_message := self._error_message }

/-- Passes that the loop of `createTokenList` can need on a text of `n`
characters: a pass either consumes a character or moves to a later state. -/
def lexFuel (n : Nat) : Nat := 5 * n + 6

def Expression.createTokenList {α : Type} (D : DoubleOps α) (self : Expression α) :
    Except Fault (Expression α) :=
  match Lexer.run D (lexFuel self._exp.data.length) (Lexer.init self) with
  | .ok l =>
    .ok { self with
      _token_list := l._token_list
      _is_valid := l._is_valid
      _error_message := l._error_message }
  | .error e => .error e

/-! ## The evaluator -/

/-- The read `_token_list[pos]`. -/
def tokenAt {α : Type} (tokens : List (Token α)) (pos : Int) : Except Fault (Token α) :=
  if pos < 0 then .error .out_of_bounds
  else
    match tokens[pos.toNat]? with
    | some t => .ok t
    | none => .error .out_of_bounds

/-- The loop `while(paren_balance != 0)` of `getSubExpressionEndPos`, entered
with `paren_balance != 0`; `rest` holds the tokens from `current_pos` on.  The
result is the `current_pos - 1` that the function returns. -/
def scanParens {α : Type} : List (Token α) → Int → Int → Except Fault Int
  | [], _, _ => .error .out_of_bounds
  | t :: rest, paren_balance, current_pos =>
    let paren_balance :=
      match t.getType with
      | .OPEN_PAREN => paren_balance + 1
      | .CLOSE_PAREN => paren_balance - 1
      | _ => paren_balance
    if paren_balance ≠ 0 then scanParens rest paren_balance (current_pos + 1)
    else .ok current_pos

def getSubExpressionEndPos {α : Type} (tokens : List (Token α)) (start_pos : Int) :
    Except Fault Int :=
  match tokenAt tokens start_pos with
  | .error e => .error e
  | .ok t =>
    if t.getType ≠ .OPEN_PAREN then .ok start_pos
    else scanParens (tokens.drop (start_pos + 1).toNat) 1 (start_pos + 1)

mutual

/-- Function `resolveTokenList(start_pos, end_pos)`: `fuel` bounds the depth of calls. -/
def resolveTokenList {α : Type} (D : DoubleOps α) :
    Nat → List (Token α) → Int → Int → Except Fault α
  | 0, _, _, _ => .error .out_of_fuel
  | fuel + 1, tokens, start_pos, end_pos =>
    let completed_pos := end_pos + 1
    match tokenAt tokens start_pos with
    | .error e => .error e
    | .ok _ =>
      match resolveValueAtPos D fuel tokens start_pos with
      | .error e => .error e
      | .ok result =>
        match getSubExpressionEndPos tokens start_pos with
        | .error e => .error e
        | .ok p => resolveLoop D fuel tokens end_pos completed_pos (p + 1) result

/-- The loop `while(current_pos < completed_pos)` of `resolveTokenList`. -/
def resolveLoop {α : Type} (D : DoubleOps α) :
    Nat → List (Token α) → Int → Int → Int → α → Except Fault α
  | 0, _, _, _, _, _ => .error .out_of_fuel
  | fuel + 1, tokens, end_pos, completed_pos, current_pos, result =>
    if current_pos < completed_pos then
      match tokenAt tokens current_pos with
      | .error e => .error e
      | .ok (.OperatorToken function) =>
        let next_pos := current_pos + 1
        match function with
        | .ADDITION =>
          match resolveTokenList D fuel tokens next_pos end_pos with
          | .error e => .error e
          | .ok r => resolveLoop D fuel tokens end_pos completed_pos completed_pos (D.add result r)
        | .SUBTRACTION =>
          match resolveTokenList D fuel tokens next_pos end_pos with
          | .error e => .error e
          | .ok r => resolveLoop D fuel tokens end_pos completed_pos completed_pos (D.sub result r)
        | .MUTILPICATION =>
          match resolveValueAtPos D fuel tokens next_pos with
          | .error e => .error e
          | .ok r =>
            match getSubExpressionEndPos tokens next_pos with
            | .error e => .error e
            | .ok p => resolveLoop D fuel tokens end_pos completed_pos (p + 1) (D.mul result r)
        | .DIVISION =>
          match resolveValueAtPos D fuel tokens next_pos with
          | .error e => .error e
          | .ok r =>
            match getSubExpressionEndPos tokens next_pos with
            | .error e => .error e
            | .ok p => resolveLoop D fuel tokens end_pos completed_pos (p + 1) (D.div result r)
      | .ok _ => .error (.exception EXMSG_UNEXPECTED_TOKEN)
    else .ok result

/-- Function `resolveValueAtPos(position)`. -/
def resolveValueAtPos {α : Type} (D : DoubleOps α) :
    Nat → List (Token α) → Int → Except Fault α
  | 0, _, _ => .error .out_of_fuel
  | fuel + 1, tokens, position =>
    match tokenAt tokens position with
    | .error e => .error e
    | .ok (.ValueToken value) => .ok value
    | .ok .OpenParenToken =>
      match getSubExpressionEndPos tokens position with
      | .error e => .error e
      | .ok p => resolveTokenList D fuel tokens (position + 1) (p - 1)
    | .ok _ => .error (.exception EXMSG_UNEXPECTED_TOKEN)

end

/-- Depth of calls that `resolveTokenList(0, size-1)` can need on `n` tokens. -/
def evalFuel (n : Nat) : Nat := 2 * n + 2

/-! ## `evaluateExpression` and the public functions -/

/-- The `catch(const std::exception & e)` blocks of `evaluateExpression`: clear
the token list, record the failure, and `throw;` again. -/
def Expression.rethrow {α : Type} (self : Expression α) : Fault → Outcome α
  | .exception what =>
    .thrown what { self with _token_list := [], _is_valid := false, _error_message := what }
  | .out_of_bounds => .undefined
  | .out_of_fuel => .out_of_fuel

/-- The last step of `evaluateExpression`: `if(std::isinf(_value))`. -/
def Expression.checkInfinite {α : Type} (D : DoubleOps α) (self : Expression α) :
    Expression α :=
  if D.isinf self._value then
    { self with _is_valid := false, _error_message := MSG_INFINFITE_RESULT }
  else self

def Expression.evaluateExpression {α : Type} (D : DoubleOps α) (self : Expression α) :
    Outcome α :=
  -- flag error if expression is empty, otherwise create the token list
  let afterTokens : Except Fault (Expression α) :=
    if self._exp.data.isEmpty then
      .ok { self with _is_valid := false, _error_message := MSG_EMPTY_EXPRESSION }
    else self.createTokenList D
  match afterTokens with
  | .error e => self.rethrow e
  | .ok self1 =>
    -- if token list creation was successful, resolve it to a value
    let afterResolve : Except Fault (Expression α) :=
      if self1._is_valid then
        match resolveTokenList D (evalFuel self1._token_list.length) self1._token_list 0
            ((self1._token_list.length : Int) - 1) with
        | .ok v => .ok { self1 with _value := v }
        | .error e => .error e
      else .ok self1
    match afterResolve with
    | .error e => self1.rethrow e
    | .ok self2 => .returned (self2.checkInfinite D)

def Expression.setExpression {α : Type} (D : DoubleOps α) (exp : String)
    (self : Expression α) : Outcome α :=
  Expression.evaluateExpression D { self with _exp := exp }

def Expression.getExpression {α : Type} (self : Expression α) : String := self._exp

def Expression.isValid {α : Type} (self : Expression α) : Bool := self._is_valid

def Expression.getErrorMessage {α : Type} (self : Expression α) : String :=
  self._error_message

def Expression.getValue {α : Type} (self : Expression α) : α := self._value


/-! ## An instance of the arithmetic, for evaluating concrete inputs

`Dbl` follows IEEE 754 on the special values and on overflow; a finite result
is kept exact (no rounding), zero is unsigned and underflow is not modelled.
On the inputs evaluated below every intermediate value is a small integer or
a special value, where this agrees with `double`. -/

inductive Dbl
  | fin (q : ℚ)
  | pinf
  | ninf
  | nan
  deriving DecidableEq

namespace Dbl

/-- A magnitude from which rounding to nearest gives an infinity:
`2^1024 - 2^970`. -/
def overflowBound : ℚ := 2 ^ 1024 - 2 ^ 970

/-- A real result, as a `double`. -/
def ofRat (q : ℚ) : Dbl :=
  if overflowBound ≤ q then pinf else if q ≤ -overflowBound then ninf else fin q

def neg : Dbl → Dbl
  | fin q => fin (-q)
  | pinf => ninf
  | ninf => pinf
  | nan => nan

def add : Dbl → Dbl → Dbl
  | fin a, fin b => ofRat (a + b)
  | nan, _ => nan
  | _, nan => nan
  | pinf, ninf => nan
  | ninf, pinf => nan
  | pinf, _ => pinf
  | _, pinf => pinf
  | ninf, _ => ninf
  | _, ninf => ninf

def sub (a b : Dbl) : Dbl := add a (neg b)

/-- An infinity with the sign of `pos`. -/
def inf (pos : Bool) : Dbl := if pos then pinf else ninf

def mul : Dbl → Dbl → Dbl
  | fin a, fin b => ofRat (a * b)
  | nan, _ => nan
  | _, nan => nan
  | pinf, fin b => if b = 0 then nan else inf (decide (0 < b))
  | ninf, fin b => if b = 0 then nan else inf (decide (b < 0))
  | fin a, pinf => if a = 0 then nan else inf (decide (0 < a))
  | fin a, ninf => if a = 0 then nan else inf (decide (a < 0))
  | pinf, pinf => pinf
  | ninf, ninf => pinf
  | pinf, ninf => ninf
  | ninf, pinf => ninf

def div : Dbl → Dbl → Dbl
  | fin a, fin b =>
    if b = 0 then (if a = 0 then nan else inf (decide (0 < a))) else ofRat (a / b)
  | nan, _ => nan
  | _, nan => nan
  | fin _, pinf => fin 0
  | fin _, ninf => fin 0
  | pinf, fin b => inf (decide (0 ≤ b))
  | ninf, fin b => inf (decide (b < 0))
  | pinf, pinf => nan
  | pinf, ninf => nan
  | ninf, pinf => nan
  | ninf, ninf => nan

def isinf : Dbl → Bool
  | pinf => true
  | ninf => true
  | _ => false

def isnan : Dbl → Bool
  | nan => true
  | _ => false

/-- Neither an infinity nor a NaN. -/
def isfinite : Dbl → Bool
  | fin _ => true
  | _ => false

/-- The number a run of decimal digits denotes. -/
def digitsValue (ds : List Char) : ℕ :=
  ds.foldl (fun n c => 10 * n + (c.toNat - '0'.toNat)) 0

/-- The real number denoted by a text `\s*[-+]?\d+(\.\d+)?`. -/
def decimalValue (str : List Char) : ℚ :=
  let sg := patterns.optSign (str.dropWhile patterns.isSpace)
  let ds := sg.2.takeWhile patterns.isDigit
  let fs := ((sg.2.dropWhile patterns.isDigit).drop 1).takeWhile patterns.isDigit
  let m : ℚ := (digitsValue ds : ℚ) + (digitsValue fs : ℚ) / (10 : ℚ) ^ fs.length
  if sg.1 = ['-'] then -m else m

/-- The conversion `std::stod`: out of range when the value rounds to an infinity. -/
def stod (str : List Char) : Option Dbl :=
  match ofRat (decimalValue str) with
  | fin q => some (fin q)
  | _ => none

/-- The arithmetic of `Dbl`. -/
def ops : DoubleOps Dbl :=
  { add := add, sub := sub, mul := mul, div := div, neg_one := fin (-1),
    isinf := isinf, stod := stod }

end Dbl

/-- An `Expression` as the default constructor's delegate finds it: the vector
and the message are empty, `_value` and `_is_valid` hold whatever was in memory. -/
def Expression.raw {α : Type} (value : α) (is_valid : Bool) : Expression α :=
  { _value := value, _exp := "", _token_list := [], _is_valid := is_valid, _error_message := "" }

/-- The constructor `Expression(const std::string & exp)`. -/
def Expression.construct {α : Type} (D : DoubleOps α) (value : α) (is_valid : Bool)
    (exp : String) : Outcome α :=
  Expression.evaluateExpression D { Expression.raw value is_valid with _exp := exp }


/-! ## Shape of a token sequence -/

/-- A `Value` or an `OpenParen`: a token an operand can start with. -/
def Token.startsOperand {α : Type} (t : Token α) : Bool :=
  match t.getType with
  | .VALUE => true
  | .OPEN_PAREN => true
  | _ => false

/-- A `Value` or a `CloseParen`: a token an operand can end with. -/
def Token.endsOperand {α : Type} (t : Token α) : Bool :=
  match t.getType with
  | .VALUE => true
  | .CLOSE_PAREN => true
  | _ => false

/-- Token `b` may stand right after token `a`: after an `Operator` or an
`OpenParen` comes the start of an operand, after a `Value` or a `CloseParen`
comes a `CloseParen` or an `Operator`. -/
def follows {α : Type} (a b : Token α) : Bool :=
  if a.endsOperand then !b.startsOperand else b.startsOperand

/-- What a token adds to the count of open parentheses. -/
def Token.weight {α : Type} (t : Token α) : Int :=
  match t.getType with
  | .OPEN_PAREN => 1
  | .CLOSE_PAREN => -1
  | _ => 0

/-- Number of `OpenParen` minus number of `CloseParen` tokens. -/
def depth {α : Type} (tokens : List (Token α)) : Int := (tokens.map Token.weight).sum

/-- Place of a state in the order in which the loop of `createTokenList` can
visit the states without consuming text. -/
def parse_state.rank : parse_state → Nat
  | .FIND_OPEN_PAREN => 5
  | .FIND_VALUE => 4
  | .FIND_CLOSE_PAREN => 3
  | .FIND_OPERATOR => 2
  | .OPERATOR_NOT_FOUND => 1
  | .FINISHED => 0

/-- A bound on the passes the loop of `createTokenList` still makes. -/
def Lexer.measure {α : Type} (l : Lexer α) : Nat := 5 * l.exp.length + l.state.rank

/-- What holds of the locals of `createTokenList` at the head of every pass. -/
def Lexer.Inv {α : Type} (l : Lexer α) : Prop :=
  List.Chain' (fun a b => follows a b = true) l._token_list ∧
  (∀ t ∈ l._token_list.head?, t.startsOperand = true) ∧
  l.paren_balance = depth l._token_list ∧
  match l.state with
  | .FIND_OPEN_PAREN => ∀ t ∈ l._token_list.getLast?, t.endsOperand = false
  | .FIND_VALUE => ∀ t ∈ l._token_list.getLast?, t.endsOperand = false
  | .FIND_CLOSE_PAREN => ∃ t ∈ l._token_list.getLast?, t.endsOperand = true
  | .FIND_OPERATOR => ∃ t ∈ l._token_list.getLast?, t.endsOperand = true
  | .OPERATOR_NOT_FOUND => ∃ t ∈ l._token_list.getLast?, t.endsOperand = true
  | .FINISHED =>
    (l._is_valid = true ↔ l._error_message = "") ∧
    (l._is_valid = true →
      (∃ t ∈ l._token_list.getLast?, t.endsOperand = true) ∧ depth l._token_list = 0)

/-- The shape of a token sequence that `createTokenList` reports as valid. -/
structure WellShaped {α : Type} (tokens : List (Token α)) : Prop where
  chain : List.Chain' (fun a b => follows a b = true) tokens
  first : ∀ t ∈ tokens.head?, t.startsOperand = true
  last : ∃ t ∈ tokens.getLast?, t.endsOperand = true
  balance : depth tokens = 0


/-- The depth of parentheses in front of position `pos`. -/
def depthAt {α : Type} (tokens : List (Token α)) (pos : Int) : Int :=
  depth (tokens.take pos.toNat)

/-- A result of the evaluator that the source provides for: a value, or the
`std::logic_error` for an unexpected token. -/
def Resolved {α : Type} (r : Except Fault α) : Prop :=
  (∃ v, r = .ok v) ∨ r = .error (.exception EXMSG_UNEXPECTED_TOKEN)


/-- What a call `resolveTokenList(s, e)` finds when the token list is well
shaped: an operand starts at `s`, one ends at `e`, and the parentheses opened
from `s` on are closed by `e`. -/
def RangeOk {α : Type} (tokens : List (Token α)) (s e : Int) : Prop :=
  s ≤ e ∧ (∃ a, tokenAt tokens s = .ok a ∧ a.startsOperand = true)
    ∧ (∃ z, tokenAt tokens e = .ok z ∧ z.endsOperand = true)
    ∧ depthAt tokens (e + 1) ≤ depthAt tokens s

/-- What the loop of `resolveTokenList` finds at `current_pos = cur`. -/
def LoopOk {α : Type} (tokens : List (Token α)) (cur e : Int) : Prop :=
  0 ≤ cur ∧ cur ≤ e + 1 ∧ (∃ z, tokenAt tokens e = .ok z ∧ z.endsOperand = true)
    ∧ depthAt tokens (e + 1) ≤ depthAt tokens cur

/-- What a call `resolveValueAtPos(p)` finds: the start of an operand, and for
an `OpenParen` a later position by which its depth is reached again. -/
def ValueOk {α : Type} (tokens : List (Token α)) (p : Int) : Prop :=
  ∃ a, tokenAt tokens p = .ok a ∧ a.startsOperand = true
    ∧ (a.getType = .OPEN_PAREN →
        ∃ k : Int, p < k ∧ k < tokens.length ∧ depthAt tokens (k + 1) ≤ depthAt tokens p)


/-- The locals at the head of `createTokenList` for the text `exp`, with the
flag and the message of the object left out. -/
def Lexer.start {α : Type} (exp : String) : Lexer α :=
  { state := .FIND_OPEN_PAREN, exp := exp.data, paren_balance := 0, _token_list := [],
    _is_valid := false, _error_message := "" }

/-- The run of `createTokenList` on the text `exp`, without the object around
it: the token list, the flag and the message it leaves. -/
def lexExpression {α : Type} (D : DoubleOps α) (exp : String) :
    Except Fault (List (Token α) × Bool × String) :=
  match Lexer.run D (lexFuel exp.data.length) (Lexer.start exp) with
  | .ok l => .ok (l._token_list, l._is_valid, l._error_message)
  | .error e => .error e

/-- The call `resolveTokenList(0, _token_list.size()-1)` of `evaluateExpression`. -/
def resolveAll {α : Type} (D : DoubleOps α) (tokens : List (Token α)) : Except Fault α :=
  resolveTokenList D (evalFuel tokens.length) tokens 0 ((tokens.length : Int) - 1)


/-- What `evaluateExpression` makes of a text, before it is written to the
object: the four ways through the function. -/
inductive Verdict (α : Type)
  /-- the text is empty -/
  | empty
  /-- tokenization or evaluation raised an exception with this text -/
  | raised (what : String)
  /-- `createTokenList` returned with the flag cleared, leaving this message -/
  | rejected (tokens : List (Token α)) (message : String)
  /-- `createTokenList` returned with the flag set and `resolveTokenList` returned `value` -/
  | resolved (tokens : List (Token α)) (value : α)

/-- How `evaluateExpression` writes a verdict to the object. -/
def Verdict.apply {α : Type} (D : DoubleOps α) : Verdict α → Expression α → Outcome α
  | .empty, self =>
    .returned (Expression.checkInfinite D
      { self with _is_valid := false, _error_message := MSG_EMPTY_EXPRESSION })
  | .raised what, self =>
    .thrown what { self with _token_list := [], _is_valid := false, _error_message := what }
  | .rejected tokens message, self =>
    .returned (Expression.checkInfinite D
      { self with _token_list := tokens, _is_valid := false, _error_message := message })
  | .resolved tokens value, self =>
    .returned (Expression.checkInfinite D
      { self with
        _token_list := tokens, _is_valid := true, _error_message := MSG_NO_ERROR,
        _value := value })

/-- The texts of the exceptions that can leave `evaluateExpression`, and the
non-empty message of a rejected text. -/
def Verdict.Sound {α : Type} : Verdict α → Prop
  | .empty => True
  | .raised what =>
    what = EXMSG_STOD ∨ what = EXMSG_INVALID_OPERATOR ∨ what = EXMSG_UNEXPECTED_TOKEN
  | .rejected _ message => message ≠ ""
  | .resolved tokens _ => WellShaped tokens


/-- The first `n` passes through the body of the loop of `createTokenList`
(a pass in the state `FINISHED` changes nothing). -/
def Lexer.steps {α : Type} (D : DoubleOps α) : Nat → Lexer α → Except Fault (Lexer α)
  | 0, l => .ok l
  | n + 1, l =>
    match l.step D with
    | .ok l1 => Lexer.steps D n l1
    | .error e => .error e

/-- Operands and operators alternate in a token sequence: it is not empty, it
starts with a `Value` or an `OpenParen` and ends with a `Value` or a
`CloseParen`, every `Operator` stands between a `Value` or `CloseParen` and a
`Value` or `OpenParen`, and after a `Value` or a `CloseParen` comes neither a
`Value` nor an `OpenParen`. -/
structure Alternating {α : Type} (tokens : List (Token α)) : Prop where
  nonempty : tokens ≠ []
  first : ∀ t ∈ tokens.head?, t.getType = .VALUE ∨ t.getType = .OPEN_PAREN
  last : ∀ t ∈ tokens.getLast?, t.getType = .VALUE ∨ t.getType = .CLOSE_PAREN
  before_operator : ∀ (i : Nat) (t : Token α), tokens[i]? = some t → t.getType = .OPERATOR →
    ∃ a, 0 < i ∧ tokens[i - 1]? = some a ∧ (a.getType = .VALUE ∨ a.getType = .CLOSE_PAREN)
  after_operator : ∀ (i : Nat) (t : Token α), tokens[i]? = some t → t.getType = .OPERATOR →
    ∃ b, tokens[i + 1]? = some b ∧ (b.getType = .VALUE ∨ b.getType = .OPEN_PAREN)
  after_operand : ∀ (i : Nat) (a b : Token α), tokens[i]? = some a → tokens[i + 1]? = some b →
    (a.getType = .VALUE ∨ a.getType = .CLOSE_PAREN) →
    b.getType ≠ .VALUE ∧ b.getType ≠ .OPEN_PAREN

/-! ## Products and sums, for stating what the evaluator computes -/

/-- The running product after one more factor: an operator `*` or `/` and the
value of the operand behind it. -/
def applyFactor {α : Type} (D : DoubleOps α) (acc : α) (f : operator_function × α) : α :=
  match f.1 with
  | .DIVISION => D.div acc f.2
  | _ => D.mul acc f.2

/-- The left-to-right product/quotient of a first operand and the factors behind it. -/
def productOf {α : Type} (D : DoubleOps α) (first : α) (fs : List (operator_function × α)) : α :=
  fs.foldl (applyFactor D) first

/-- The sum or difference `P + R` or `P - R` for the operator `+` or `-`. -/
def applyLow {α : Type} (D : DoubleOps α) (op : operator_function) (P R : α) : α :=
  match op with
  | .SUBTRACTION => D.sub P R
  | _ => D.add P R

/-- The tokens from the position `cur` up to the position `k` are operators `*`
or `/`, each followed by one operand (a value, or a parenthesised group up to
its matching CloseParen); `fs` lists the operators with the values of their
operands. -/
inductive Factors {α : Type} (D : DoubleOps α) (tokens : List (Token α)) :
    Int → List (operator_function × α) → Int → Prop
  | done (k : Int) : Factors D tokens k [] k
  | times {cur q k : Int} {v : α} {fs : List (operator_function × α)} (fuel : Nat) :
    tokenAt tokens cur = .ok (.OperatorToken .MUTILPICATION) →
    resolveValueAtPos D fuel tokens (cur + 1) = .ok v →
    getSubExpressionEndPos tokens (cur + 1) = .ok q →
    Factors D tokens (q + 1) fs k →
    Factors D tokens cur ((.MUTILPICATION, v) :: fs) k
  | over {cur q k : Int} {v : α} {fs : List (operator_function × α)} (fuel : Nat) :
    tokenAt tokens cur = .ok (.OperatorToken .DIVISION) →
    resolveValueAtPos D fuel tokens (cur + 1) = .ok v →
    getSubExpressionEndPos tokens (cur + 1) = .ok q →
    Factors D tokens (q + 1) fs k →
    Factors D tokens cur ((.DIVISION, v) :: fs) k

/-! ## The calls the evaluator makes -/

/-- A point inside a call `resolveTokenList(s, e)`. -/
inductive Point
  /-- the entry of the call -/
  | call
  /-- the calls `resolveValueAtPos(p)` and `getSubExpressionEndPos(p)` for an operand -/
  | operand (p : Int)
  /-- the test of the loop with `current_pos = cur` -/
  | slot (cur : Int)

/-- The points the evaluation started by `evaluateExpression` can come to:
`Visits tokens s e pt` says that `resolveTokenList(s, e)` is called and comes
to the point `pt`.  Every rule is a call site of the source, taken whether or
not the calls made before it return a value. -/
inductive Visits {α : Type} (tokens : List (Token α)) : Int → Int → Point → Prop
  /-- the call `resolveTokenList(0, _token_list.size()-1)` of `evaluateExpression` -/
  | top : Visits tokens 0 ((tokens.length : Int) - 1) .call
  /-- the first operand: `resolveValueAtPos(current_pos)` with `current_pos = start_pos` -/
  | first {s e : Int} : Visits tokens s e .call → Visits tokens s e (.operand s)
  /-- the loop test after an operand: `current_pos = getSubExpressionEndPos(p) + 1` -/
  | after {s e p q : Int} :
    Visits tokens s e (.operand p) → getSubExpressionEndPos tokens p = .ok q →
    Visits tokens s e (.slot (q + 1))
  /-- the operand of `*` or `/`: `resolveValueAtPos(next_pos)` -/
  | factor {s e cur : Int} {f : operator_function} :
    Visits tokens s e (.slot cur) → cur < e + 1 →
    tokenAt tokens cur = .ok (.OperatorToken f) → (f = .MUTILPICATION ∨ f = .DIVISION) →
    Visits tokens s e (.operand (cur + 1))
  /-- the remainder behind `+` or `-`: `resolveTokenList(next_pos, end_pos)` -/
  | rest {s e cur : Int} {f : operator_function} :
    Visits tokens s e (.slot cur) → cur < e + 1 →
    tokenAt tokens cur = .ok (.OperatorToken f) → (f = .ADDITION ∨ f = .SUBTRACTION) →
    Visits tokens (cur + 1) e .call
  /-- the inside of a group:
  `resolveTokenList(position + 1, getSubExpressionEndPos(position) - 1)` -/
  | group {s e p q : Int} :
    Visits tokens s e (.operand p) → tokenAt tokens p = .ok .OpenParenToken →
    getSubExpressionEndPos tokens p = .ok q →
    Visits tokens (p + 1) (q - 1) .call

/-- What holds at a point of a call `resolveTokenList(s, e)` on a well-shaped
token list. -/
def Point.Ok {α : Type} (tokens : List (Token α)) (s e : Int) : Point → Prop
  | .call => True
  | .operand p =>
    s ≤ p ∧ p ≤ e ∧ (∃ a, tokenAt tokens p = .ok a ∧ a.startsOperand = true)
      ∧ depthAt tokens (e + 1) ≤ depthAt tokens p
  | .slot cur => s < cur ∧ LoopOk tokens cur e

/-- What the evaluation keeps to at a point of a call `resolveTokenList(s, e)`:
an operand lies in the range and the scan for the end of a group stops at a
CloseParen in the range; the position behind an operator is in the range. -/
def Point.InRange {α : Type} (tokens : List (Token α)) (s e : Int) : Point → Prop
  | .call => True
  | .operand p =>
    s ≤ p ∧ p ≤ e ∧ ∃ q, getSubExpressionEndPos tokens p = .ok q ∧ p ≤ q ∧ q ≤ e
      ∧ (∀ a, tokenAt tokens p = .ok a → a.getType = .OPEN_PAREN →
          ∃ c, tokenAt tokens q = .ok c ∧ c.getType = .CLOSE_PAREN)
  | .slot cur =>
    s < cur ∧ cur ≤ e + 1
      ∧ ∀ f, cur < e + 1 → tokenAt tokens cur = .ok (.OperatorToken f) → cur + 1 ≤ e

/-! ## Exact arithmetic and the conventional value of a token sequence -/

/-- The arithmetic of the rational numbers, for reading the evaluator over
exact arithmetic. -/
def Exact : DoubleOps ℚ :=
  { add := fun a b => a + b
    sub := fun a b => a - b
    mul := fun a b => a * b
    div := fun a b => a / b
    neg_one := -1
    isinf := fun _ => false
    stod := fun str => some (Dbl.decimalValue str) }

/-- The tokens start with `Value(-1)`, `Operator(Mul)`, `OpenParen`: the tokens
that `createTokenList` writes for a negated group `-(`. -/
def isNegatedGroup (ts : List (Token ℚ)) : Bool :=
  match ts with
  | .ValueToken v :: .OperatorToken .MUTILPICATION :: .OpenParenToken :: _ => decide (v = -1)
  | _ => false

mutual

/-- The value of `expr := term (('+' | '-') term)*`, terms taken from left to
right, and the tokens behind it. -/
def convExpr : Nat → List (Token ℚ) → Option (ℚ × List (Token ℚ))
  | 0, _ => none
  | fuel + 1, ts =>
    match convTerm fuel ts with
    | some (t, rest) => convExprLoop fuel t rest
    | none => none

/-- The terms behind a sum `acc`. -/
def convExprLoop : Nat → ℚ → List (Token ℚ) → Option (ℚ × List (Token ℚ))
  | 0, _, _ => none
  | fuel + 1, acc, ts =>
    match ts with
    | .OperatorToken .ADDITION :: rest =>
      match convTerm fuel rest with
      | some (t, rest1) => convExprLoop fuel (acc + t) rest1
      | none => none
    | .OperatorToken .SUBTRACTION :: rest =>
      match convTerm fuel rest with
      | some (t, rest1) => convExprLoop fuel (acc - t) rest1
      | none => none
    | _ => some (acc, ts)

/-- The value of `term := factor (('*' | '/') factor)*`, factors taken from left
to right. -/
def convTerm : Nat → List (Token ℚ) → Option (ℚ × List (Token ℚ))
  | 0, _ => none
  | fuel + 1, ts =>
    match convFactor fuel ts with
    | some (f, rest) => convTermLoop fuel f rest
    | none => none

/-- The factors behind a product `acc`. -/
def convTermLoop : Nat → ℚ → List (Token ℚ) → Option (ℚ × List (Token ℚ))
  | 0, _, _ => none
  | fuel + 1, acc, ts =>
    match ts with
    | .OperatorToken .MUTILPICATION :: rest =>
      match convFactor fuel rest with
      | some (f, rest1) => convTermLoop fuel (acc * f) rest1
      | none => none
    | .OperatorToken .DIVISION :: rest =>
      match convFactor fuel rest with
      | some (f, rest1) => convTermLoop fuel (acc / f) rest1
      | none => none
    | _ => some (acc, ts)

/-- The value of `factor := number | '(' expr ')' | '-(' expr ')'`. -/
def convFactor : Nat → List (Token ℚ) → Option (ℚ × List (Token ℚ))
  | 0, _ => none
  | fuel + 1, ts =>
    if isNegatedGroup ts then
      match convExpr fuel (ts.drop 3) with
      | some (x, .CloseParenToken :: rest) => some (-x, rest)
      | _ => none
    else
      match ts with
      | .ValueToken v :: rest => some (v, rest)
      | .OpenParenToken :: rest =>
        match convExpr fuel rest with
        | some (x, .CloseParenToken :: rest1) => some (x, rest1)
        | _ => none
      | _ => none

end

/-- Every prefix of the sequence holds at least as many `OpenParen` as
`CloseParen` tokens. -/
def WellNested {α : Type} (tokens : List (Token α)) : Prop :=
  ∀ i : Nat, i ≤ tokens.length → 0 ≤ depth (tokens.take i)

/-- No `Operator(Sub)` in the sequence. -/
def NoSubtraction {α : Type} (tokens : List (Token α)) : Prop :=
  ∀ t ∈ tokens, t ≠ .OperatorToken .SUBTRACTION

/-- No `Operator(Div)` directly in front of the tokens of a negated group. -/
def NoDivisionByNegatedGroup (tokens : List (Token ℚ)) : Prop :=
  ∀ i : Nat, i < tokens.length → tokens[i]? = some (.OperatorToken .DIVISION) →
    isNegatedGroup (tokens.drop (i + 1)) = false

/-- The tokens from the position `pos` on. -/
def restAt {α : Type} (tokens : List (Token α)) (pos : Int) : List (Token α) :=
  tokens.drop pos.toNat

/-- A range `[s, e]` of a well-nested sequence as `resolveTokenList` meets it: an
operand at each end, the depth behind the range is the depth in front of it
and is not undercut inside, and behind the range the sequence ends or a
`CloseParen` stands. -/
def NestedRange {α : Type} (tokens : List (Token α)) (s e : Int) : Prop :=
  RangeOk tokens s e ∧ depthAt tokens (e + 1) = depthAt tokens s
    ∧ (∀ j : Int, s ≤ j → j ≤ e + 1 → depthAt tokens s ≤ depthAt tokens j)
    ∧ (e + 1 = tokens.length ∨ ∃ c, tokenAt tokens (e + 1) = .ok c ∧ c.getType = .CLOSE_PAREN)

/-- A position of the loop of `resolveTokenList(s, e)` at the depth of the
range, behind the end of an operand. -/
def SlotOk {α : Type} (tokens : List (Token α)) (s e cur : Int) : Prop :=
  s < cur ∧ cur ≤ e + 1 ∧ depthAt tokens cur = depthAt tokens s
    ∧ ∃ y, tokenAt tokens (cur - 1) = .ok y ∧ y.endsOperand = true

/-- The evaluator over exact arithmetic and the conventional evaluation agree
on the range `[s, e]`, with the value `v`: `resolveTokenList(s, e)` returns `v`,
and the conventional sum of terms read from `s`, added to any sum `acc`, is
`acc + v` and ends behind `e`. -/
def Agrees (tokens : List (Token ℚ)) (s e : Int) (v : ℚ) : Prop :=
  (∃ F0 : Nat, ∀ F : Nat, F0 ≤ F → resolveTokenList Exact F tokens s e = .ok v)
    ∧ ∃ G0 : Nat, ∀ G : Nat, G0 ≤ G → ∀ acc : ℚ,
        (match convTerm G (restAt tokens s) with
          | some (t, r) => convExprLoop G (acc + t) r
          | none => none) = some (acc + v, restAt tokens (e + 1))

/-! ## The patterns consume text -/

namespace patterns

theorem length_dropWhile_le (p : Char → Bool) (s : List Char) :
    (s.dropWhile p).length ≤ s.length := by
  have h := congrArg List.length (List.takeWhile_append_dropWhile p s)
  simp only [List.length_append] at h
  omega

theorem length_dropWhile_lt (p : Char → Bool) (s : List Char) (h : s.takeWhile p ≠ []) :
    (s.dropWhile p).length < s.length := by
  have h1 := congrArg List.length (List.takeWhile_append_dropWhile p s)
  simp only [List.length_append] at h1
  have h2 : 0 < (s.takeWhile p).length := List.length_pos.mpr h
  omega

theorem optSign_length (s : List Char) : (optSign s).2.length ≤ s.length := by
  unfold optSign
  split
  · split <;> simp
  · simp

theorem optFraction_length (s : List Char) : (optFraction s).2.length ≤ s.length := by
  unfold optFraction
  split
  · split
    · simp
    · have := length_dropWhile_le isDigit ‹List Char›
      simp only [List.length_cons]
      omega
  · simp

theorem search_value_length {exp str suffix : List Char}
    (h : search_value exp = some (str, suffix)) : suffix.length < exp.length := by
  unfold search_value at h
  simp only at h
  split at h
  · simp at h
  · rename_i hds
    simp only [Option.some.injEq, Prod.mk.injEq] at h
    rw [← h.2]
    have h1 := optFraction_length ((optSign (exp.dropWhile isSpace)).2.dropWhile isDigit)
    have h2 := length_dropWhile_lt isDigit _ hds
    have h3 := optSign_length (exp.dropWhile isSpace)
    have h4 := length_dropWhile_le isSpace exp
    omega

theorem search_open_paren_length {exp str suffix : List Char}
    (h : search_open_paren exp = some (str, suffix)) : suffix.length < exp.length := by
  unfold search_open_paren at h
  simp only at h
  split at h
  · rename_i r hr
    simp only [Option.some.injEq, Prod.mk.injEq] at h
    rw [← h.2]
    have h3 := optSign_length (exp.dropWhile isSpace)
    have h4 := length_dropWhile_le isSpace exp
    rw [hr] at h3
    simp only [List.length_cons] at h3
    omega
  · simp at h

theorem search_close_paren_length {exp str suffix : List Char}
    (h : search_close_paren exp = some (str, suffix)) : suffix.length < exp.length := by
  unfold search_close_paren at h
  split at h
  · rename_i r hr
    simp only [Option.some.injEq, Prod.mk.injEq] at h
    rw [← h.2]
    have h4 := length_dropWhile_le isSpace exp
    rw [hr] at h4
    simp only [List.length_cons] at h4
    omega
  · simp at h

theorem search_operator_length {exp str suffix : List Char}
    (h : search_operator exp = some (str, suffix)) : suffix.length < exp.length := by
  unfold search_operator at h
  split at h
  · rename_i c r hr
    split at h
    · simp only [Option.some.injEq, Prod.mk.injEq] at h
      rw [← h.2]
      have h4 := length_dropWhile_le isSpace exp
      rw [hr] at h4
      simp only [List.length_cons] at h4
      omega
    · simp at h
  · simp at h

end patterns

/-! ## The loop of `createTokenList` -/

theorem Lexer.step_measure {α : Type} (D : DoubleOps α) (l l' : Lexer α)
    (hs : l.state ≠ .FINISHED) (h : l.step D = .ok l') : l'.measure < l.measure := by
  obtain ⟨state, exp, bal, toks, valid, msg⟩ := l
  cases state
  · simp only [Lexer.step] at h
    split at h
    · rename_i str suffix hm
      have := patterns.search_open_paren_length hm
      cases h
      simp only [Lexer.measure, parse_state.rank]
      omega
    · cases h
      simp [Lexer.measure, parse_state.rank]
  · simp only [Lexer.step] at h
    split at h
    · rename_i str suffix hm
      have := patterns.search_value_length hm
      split at h
      · cases h
        simp only [Lexer.measure, parse_state.rank]
        omega
      · cases h
    · cases h
      simp [Lexer.measure, parse_state.rank]
  · simp only [Lexer.step] at h
    split at h
    · rename_i str suffix hm
      have := patterns.search_close_paren_length hm
      cases h
      simp only [Lexer.measure, parse_state.rank]
      omega
    · cases h
      simp [Lexer.measure, parse_state.rank]
  · simp only [Lexer.step] at h
    split at h
    · rename_i str suffix hm
      have := patterns.search_operator_length hm
      split at h
      · cases h
        simp only [Lexer.measure, parse_state.rank]
        omega
      · cases h
    · cases h
      simp [Lexer.measure, parse_state.rank]
  · simp only [Lexer.step] at h
    split at h
    · split at h <;> cases h <;> simp [Lexer.measure, parse_state.rank]
    · cases h
      simp [Lexer.measure, parse_state.rank]
  · exact absurd rfl hs

/-- With as much fuel as the measure, the loop does not run out of fuel. -/
theorem Lexer.run_fuel {α : Type} (D : DoubleOps α) :
    ∀ (fuel : Nat) (l : Lexer α), l.measure ≤ fuel → Lexer.run D fuel l ≠ .error .out_of_fuel := by
  intro fuel
  induction fuel with
  | zero =>
    intro l hl
    have h0 : l.state = .FINISHED := by
      obtain ⟨state, exp, bal, toks, valid, msg⟩ := l
      cases state <;> simp [Lexer.measure, parse_state.rank] at hl ⊢
    simp [Lexer.run, h0]
  | succ n ih =>
    intro l hl
    unfold Lexer.run
    by_cases hf : l.state = .FINISHED
    · simp [hf]
    · simp only [hf, if_false]
      cases hst : l.step D with
      | error e =>
        simp only
        obtain ⟨state, exp, bal, toks, valid, msg⟩ := l
        intro he
        cases he
        cases state <;> simp only [Lexer.step] at hst
        · split at hst <;> cases hst
        · split at hst
          · split at hst <;> cases hst
          · cases hst
        · split at hst <;> cases hst
        · split at hst
          · split at hst
            · cases hst
            · rename_i e he
              cases hst
              unfold getOpTokenFromString at he
              repeat (split at he; cases he)
              cases he
          · cases hst
        · split at hst
          · split at hst <;> cases hst
          · cases hst
        · cases hst
      | ok l1 =>
        simp only
        have := Lexer.step_measure D l l1 hf hst
        exact ih l1 (by omega)

/-- A property of the locals that every pass keeps holds when the loop ends,
and the loop ends in the state `FINISHED`. -/
theorem Lexer.run_induction {α : Type} (D : DoubleOps α) (P : Lexer α → Prop)
    (hstep : ∀ l l1 : Lexer α, P l → l.state ≠ .FINISHED → l.step D = .ok l1 → P l1) :
    ∀ (fuel : Nat) (l l1 : Lexer α), P l → Lexer.run D fuel l = .ok l1 →
      P l1 ∧ l1.state = .FINISHED := by
  intro fuel
  induction fuel with
  | zero =>
    intro l l1 hP h
    unfold Lexer.run at h
    split at h
    · cases h
      exact ⟨hP, ‹_›⟩
    · cases h
  | succ n ih =>
    intro l l1 hP h
    unfold Lexer.run at h
    split at h
    · cases h
      exact ⟨hP, ‹_›⟩
    · rename_i hf
      split at h
      · rename_i l2 hst
        exact ih l2 l1 (hstep l l2 hP hf hst) h
      · cases h

/-! ## Shape of the token list during `createTokenList` -/

theorem depth_nil {α : Type} : depth ([] : List (Token α)) = 0 := rfl

theorem depth_append {α : Type} (ts us : List (Token α)) :
    depth (ts ++ us) = depth ts + depth us := by
  simp [depth]

theorem depth_cons {α : Type} (t : Token α) (ts : List (Token α)) :
    depth (t :: ts) = t.weight + depth ts := by
  simp [depth]

theorem depth_singleton {α : Type} (t : Token α) : depth [t] = t.weight := by
  simp [depth]

theorem getOpTokenFromString_ok {α : Type} {s : List Char} {t : Token α}
    (h : getOpTokenFromString s = .ok t) : ∃ f, t = .OperatorToken f := by
  unfold getOpTokenFromString at h
  repeat (split at h; exact ⟨_, (Except.ok.inj h).symm⟩)
  cases h

/-- Appending one token that may follow the last one keeps the shape. -/
theorem push_shape {α : Type} {ts : List (Token α)} {bal : Int} (t : Token α)
    (h : List.Chain' (fun a b => follows a b = true) ts ∧
      (∀ x ∈ ts.head?, x.startsOperand = true) ∧ bal = depth ts)
    (hl : ∀ x ∈ ts.getLast?, follows x t = true)
    (hh : ts = [] → t.startsOperand = true) :
    List.Chain' (fun a b => follows a b = true) (ts ++ [t]) ∧
      (∀ x ∈ (ts ++ [t]).head?, x.startsOperand = true) ∧
      bal + t.weight = depth (ts ++ [t]) := by
  obtain ⟨hc, hf, hb⟩ := h
  refine ⟨List.Chain'.append hc (List.chain'_singleton t) ?_, ?_, ?_⟩
  · intro x hx y hy
    simp only [List.head?_cons, Option.mem_def, Option.some.injEq] at hy
    subst hy
    exact hl x hx
  · intro x hx
    cases ts with
    | nil =>
      simp only [List.nil_append, List.head?_cons, Option.mem_def, Option.some.injEq] at hx
      subst hx
      exact hh rfl
    | cons a r =>
      simp only [List.cons_append, List.head?_cons, Option.mem_def, Option.some.injEq] at hx
      subst hx
      exact hf _ (by simp)
  · rw [depth_append, depth_singleton, hb]

theorem getLast?_push {α : Type} (ts : List (Token α)) (t : Token α) :
    (ts ++ [t]).getLast? = some t := by
  simp

/-- Every pass of the loop of `createTokenList` keeps `Lexer.Inv`. -/
theorem Lexer.step_inv {α : Type} (D : DoubleOps α) (l l1 : Lexer α) (hi : l.Inv)
    (_hs : l.state ≠ .FINISHED) (h : l.step D = .ok l1) : l1.Inv := by
  obtain ⟨state, exp, bal, toks, valid, msg⟩ := l
  obtain ⟨hc, hf, hb, hstate⟩ := hi
  simp only at hc hf hb hstate
  cases state
  · -- FIND_OPEN_PAREN
    simp only [Lexer.step] at h
    split at h
    · rename_i str suffix hm
      cases h
      have hlast : ∀ x ∈ toks.getLast?, x.endsOperand = false := hstate
      by_cases hminus : patterns.match_minus str = true
      · simp only [hminus, if_true]
        have e : toks ++ [Token.ValueToken D.neg_one, Token.OperatorToken .MUTILPICATION]
            ++ [Token.OpenParenToken]
            = ((toks ++ [Token.ValueToken D.neg_one]) ++ [Token.OperatorToken .MUTILPICATION])
              ++ [Token.OpenParenToken] := by simp
        rw [e]
        have s1 := push_shape (Token.ValueToken D.neg_one) ⟨hc, hf, hb⟩
          (fun x hx => by simp [follows, hlast x hx, Token.startsOperand, Token.getType])
          (fun _ => by simp [Token.startsOperand, Token.getType])
        have s2 := push_shape (Token.OperatorToken .MUTILPICATION) s1
          (fun x hx => by
            rw [getLast?_push] at hx
            cases hx
            simp [follows, Token.endsOperand, Token.startsOperand, Token.getType])
          (fun hnil => by simp at hnil)
        have s3 := push_shape (Token.OpenParenToken) s2
          (fun x hx => by
            rw [getLast?_push] at hx
            cases hx
            simp [follows, Token.endsOperand, Token.startsOperand, Token.getType])
          (fun hnil => by simp at hnil)
        refine ⟨s3.1, s3.2.1, ?_, ?_⟩
        · have := s3.2.2
          simp only [Token.weight, Token.getType] at this
          simp only
          rw [← this]
          omega
        · show ∀ t ∈ List.getLast? _, Token.endsOperand t = false
          intro t ht
          rw [getLast?_push] at ht
          cases ht
          simp [Token.endsOperand, Token.getType]
      · simp only [hminus]
        have s3 := push_shape (Token.OpenParenToken) ⟨hc, hf, hb⟩
          (fun x hx => by simp [follows, hlast x hx, Token.startsOperand, Token.getType])
          (fun _ => by simp [Token.startsOperand, Token.getType])
        simp only [Bool.false_eq_true, if_false, List.append_nil]
        refine ⟨s3.1, s3.2.1, ?_, ?_⟩
        · have := s3.2.2
          simp only [Token.weight, Token.getType] at this
          exact this
        · show ∀ t ∈ List.getLast? _, Token.endsOperand t = false
          intro t ht
          rw [getLast?_push] at ht
          cases ht
          simp [Token.endsOperand, Token.getType]
    · cases h
      exact ⟨hc, hf, hb, hstate⟩
  · -- FIND_VALUE
    simp only [Lexer.step] at h
    split at h
    · rename_i str suffix hm
      split at h
      · rename_i v hv
        cases h
        have hlast : ∀ x ∈ toks.getLast?, x.endsOperand = false := hstate
        have s1 := push_shape (Token.ValueToken v) ⟨hc, hf, hb⟩
          (fun x hx => by simp [follows, hlast x hx, Token.startsOperand, Token.getType])
          (fun _ => by simp [Token.startsOperand, Token.getType])
        refine ⟨s1.1, s1.2.1, ?_, ?_⟩
        · have := s1.2.2
          simp only [Token.weight, Token.getType] at this
          simp only
          rw [← this]
          omega
        · show ∃ t ∈ List.getLast? _, Token.endsOperand t = true
          exact ⟨_, getLast?_push _ _, by simp [Token.endsOperand, Token.getType]⟩
      · cases h
    · cases h
      refine ⟨hc, hf, hb, ?_⟩
      show (false = true ↔ MSG_VALUE_NOT_FOUND = "") ∧ (false = true → _)
      exact ⟨by decide, fun hx => by cases hx⟩
  · -- FIND_CLOSE_PAREN
    simp only [Lexer.step] at h
    split at h
    · rename_i str suffix hm
      cases h
      have hlast : ∃ x ∈ toks.getLast?, x.endsOperand = true := hstate
      obtain ⟨x, hx, hxe⟩ := hlast
      have s1 := push_shape (Token.CloseParenToken) ⟨hc, hf, hb⟩
        (fun y hy => by
          rw [Option.mem_def] at hx hy
          rw [hx] at hy
          cases hy
          simp [follows, hxe, Token.startsOperand, Token.getType])
        (fun hnil => by
          subst hnil
          simp at hx)
      refine ⟨s1.1, s1.2.1, ?_, ?_⟩
      · have := s1.2.2
        simp only [Token.weight, Token.getType] at this
        simp only
        rw [← this]
        omega
      · show ∃ t ∈ List.getLast? _, Token.endsOperand t = true
        exact ⟨_, getLast?_push _ _, by simp [Token.endsOperand, Token.getType]⟩
    · cases h
      exact ⟨hc, hf, hb, hstate⟩
  · -- FIND_OPERATOR
    simp only [Lexer.step] at h
    split at h
    · rename_i str suffix hm
      split at h
      · rename_i t ht
        cases h
        obtain ⟨f, rfl⟩ := getOpTokenFromString_ok ht
        have hlast : ∃ x ∈ toks.getLast?, x.endsOperand = true := hstate
        obtain ⟨x, hx, hxe⟩ := hlast
        have s1 := push_shape (Token.OperatorToken f) ⟨hc, hf, hb⟩
          (fun y hy => by
            rw [Option.mem_def] at hx hy
            rw [hx] at hy
            cases hy
            simp [follows, hxe, Token.startsOperand, Token.getType])
          (fun hnil => by
            subst hnil
            simp at hx)
        refine ⟨s1.1, s1.2.1, ?_, ?_⟩
        · have := s1.2.2
          simp only [Token.weight, Token.getType] at this
          simp only
          rw [← this]
          omega
        · show ∀ t ∈ List.getLast? _, Token.endsOperand t = false
          intro t ht
          rw [getLast?_push] at ht
          cases ht
          simp [Token.endsOperand, Token.getType]
      · cases h
    · cases h
      exact ⟨hc, hf, hb, hstate⟩
  · -- OPERATOR_NOT_FOUND
    simp only [Lexer.step] at h
    have hlast : ∃ x ∈ toks.getLast?, x.endsOperand = true := hstate
    split at h
    · split at h
      · cases h
        refine ⟨hc, hf, hb, ?_⟩
        show (false = true ↔ MSG_UNBALANCED_PARENS = "") ∧ (false = true → _)
        exact ⟨by decide, fun hx => by cases hx⟩
      · rename_i hbal
        cases h
        refine ⟨hc, hf, hb, ?_⟩
        show (true = true ↔ MSG_NO_ERROR = "") ∧ (true = true → _)
        refine ⟨by decide, fun _ => ⟨hlast, ?_⟩⟩
        simp only [ne_eq, Decidable.not_not] at hbal
        rw [← hb]
        exact hbal
    · cases h
      refine ⟨hc, hf, hb, ?_⟩
      show (false = true ↔ MSG_OPERATOR_NOT_FOUND = "") ∧ (false = true → _)
      exact ⟨by decide, fun hx => by cases hx⟩
  · cases h
    exact ⟨hc, hf, hb, hstate⟩

/-- The exceptions a pass of the loop can raise: the one of `std::stod` and the
one of `getOpTokenFromString`. -/
theorem Lexer.step_error {α : Type} (D : DoubleOps α) (l : Lexer α) (e : Fault)
    (h : l.step D = .error e) :
    e = .exception EXMSG_STOD ∨ e = .exception EXMSG_INVALID_OPERATOR := by
  obtain ⟨state, exp, bal, toks, valid, msg⟩ := l
  cases state <;> simp only [Lexer.step] at h
  · split at h <;> cases h
  · split at h
    · split at h
      · cases h
      · cases h
        exact Or.inl rfl
    · cases h
  · split at h <;> cases h
  · split at h
    · split at h
      · cases h
      · rename_i e1 he
        cases h
        unfold getOpTokenFromString at he
        repeat (split at he; cases he)
        cases he
        exact Or.inr rfl
    · cases h
  · split at h
    · split at h <;> cases h
    · cases h
  · cases h

theorem Lexer.run_error {α : Type} (D : DoubleOps α) :
    ∀ (fuel : Nat) (l : Lexer α) (e : Fault), Lexer.run D fuel l = .error e →
      e = .out_of_fuel ∨ e = .exception EXMSG_STOD ∨ e = .exception EXMSG_INVALID_OPERATOR := by
  intro fuel
  induction fuel with
  | zero =>
    intro l e h
    unfold Lexer.run at h
    split at h
    · cases h
    · cases h
      exact Or.inl rfl
  | succ n ih =>
    intro l e h
    unfold Lexer.run at h
    split at h
    · cases h
    · split at h
      · exact ih _ e h
      · rename_i e1 he
        cases h
        exact Or.inr (Lexer.step_error D l e he)

/-- The run of `createTokenList` ends: it raises one of its two exceptions, or
it returns with the flag and the message set together and, when the flag is
set, a well-shaped token list. -/
theorem lexExpression_result {α : Type} (D : DoubleOps α) (exp : String) :
    (lexExpression D exp = .error (.exception EXMSG_STOD)
      ∨ lexExpression D exp = .error (.exception EXMSG_INVALID_OPERATOR))
    ∨ ∃ ts v m, lexExpression D exp = .ok (ts, v, m) ∧ (v = true ↔ m = "")
        ∧ (v = true → WellShaped ts) := by
  unfold lexExpression
  have hm : (Lexer.start exp : Lexer α).measure ≤ lexFuel exp.data.length := by
    simp only [Lexer.measure, Lexer.start, parse_state.rank, lexFuel]
    omega
  have hi : (Lexer.start exp : Lexer α).Inv := by
    refine ⟨List.chain'_nil, ?_, rfl, ?_⟩
    · intro t ht
      simp [Lexer.start] at ht
    · show ∀ t ∈ List.getLast? _, Token.endsOperand t = false
      intro t ht
      simp [Lexer.start] at ht
  cases hrun : Lexer.run D (lexFuel exp.data.length) (Lexer.start exp) with
  | error e =>
    left
    rcases Lexer.run_error D _ _ e hrun with h | h | h
    · subst h
      exact absurd hrun (Lexer.run_fuel D _ _ hm)
    · subst h
      exact Or.inl rfl
    · subst h
      exact Or.inr rfl
  | ok l =>
    right
    obtain ⟨hinv, hfin⟩ := Lexer.run_induction D Lexer.Inv (Lexer.step_inv D) _ _ l hi hrun
    obtain ⟨hc, hf, _, hstate⟩ := hinv
    rw [hfin] at hstate
    refine ⟨_, _, _, rfl, hstate.1, ?_⟩
    intro hv
    obtain ⟨hl, hd⟩ := hstate.2 hv
    exact ⟨hc, hf, hl, hd⟩

/-! ## Reading the token list -/

theorem tokenAt_ok_iff {α : Type} (tokens : List (Token α)) (p : Int) (a : Token α) :
    tokenAt tokens p = .ok a ↔ 0 ≤ p ∧ tokens[p.toNat]? = some a := by
  unfold tokenAt
  by_cases hp : p < 0
  · simp only [hp, if_true]
    constructor
    · intro h
      cases h
    · intro h
      omega
  · simp only [hp, if_false]
    cases hg : tokens[p.toNat]? with
    | none =>
      constructor
      · intro h
        cases h
      · intro h
        cases h.2
    | some t =>
      constructor
      · intro h
        cases h
        exact ⟨by omega, rfl⟩
      · intro h
        cases h.2
        rfl

theorem tokenAt_bounds {α : Type} {tokens : List (Token α)} {p : Int} {a : Token α}
    (h : tokenAt tokens p = .ok a) : 0 ≤ p ∧ p < tokens.length := by
  obtain ⟨h0, h1⟩ := (tokenAt_ok_iff tokens p a).mp h
  have := (List.getElem?_eq_some_iff.mp h1).1
  omega

theorem tokenAt_exists {α : Type} (tokens : List (Token α)) (p : Int) (h0 : 0 ≤ p)
    (h1 : p < tokens.length) : ∃ a, tokenAt tokens p = .ok a := by
  have hlt : p.toNat < tokens.length := by omega
  exact ⟨tokens[p.toNat], (tokenAt_ok_iff tokens p _).mpr ⟨h0, List.getElem?_eq_getElem hlt⟩⟩

theorem tokenAt_unique {α : Type} {tokens : List (Token α)} {p : Int} {a b : Token α}
    (ha : tokenAt tokens p = .ok a) (hb : tokenAt tokens p = .ok b) : a = b := by
  rw [ha] at hb
  exact Except.ok.inj hb

theorem depthAt_succ {α : Type} {tokens : List (Token α)} {p : Int} {a : Token α}
    (h : tokenAt tokens p = .ok a) : depthAt tokens (p + 1) = depthAt tokens p + a.weight := by
  obtain ⟨h0, h1⟩ := (tokenAt_ok_iff tokens p a).mp h
  have e : (p + 1).toNat = p.toNat + 1 := by omega
  unfold depthAt
  rw [e, List.take_succ, h1, depth_append]
  simp [depth]

theorem depthAt_length {α : Type} (tokens : List (Token α)) :
    depthAt tokens (tokens.length : Int) = depth tokens := by
  unfold depthAt
  simp

theorem depthAt_zero {α : Type} (tokens : List (Token α)) : depthAt tokens 0 = 0 := by
  simp [depthAt, depth]

theorem weight_of_type {α : Type} (t : Token α) :
    (t.getType = .OPEN_PAREN → t.weight = 1) ∧ (t.getType = .CLOSE_PAREN → t.weight = -1)
      ∧ (t.getType = .VALUE → t.weight = 0) ∧ (t.getType = .OPERATOR → t.weight = 0) := by
  cases t <;> simp [Token.weight, Token.getType]

theorem weight_bounds {α : Type} (t : Token α) : -1 ≤ t.weight ∧ t.weight ≤ 1 := by
  cases t <;> simp [Token.weight, Token.getType]

theorem weight_neg {α : Type} (t : Token α) (h : t.weight ≤ -1) : t.getType = .CLOSE_PAREN := by
  cases t <;> simp [Token.weight, Token.getType] at h ⊢

/-- Adjacent tokens of a chain follow each other. -/
theorem follows_at {α : Type} {tokens : List (Token α)}
    (hc : List.Chain' (fun a b => follows a b = true) tokens) {p : Int} {a b : Token α}
    (ha : tokenAt tokens p = .ok a) (hb : tokenAt tokens (p + 1) = .ok b) :
    follows a b = true := by
  obtain ⟨h0, h1⟩ := (tokenAt_ok_iff tokens p a).mp ha
  obtain ⟨_, h2⟩ := (tokenAt_ok_iff tokens (p + 1) b).mp hb
  have e : (p + 1).toNat = p.toNat + 1 := by omega
  rw [e] at h2
  obtain ⟨hlt1, hg1⟩ := List.getElem?_eq_some_iff.mp h1
  obtain ⟨hlt2, hg2⟩ := List.getElem?_eq_some_iff.mp h2
  have := List.chain'_iff_get.mp hc p.toNat (by omega)
  simp only [List.get_eq_getElem] at this
  rw [hg1, hg2] at this
  exact this

/-- In a well-shaped list a token that does not end an operand has a successor. -/
theorem next_exists {α : Type} {tokens : List (Token α)} (hw : WellShaped tokens) {p : Int}
    {a : Token α} (ha : tokenAt tokens p = .ok a) (hne : a.endsOperand = false) :
    ∃ b, tokenAt tokens (p + 1) = .ok b := by
  obtain ⟨h0, h1⟩ := (tokenAt_ok_iff tokens p a).mp ha
  obtain ⟨hlt1, hg1⟩ := List.getElem?_eq_some_iff.mp h1
  obtain ⟨z, hz, hze⟩ := hw.last
  rw [Option.mem_def, List.getLast?_eq_getElem?] at hz
  obtain ⟨hlt3, hg3⟩ := List.getElem?_eq_some_iff.mp hz
  apply tokenAt_exists _ _ (by omega)
  by_contra hcon
  have e : p.toNat = tokens.length - 1 := by omega
  have : a = z := by
    rw [← hg1, ← hg3]
    simp only [e]
  rw [this, hze] at hne
  cases hne

/-! ## `getSubExpressionEndPos` -/

theorem scanParens_cons {α : Type} (t : Token α) (rest : List (Token α)) (b pos : Int) :
    scanParens (t :: rest) b pos =
      if b + t.weight ≠ 0 then scanParens rest (b + t.weight) (pos + 1) else .ok pos := by
  cases t <;> simp [scanParens, Token.weight, Token.getType, Int.sub_eq_add_neg]

/-- The scan for the matching `CloseParen` stops at the first position that
brings the balance to zero, when there is a position that brings it to zero
or below. -/
theorem scanParens_ok {α : Type} :
    ∀ (rest : List (Token α)) (b pos : Int), 1 ≤ b →
      ∀ k : Nat, k < rest.length → b + depth (rest.take (k + 1)) ≤ 0 →
        ∃ j : Nat, j ≤ k ∧ scanParens rest b pos = .ok (pos + j)
          ∧ b + depth (rest.take (j + 1)) = 0
          ∧ ∃ c, rest[j]? = some c ∧ c.getType = .CLOSE_PAREN := by
  intro rest
  induction rest with
  | nil =>
    intro b pos _ k hk
    simp at hk
  | cons t rest ih =>
    intro b pos hb k hk hd
    rw [scanParens_cons]
    have hwb := weight_bounds t
    by_cases h0 : b + t.weight = 0
    · refine ⟨0, Nat.zero_le _, ?_, ?_, t, by simp, ?_⟩
      · simp [h0]
      · simp only [Nat.zero_add, List.take_succ_cons, List.take_zero, depth_singleton, depth_cons, depth_nil]
        omega
      · exact weight_neg t (by omega)
    · simp only [ne_eq, h0, not_false_eq_true, if_true]
      rw [List.take_succ_cons, depth_cons] at hd
      cases k with
      | zero =>
        simp only [List.take_zero, depth_nil] at hd
        omega
      | succ k1 =>
        simp only [List.length_cons] at hk
        obtain ⟨j, hj, hscan, hdj, c, hc, hct⟩ :=
          ih (b + t.weight) (pos + 1) (by omega) k1 (by omega) (by omega)
        refine ⟨j + 1, by omega, ?_, ?_, c, ?_, hct⟩
        · rw [hscan]
          congr 1
          push_cast
          omega
        · rw [List.take_succ_cons, depth_cons]
          omega
        · simpa using hc

theorem getSubExpressionEndPos_other {α : Type} {tokens : List (Token α)} {p : Int}
    {a : Token α} (ha : tokenAt tokens p = .ok a) (hne : a.getType ≠ .OPEN_PAREN) :
    getSubExpressionEndPos tokens p = .ok p := by
  unfold getSubExpressionEndPos
  rw [ha]
  simp [hne]

/-- For an `OpenParen` at `p` whose depth is reached again by position `k`,
`getSubExpressionEndPos` returns the position of a `CloseParen` in `(p, k]`
after which the depth is the depth in front of `p`. -/
theorem getSubExpressionEndPos_open {α : Type} {tokens : List (Token α)} {p : Int}
    {a : Token α} (ha : tokenAt tokens p = .ok a) (hopen : a.getType = .OPEN_PAREN)
    (k : Int) (hpk : p < k) (hkn : k < tokens.length)
    (hd : depthAt tokens (k + 1) ≤ depthAt tokens p) :
    ∃ q, getSubExpressionEndPos tokens p = .ok q ∧ p < q ∧ q ≤ k
      ∧ (∃ c, tokenAt tokens q = .ok c ∧ c.getType = .CLOSE_PAREN)
      ∧ depthAt tokens (q + 1) = depthAt tokens p := by
  obtain ⟨h0, _⟩ := tokenAt_bounds ha
  have h1 := depthAt_succ ha
  rw [(weight_of_type a).1 hopen] at h1
  have hsplit : ∀ i : Nat, depthAt tokens (p + 1 + i)
      = depthAt tokens (p + 1) + depth ((tokens.drop (p + 1).toNat).take i) := by
    intro i
    unfold depthAt
    have e : (p + 1 + (i : Int)).toNat = (p + 1).toNat + i := by omega
    rw [e, List.take_add, depth_append]
  have hk' : (k - (p + 1)).toNat < (tokens.drop (p + 1).toNat).length := by
    simp only [List.length_drop]
    omega
  have hd' : (1 : Int) + depth ((tokens.drop (p + 1).toNat).take ((k - (p + 1)).toNat + 1)) ≤ 0 := by
    have := hsplit ((k - (p + 1)).toNat + 1)
    have e : p + 1 + (((k - (p + 1)).toNat + 1 : Nat) : Int) = k + 1 := by
      push_cast
      omega
    rw [e] at this
    omega
  obtain ⟨j, hj, hscan, hdj, c, hc, hct⟩ :=
    scanParens_ok (tokens.drop (p + 1).toNat) 1 (p + 1) (le_refl _) _ hk' hd'
  refine ⟨p + 1 + j, ?_, by omega, by omega, ⟨c, ?_, hct⟩, ?_⟩
  · unfold getSubExpressionEndPos
    rw [ha]
    simp only [hopen, ne_eq, not_true_eq_false, if_false]
    exact hscan
  · rw [tokenAt_ok_iff]
    refine ⟨by omega, ?_⟩
    rw [List.getElem?_drop] at hc
    have e : (p + 1 + (j : Int)).toNat = (p + 1).toNat + j := by omega
    rw [e]
    exact hc
  · have := hsplit (j + 1)
    have e : p + 1 + ((j + 1 : Nat) : Int) = p + 1 + j + 1 := by
      push_cast
      omega
    rw [e] at this
    omega

/-! ## The evaluator on a well-shaped token list -/

theorem Resolved.ok {α : Type} (v : α) : Resolved (Except.ok v : Except Fault α) :=
  Or.inl ⟨v, rfl⟩

theorem Resolved.unexpected {α : Type} :
    Resolved (Except.error (.exception EXMSG_UNEXPECTED_TOKEN) : Except Fault α) :=
  Or.inr rfl

/-- An operand that starts inside a range ends inside it. -/
theorem operand_end {α : Type} {tokens : List (Token α)} {p e : Int} {a z : Token α}
    (ha : tokenAt tokens p = .ok a) (hs : a.startsOperand = true)
    (hz : tokenAt tokens e = .ok z) (hze : z.endsOperand = true) (hpe : p ≤ e)
    (hd : depthAt tokens (e + 1) ≤ depthAt tokens p) :
    ValueOk tokens p ∧ ∃ q, getSubExpressionEndPos tokens p = .ok q ∧ p ≤ q ∧ q ≤ e
      ∧ depthAt tokens (q + 1) = depthAt tokens p := by
  by_cases hopen : a.getType = .OPEN_PAREN
  · have hne : p ≠ e := by
      rintro rfl
      have := tokenAt_unique ha hz
      subst this
      cases a <;> simp [Token.getType, Token.endsOperand] at hopen hze
    have hlt : p < e := by omega
    have hen := (tokenAt_bounds hz).2
    obtain ⟨q, hq, h1, h2, _, h4⟩ := getSubExpressionEndPos_open ha hopen e hlt hen hd
    exact ⟨⟨a, ha, hs, fun _ => ⟨e, hlt, hen, hd⟩⟩, q, hq, by omega, h2, h4⟩
  · refine ⟨⟨a, ha, hs, fun h => absurd h hopen⟩, p, getSubExpressionEndPos_other ha hopen,
      le_refl _, hpe, ?_⟩
    rw [depthAt_succ ha]
    cases a <;> simp [Token.getType, Token.startsOperand, Token.weight] at hopen hs ⊢

/-- On a well-shaped token list the evaluator neither reads outside the list
nor runs out of fuel: every call returns a value or raises the unexpected-token
error. -/
theorem resolve_total {α : Type} (D : DoubleOps α) (tokens : List (Token α))
    (hw : WellShaped tokens) :
    ∀ fuel : Nat,
      (∀ s e : Int, RangeOk tokens s e → 2 * ((tokens.length : Int) - s) + 2 ≤ fuel →
        Resolved (resolveTokenList D fuel tokens s e)) ∧
      (∀ (e cur : Int) (res : α), LoopOk tokens cur e →
        2 * ((tokens.length : Int) - cur) + 1 ≤ fuel →
        Resolved (resolveLoop D fuel tokens e (e + 1) cur res)) ∧
      (∀ p : Int, ValueOk tokens p → 2 * ((tokens.length : Int) - p) + 1 ≤ fuel →
        Resolved (resolveValueAtPos D fuel tokens p)) := by
  intro fuel
  induction fuel with
  | zero =>
    refine ⟨?_, ?_, ?_⟩
    · rintro s e ⟨_, ⟨a, ha, _⟩, _, _⟩ hf
      have := tokenAt_bounds ha
      simp only [Nat.cast_zero] at hf
      omega
    · rintro e cur res ⟨_, h1, ⟨z, hz, _⟩, _⟩ hf
      have := tokenAt_bounds hz
      simp only [Nat.cast_zero] at hf
      omega
    · rintro p ⟨a, ha, _⟩ hf
      have := tokenAt_bounds ha
      simp only [Nat.cast_zero] at hf
      omega
  | succ f ih =>
    obtain ⟨ihR, ihL, ihV⟩ := ih
    refine ⟨?_, ?_, ?_⟩
    · -- resolveTokenList
      rintro s e ⟨hse, ⟨a, ha, has⟩, ⟨z, hz, hze⟩, hd⟩ hf
      simp only [Nat.cast_succ] at hf
      obtain ⟨hv, q, hq, hsq, hqe, hdq⟩ := operand_end ha has hz hze hse hd
      simp only [resolveTokenList, ha, hq]
      rcases ihV s hv (by omega) with ⟨v, hv1⟩ | hv1
      · rw [hv1]
        exact ihL e (q + 1) v ⟨by have := tokenAt_bounds ha; omega, by omega, ⟨z, hz, hze⟩,
          by omega⟩ (by omega)
      · rw [hv1]
        exact Resolved.unexpected
    · -- the loop
      rintro e cur res ⟨h0, hce, ⟨z, hz, hze⟩, hd⟩ hf
      simp only [Nat.cast_succ] at hf
      have hen := (tokenAt_bounds hz).2
      unfold resolveLoop
      by_cases hlt : cur < e + 1
      · simp only [hlt, if_true]
        obtain ⟨t, ht⟩ := tokenAt_exists tokens cur h0 (by omega)
        rw [ht]
        cases t with
        | OpenParenToken => exact Resolved.unexpected
        | CloseParenToken => exact Resolved.unexpected
        | ValueToken v => exact Resolved.unexpected
        | OperatorToken fn =>
          have hne : cur ≠ e := by
            rintro rfl
            have := tokenAt_unique ht hz
            subst this
            simp [Token.getType, Token.endsOperand] at hze
          obtain ⟨b, hb⟩ := next_exists hw ht (by simp [Token.getType, Token.endsOperand])
          have hbs : b.startsOperand = true := by
            have := follows_at hw.chain ht hb
            simpa [follows, Token.endsOperand, Token.getType] using this
          have hdc : depthAt tokens (cur + 1) = depthAt tokens cur := by
            rw [depthAt_succ ht]
            simp [Token.weight, Token.getType]
          have hend : LoopOk tokens (e + 1) e := ⟨by omega, le_refl _, ⟨z, hz, hze⟩, le_refl _⟩
          have hrange : RangeOk tokens (cur + 1) e :=
            ⟨by omega, ⟨b, hb, hbs⟩, ⟨z, hz, hze⟩, by omega⟩
          obtain ⟨hv, q, hq, hsq, hqe, hdq⟩ :=
            operand_end hb hbs hz hze (by omega) (by omega)
          have hnext : ∀ r : α, Resolved (resolveLoop D f tokens e (e + 1) (q + 1) r) :=
            fun r => ihL e (q + 1) r ⟨by omega, by omega, ⟨z, hz, hze⟩, by omega⟩ (by omega)
          cases fn with
          | ADDITION =>
            simp only
            rcases ihR (cur + 1) e hrange (by omega) with ⟨r, hr⟩ | hr
            · rw [hr]
              exact ihL e (e + 1) _ hend (by omega)
            · rw [hr]
              exact Resolved.unexpected
          | SUBTRACTION =>
            simp only
            rcases ihR (cur + 1) e hrange (by omega) with ⟨r, hr⟩ | hr
            · rw [hr]
              exact ihL e (e + 1) _ hend (by omega)
            · rw [hr]
              exact Resolved.unexpected
          | MUTILPICATION =>
            simp only [hq]
            rcases ihV (cur + 1) hv (by omega) with ⟨r, hr⟩ | hr
            · rw [hr]
              exact hnext _
            · rw [hr]
              exact Resolved.unexpected
          | DIVISION =>
            simp only [hq]
            rcases ihV (cur + 1) hv (by omega) with ⟨r, hr⟩ | hr
            · rw [hr]
              exact hnext _
            · rw [hr]
              exact Resolved.unexpected
      · simp only [hlt, if_false]
        exact Resolved.ok res
    · -- resolveValueAtPos
      rintro p ⟨a, ha, has, hk⟩ hf
      simp only [Nat.cast_succ] at hf
      unfold resolveValueAtPos
      rw [ha]
      cases a with
      | CloseParenToken => exact Resolved.unexpected
      | OperatorToken fn => exact Resolved.unexpected
      | ValueToken v => exact Resolved.ok v
      | OpenParenToken =>
        obtain ⟨k, hpk, hkn, hdk⟩ := hk rfl
        obtain ⟨q, hq, hpq, hqk, ⟨c, hc, hct⟩, hdq⟩ :=
          getSubExpressionEndPos_open ha rfl k hpk hkn hdk
        simp only [hq]
        obtain ⟨b, hb⟩ := next_exists hw ha (by simp [Token.getType, Token.endsOperand])
        have hbs : b.startsOperand = true := by
          have := follows_at hw.chain ha hb
          simpa [follows, Token.endsOperand, Token.getType] using this
        have hq2 : q ≠ p + 1 := by
          rintro rfl
          have := tokenAt_unique hb hc
          subst this
          cases b <;> simp [Token.getType, Token.startsOperand] at hct hbs
        obtain ⟨y, hy⟩ := tokenAt_exists tokens (q - 1) (by have := tokenAt_bounds ha; omega)
          (by have := tokenAt_bounds hc; omega)
        have hc' : tokenAt tokens (q - 1 + 1) = .ok c := by
          rw [Int.sub_add_cancel]
          exact hc
        have hye : y.endsOperand = true := by
          have := follows_at hw.chain hy hc'
          cases hyo : y.endsOperand with
          | true => rfl
          | false =>
            rw [follows, hyo] at this
            cases c <;> simp [Token.getType, Token.startsOperand] at hct this
        have hd1 := depthAt_succ ha
        have hd2 := depthAt_succ hc'
        rw [Int.sub_add_cancel] at hd2
        rw [(weight_of_type c).2.1 hct] at hd2
        simp only [Token.weight, Token.getType] at hd1
        refine ihR (p + 1) (q - 1) ⟨by omega, ⟨b, hb, hbs⟩, ⟨y, hy, hye⟩, ?_⟩ (by omega)
        rw [Int.sub_add_cancel]
        omega

/-- The call of `evaluateExpression` on a well-shaped token list returns a
value or raises the unexpected-token error. -/
theorem resolveAll_resolved {α : Type} (D : DoubleOps α) (tokens : List (Token α))
    (hw : WellShaped tokens) : Resolved (resolveAll D tokens) := by
  obtain ⟨z, hz, hze⟩ := hw.last
  rw [Option.mem_def, List.getLast?_eq_getElem?] at hz
  obtain ⟨hlt, hg⟩ := List.getElem?_eq_some_iff.mp hz
  have hpos : 0 < tokens.length := by omega
  have hzat : tokenAt tokens ((tokens.length : Int) - 1) = .ok z := by
    rw [tokenAt_ok_iff]
    refine ⟨by omega, ?_⟩
    have e : ((tokens.length : Int) - 1).toNat = tokens.length - 1 := by omega
    rw [e]
    exact hz
  obtain ⟨a, ha⟩ := tokenAt_exists tokens 0 (le_refl _) (by omega)
  have has : a.startsOperand = true := by
    apply hw.first
    obtain ⟨_, h1⟩ := (tokenAt_ok_iff tokens 0 a).mp ha
    rw [Option.mem_def, List.head?_eq_getElem?]
    simpa using h1
  refine (resolve_total D tokens hw (evalFuel tokens.length)).1 0 _ ⟨by omega, ⟨a, ha, has⟩,
    ⟨z, hzat, hze⟩, ?_⟩ ?_
  · rw [Int.sub_add_cancel, depthAt_length, depthAt_zero, hw.balance]
  · simp only [evalFuel]
    push_cast
    omega

/-! ## The flag and the message at the start do not matter to `createTokenList` -/

theorem Lexer.step_frame {α : Type} (D : DoubleOps α) (l : Lexer α) (v : Bool) (m : String)
    (hs : l.state ≠ .FINISHED) :
    ({ l with _is_valid := v, _error_message := m } : Lexer α).step D =
      match l.step D with
      | .ok l1 =>
        .ok (if l1.state = .FINISHED then l1 else { l1 with _is_valid := v, _error_message := m })
      | .error e => .error e := by
  obtain ⟨state, exp, bal, toks, valid, msg⟩ := l
  cases state
  · simp only [Lexer.step]
    split <;> simp
  · simp only [Lexer.step]
    split
    · split <;> simp
    · simp
  · simp only [Lexer.step]
    split <;> simp
  · simp only [Lexer.step]
    split
    · split <;> simp
    · simp
  · simp only [Lexer.step]
    split
    · split <;> simp
    · simp
  · exact absurd rfl hs

theorem Lexer.run_finished {α : Type} (D : DoubleOps α) (fuel : Nat) (l : Lexer α)
    (h : l.state = .FINISHED) : Lexer.run D fuel l = .ok l := by
  cases fuel <;> simp [Lexer.run, h]

theorem Lexer.run_frame {α : Type} (D : DoubleOps α) (v : Bool) (m : String) :
    ∀ (fuel : Nat) (l : Lexer α), l.state ≠ .FINISHED →
      Lexer.run D fuel ({ l with _is_valid := v, _error_message := m } : Lexer α)
        = Lexer.run D fuel l := by
  intro fuel
  induction fuel with
  | zero =>
    intro l hs
    simp [Lexer.run, hs]
  | succ n ih =>
    intro l hs
    unfold Lexer.run
    simp only [hs, if_false]
    rw [Lexer.step_frame D l v m hs]
    cases hst : l.step D with
    | error e => rfl
    | ok l1 =>
      simp only
      by_cases hf : l1.state = .FINISHED
      · simp only [hf, if_true]
      · simp only [hf, if_false]
        exact ih l1 hf

/-- Function `createTokenList` through `lexExpression`: what it writes depends on
the text alone. -/
theorem Expression.createTokenList_eq {α : Type} (D : DoubleOps α) (self : Expression α) :
    self.createTokenList D =
      match lexExpression D self._exp with
      | .ok (ts, v, m) =>
        .ok { self with _token_list := ts, _is_valid := v, _error_message := m }
      | .error e => .error e := by
  unfold Expression.createTokenList lexExpression
  have h := Lexer.run_frame D self._is_valid self._error_message
    (lexFuel self._exp.data.length) (Lexer.start self._exp) (by simp [Lexer.start])
  have e : Lexer.init self =
      { (Lexer.start self._exp : Lexer α) with
        _is_valid := self._is_valid, _error_message := self._error_message } := rfl
  rw [e, h]
  split <;> rfl

/-! ## `evaluateExpression` -/

/-- Function `evaluateExpression`, with `createTokenList` replaced by the run on
the text. -/
theorem Expression.evaluateExpression_eq {α : Type} (D : DoubleOps α) (self : Expression α) :
    self.evaluateExpression D =
      if self._exp.data.isEmpty then
        .returned (Expression.checkInfinite D
          { self with _is_valid := false, _error_message := MSG_EMPTY_EXPRESSION })
      else
        match lexExpression D self._exp with
        | .error e => self.rethrow e
        | .ok (ts, v, m) =>
          if v then
            match resolveAll D ts with
            | .ok x =>
              .returned (Expression.checkInfinite D
                { self with _token_list := ts, _is_valid := v, _error_message := m, _value := x })
            | .error e =>
              Expression.rethrow
                { self with _token_list := ts, _is_valid := v, _error_message := m } e
          else
            .returned (Expression.checkInfinite D
              { self with _token_list := ts, _is_valid := v, _error_message := m })
      := by
  unfold Expression.evaluateExpression
  by_cases hE : self._exp.data.isEmpty = true
  · simp [hE]
  · simp only [hE, Bool.false_eq_true, if_false]
    rw [Expression.createTokenList_eq]
    cases hl : lexExpression D self._exp with
    | error e => rfl
    | ok r =>
      obtain ⟨ts, v, m⟩ := r
      cases v
      · simp
      · simp only [if_true, resolveAll]
        cases hr : resolveTokenList D (evalFuel ts.length) ts 0 ((ts.length : Int) - 1) <;> rfl

/-- The way `evaluateExpression` takes depends on the text alone, and it never
ends in a read outside the token list or without fuel. -/
theorem Expression.evaluateExpression_verdict {α : Type} (D : DoubleOps α) (exp : String) :
    ∃ V : Verdict α, V.Sound ∧
      ∀ self : Expression α, self._exp = exp → self.evaluateExpression D = V.apply D self := by
  by_cases hE : exp.data.isEmpty = true
  · refine ⟨.empty, trivial, ?_⟩
    rintro self rfl
    rw [Expression.evaluateExpression_eq]
    simp [hE, Verdict.apply]
  · rcases lexExpression_result D exp with (hl | hl) | ⟨ts, v, m, hl, hvm, hws⟩
    · refine ⟨.raised EXMSG_STOD, Or.inl rfl, ?_⟩
      rintro self rfl
      rw [Expression.evaluateExpression_eq]
      simp [hE, hl, Verdict.apply, Expression.rethrow]
    · refine ⟨.raised EXMSG_INVALID_OPERATOR, Or.inr (Or.inl rfl), ?_⟩
      rintro self rfl
      rw [Expression.evaluateExpression_eq]
      simp [hE, hl, Verdict.apply, Expression.rethrow]
    · cases v with
      | false =>
        refine ⟨.rejected ts m, ?_, ?_⟩
        · intro hm
          have := hvm.mpr hm
          cases this
        · rintro self rfl
          rw [Expression.evaluateExpression_eq]
          simp [hE, hl, Verdict.apply]
      | true =>
        have hm : m = "" := hvm.mp rfl
        subst hm
        have hw := hws rfl
        rcases resolveAll_resolved D ts hw with ⟨x, hx⟩ | hx
        · refine ⟨.resolved ts x, hw, ?_⟩
          rintro self rfl
          rw [Expression.evaluateExpression_eq]
          simp [hE, hl, hx, Verdict.apply, MSG_NO_ERROR]
        · refine ⟨.raised EXMSG_UNEXPECTED_TOKEN, Or.inr (Or.inr rfl), ?_⟩
          rintro self rfl
          rw [Expression.evaluateExpression_eq]
          simp [hE, hl, hx, Verdict.apply, Expression.rethrow]

/-- Writing the same verdict a second time changes nothing. -/
theorem Verdict.apply_twice {α : Type} (D : DoubleOps α) (V : Verdict α) (self : Expression α) :
    ∃ self1, (V.apply D self).self? = some self1 ∧ V.apply D self1 = V.apply D self := by
  cases V with
  | empty =>
    refine ⟨_, rfl, ?_⟩
    simp only [Verdict.apply, Expression.checkInfinite]
    by_cases hi : D.isinf self._value = true <;> simp [hi]
  | raised what => exact ⟨_, rfl, rfl⟩
  | rejected ts m =>
    refine ⟨_, rfl, ?_⟩
    simp only [Verdict.apply, Expression.checkInfinite]
    by_cases hi : D.isinf self._value = true <;> simp [hi]
  | resolved ts x =>
    refine ⟨_, rfl, ?_⟩
    simp only [Verdict.apply, Expression.checkInfinite]
    by_cases hi : D.isinf x = true <;> simp [hi]

/-! ## The loop of `createTokenList`, pass by pass -/

theorem Lexer.step_finished {α : Type} (D : DoubleOps α) (l : Lexer α)
    (h : l.state = .FINISHED) : l.step D = .ok l := by
  obtain ⟨state, exp, bal, toks, valid, msg⟩ := l
  cases h
  rfl

theorem Lexer.steps_finished {α : Type} (D : DoubleOps α) :
    ∀ (n : Nat) (l : Lexer α), l.state = .FINISHED → Lexer.steps D n l = .ok l := by
  intro n
  induction n with
  | zero =>
    intro l _
    rfl
  | succ n ih =>
    intro l h
    simp only [Lexer.steps, Lexer.step_finished D l h]
    exact ih l h

theorem Lexer.steps_add {α : Type} (D : DoubleOps α) :
    ∀ (a b : Nat) (l : Lexer α),
      Lexer.steps D (a + b) l =
        match Lexer.steps D a l with
        | .ok l1 => Lexer.steps D b l1
        | .error e => .error e := by
  intro a
  induction a with
  | zero =>
    intro b l
    simp [Lexer.steps]
  | succ a ih =>
    intro b l
    have e : a + 1 + b = (a + b) + 1 := by omega
    rw [e]
    simp only [Lexer.steps]
    cases hst : l.step D with
    | error e1 => rfl
    | ok l1 => exact ih b l1

/-- The loop with `fuel` passes allowed, through the first `fuel` passes. -/
theorem Lexer.run_eq_steps {α : Type} (D : DoubleOps α) :
    ∀ (fuel : Nat) (l : Lexer α),
      Lexer.run D fuel l =
        match Lexer.steps D fuel l with
        | .ok l1 => if l1.state = .FINISHED then .ok l1 else .error .out_of_fuel
        | .error e => .error e := by
  intro fuel
  induction fuel with
  | zero =>
    intro l
    simp [Lexer.run, Lexer.steps]
  | succ n ih =>
    intro l
    by_cases hf : l.state = .FINISHED
    · rw [Lexer.run_finished D _ l hf, Lexer.steps_finished D _ l hf]
      simp [hf]
    · unfold Lexer.run
      simp only [hf, if_false, Lexer.steps]
      cases hst : l.step D with
      | error e1 => rfl
      | ok l1 => exact ih l1

/-- A run of passes that has reached the state `FINISHED` is the result of the
loop, when the loop has the fuel its measure asks for. -/
theorem Lexer.run_of_steps {α : Type} (D : DoubleOps α) (fuel n : Nat) (l l3 : Lexer α)
    (hfuel : l.measure ≤ fuel) (hsteps : Lexer.steps D n l = .ok l3)
    (hfin : l3.state = .FINISHED) : Lexer.run D fuel l = .ok l3 := by
  have hne := Lexer.run_fuel D fuel l hfuel
  rw [Lexer.run_eq_steps] at hne ⊢
  by_cases hle : fuel ≤ n
  · have e : n = fuel + (n - fuel) := by omega
    rw [e, Lexer.steps_add] at hsteps
    cases h1 : Lexer.steps D fuel l with
    | error e1 =>
      rw [h1] at hsteps
      cases hsteps
    | ok l1 =>
      rw [h1] at hsteps hne
      simp only at hsteps hne ⊢
      by_cases hf : l1.state = .FINISHED
      · rw [Lexer.steps_finished D _ l1 hf] at hsteps
        cases hsteps
        simp [hf]
      · simp [hf] at hne
  · have e : fuel = n + (fuel - n) := by omega
    rw [e, Lexer.steps_add, hsteps]
    simp only
    rw [Lexer.steps_finished D _ l3 hfin]
    simp [hfin]

/-- A property of the locals that every pass keeps holds after any number of
passes. -/
theorem Lexer.steps_induction {α : Type} (D : DoubleOps α) (P : Lexer α → Prop)
    (hstep : ∀ l l1 : Lexer α, P l → l.step D = .ok l1 → P l1) :
    ∀ (n : Nat) (l l1 : Lexer α), P l → Lexer.steps D n l = .ok l1 → P l1 := by
  intro n
  induction n with
  | zero =>
    intro l l1 hP h
    cases h
    exact hP
  | succ n ih =>
    intro l l1 hP h
    simp only [Lexer.steps] at h
    split at h
    · rename_i l2 hst
      exact ih l2 l1 (hstep l l2 hP hst) h
    · cases h

/-- Passes that end in `FINISHED` give the result of `createTokenList`. -/
theorem Expression.createTokenList_of_steps {α : Type} (D : DoubleOps α) (self : Expression α)
    (n : Nat) (l : Lexer α) (hsteps : Lexer.steps D n (Lexer.init self) = .ok l)
    (hfin : l.state = .FINISHED) :
    self.createTokenList D =
      .ok { self with
        _token_list := l._token_list
        _is_valid := l._is_valid
        _error_message := l._error_message } := by
  have hm : (Lexer.init self).measure ≤ lexFuel self._exp.data.length := by
    simp only [Lexer.measure, Lexer.init, parse_state.rank, lexFuel]
    omega
  unfold Expression.createTokenList
  rw [Lexer.run_of_steps D _ _ _ _ hm hsteps hfin]

/-! ## What the patterns leave of the parentheses in the text -/

namespace patterns

theorem count_dropWhile (p : Char → Bool) (c : Char) (hp : p c = false) (s : List Char) :
    (s.dropWhile p).count c = s.count c := by
  induction s with
  | nil => rfl
  | cons a r ih =>
    by_cases ha : p a = true
    · have hne : a ≠ c := by
        rintro rfl
        rw [ha] at hp
        cases hp
      rw [List.dropWhile_cons_of_pos ha, ih, List.count_cons_of_ne (Ne.symm hne)]
    · rw [List.dropWhile_cons_of_neg ha]

theorem count_optSign (c : Char) (h1 : c ≠ '-') (h2 : c ≠ '+') (s : List Char) :
    (optSign s).2.count c = s.count c := by
  unfold optSign
  split
  · rename_i a r
    split
    · rename_i ha
      have hne : a ≠ c := by
        rintro rfl
        simp [h1, h2] at ha
      simp [List.count_cons_of_ne (Ne.symm hne)]
    · rfl
  · rfl

theorem count_optFraction (c : Char) (h1 : c ≠ '.') (h2 : isDigit c = false) (s : List Char) :
    (optFraction s).2.count c = s.count c := by
  unfold optFraction
  split
  · rename_i r
    split
    · rfl
    · rw [List.count_cons_of_ne h1]
      exact count_dropWhile isDigit c h2 r
  · rfl

/-- A match of `value` takes no parenthesis from the text. -/
theorem search_value_count (c : Char) (hc : c = '(' ∨ c = ')') {exp str suffix : List Char}
    (h : search_value exp = some (str, suffix)) : suffix.count c = exp.count c := by
  have hs : isSpace c = false := by rcases hc with rfl | rfl <;> decide
  have hd : isDigit c = false := by rcases hc with rfl | rfl <;> decide
  have h1 : c ≠ '-' := by rcases hc with rfl | rfl <;> decide
  have h2 : c ≠ '+' := by rcases hc with rfl | rfl <;> decide
  have h3 : c ≠ '.' := by rcases hc with rfl | rfl <;> decide
  unfold search_value at h
  simp only at h
  split at h
  · cases h
  · simp only [Option.some.injEq, Prod.mk.injEq] at h
    rw [← h.2, count_optFraction c h3 hd, count_dropWhile isDigit c hd, count_optSign c h1 h2,
      count_dropWhile isSpace c hs]

/-- A match of `operator` takes no parenthesis from the text. -/
theorem search_operator_count (c : Char) (hc : c = '(' ∨ c = ')') {exp str suffix : List Char}
    (h : search_operator exp = some (str, suffix)) : suffix.count c = exp.count c := by
  have hs : isSpace c = false := by rcases hc with rfl | rfl <;> decide
  unfold search_operator at h
  split at h
  · rename_i a r hr
    split at h
    · rename_i ha
      simp only [Option.some.injEq, Prod.mk.injEq] at h
      rw [← h.2, ← count_dropWhile isSpace c hs exp, hr]
      have hne : a ≠ c := by
        rintro rfl
        rcases hc with rfl | rfl <;> simp at ha
      rw [List.count_cons_of_ne (Ne.symm hne)]
    · cases h
  · cases h

/-- A match of `open_paren` takes one `(` and no `)` from the text. -/
theorem search_open_paren_count {exp str suffix : List Char}
    (h : search_open_paren exp = some (str, suffix)) :
    exp.count '(' = suffix.count '(' + 1 ∧ exp.count ')' = suffix.count ')' := by
  unfold search_open_paren at h
  simp only at h
  split at h
  · rename_i r hr
    simp only [Option.some.injEq, Prod.mk.injEq] at h
    rw [← h.2]
    have e1 := count_optSign '(' (by decide) (by decide) (exp.dropWhile isSpace)
    have e2 := count_optSign ')' (by decide) (by decide) (exp.dropWhile isSpace)
    rw [count_dropWhile isSpace '(' (by decide), hr] at e1
    rw [count_dropWhile isSpace ')' (by decide), hr] at e2
    constructor
    · rw [← e1]
      simp
    · rw [← e2]
      simp
  · cases h

/-- A match of `close_paren` takes one `)` and no `(` from the text. -/
theorem search_close_paren_count {exp str suffix : List Char}
    (h : search_close_paren exp = some (str, suffix)) :
    exp.count '(' = suffix.count '(' ∧ exp.count ')' = suffix.count ')' + 1 := by
  unfold search_close_paren at h
  split at h
  · rename_i r hr
    simp only [Option.some.injEq, Prod.mk.injEq] at h
    rw [← h.2, ← count_dropWhile isSpace '(' (by decide) exp,
      ← count_dropWhile isSpace ')' (by decide) exp, hr]
    simp
  · cases h

theorem count_of_all_space (c : Char) (hc : isSpace c = false) (s : List Char)
    (hs : ∀ a ∈ s, isSpace a = true) : s.count c = 0 := by
  rw [List.count_eq_zero]
  intro hmem
  rw [hs c hmem] at hc
  cases hc

end patterns

/-- The balance counts the parentheses taken from the text: the balance and
the parentheses still in the text add up to those of the whole text. -/
theorem Lexer.step_count {α : Type} (D : DoubleOps α) (k : Int) (l l1 : Lexer α)
    (hi : l.paren_balance + l.exp.count '(' - l.exp.count ')' = k)
    (h : l.step D = .ok l1) :
    l1.paren_balance + l1.exp.count '(' - l1.exp.count ')' = k := by
  obtain ⟨state, exp, bal, toks, valid, msg⟩ := l
  simp only at hi
  cases state <;> simp only [Lexer.step] at h
  · split at h
    · rename_i str suffix hm
      cases h
      have := patterns.search_open_paren_count hm
      simp only
      omega
    · cases h
      exact hi
  · split at h
    · rename_i str suffix hm
      split at h
      · cases h
        have h1 := patterns.search_value_count '(' (Or.inl rfl) hm
        have h2 := patterns.search_value_count ')' (Or.inr rfl) hm
        simp only
        omega
      · cases h
    · cases h
      exact hi
  · split at h
    · rename_i str suffix hm
      cases h
      have := patterns.search_close_paren_count hm
      simp only
      omega
    · cases h
      exact hi
  · split at h
    · rename_i str suffix hm
      split at h
      · cases h
        have h1 := patterns.search_operator_count '(' (Or.inl rfl) hm
        have h2 := patterns.search_operator_count ')' (Or.inr rfl) hm
        simp only
        omega
      · cases h
    · cases h
      exact hi
  · split at h
    · split at h <;> cases h <;> exact hi
    · cases h
      exact hi
  · cases h
    exact hi

namespace patterns

/-- A text that, after its whitespace, starts with neither an optionally signed
`(` nor an optionally signed digit matches neither `open_paren` nor `value`. -/
theorem no_operand (exp : List Char)
    (hfirst : ∀ c ∈ (exp.dropWhile isSpace).head?, c ≠ '(' ∧ isDigit c = false)
    (hsigned : ∀ c ∈ (exp.dropWhile isSpace).head?, (c = '-' ∨ c = '+') →
      ∀ d ∈ (exp.dropWhile isSpace).tail.head?, d ≠ '(' ∧ isDigit d = false) :
    search_open_paren exp = none ∧ search_value exp = none := by
  unfold search_open_paren search_value
  cases hr : exp.dropWhile isSpace with
  | nil => simp [optSign]
  | cons c r =>
    rw [hr] at hfirst hsigned
    have hc := hfirst c (by simp)
    by_cases hsign : c = '-' ∨ c = '+'
    · have hs : optSign (c :: r) = ([c], r) := by
        rcases hsign with rfl | rfl <;> simp [optSign]
      simp only [hs]
      cases r with
      | nil => simp
      | cons d r2 =>
        have hd := hsigned c (by simp) hsign d (by simp)
        constructor
        · split
          · rename_i r3 h3
            cases h3
            exact absurd rfl hd.1
          · rfl
        · simp [List.takeWhile_cons, hd.2]
    · have hs : optSign (c :: r) = ([], c :: r) := by
        simp only [not_or] at hsign
        simp [optSign, hsign.1, hsign.2]
      simp only [hs]
      constructor
      · split
        · rename_i r3 h3
          cases h3
          exact absurd rfl hc.1
        · rfl
      · simp [List.takeWhile_cons, hc.2]

end patterns

/-! ## Alternation of operands and operators -/

theorem startsOperand_iff {α : Type} (t : Token α) :
    t.startsOperand = true ↔ (t.getType = .VALUE ∨ t.getType = .OPEN_PAREN) := by
  cases t <;> simp [Token.startsOperand, Token.getType]

theorem endsOperand_iff {α : Type} (t : Token α) :
    t.endsOperand = true ↔ (t.getType = .VALUE ∨ t.getType = .CLOSE_PAREN) := by
  cases t <;> simp [Token.endsOperand, Token.getType]

theorem chain_follows {α : Type} {tokens : List (Token α)}
    (hc : List.Chain' (fun a b => follows a b = true) tokens) {i : Nat} {a b : Token α}
    (ha : tokens[i]? = some a) (hb : tokens[i + 1]? = some b) : follows a b = true := by
  obtain ⟨hlt1, hg1⟩ := List.getElem?_eq_some_iff.mp ha
  obtain ⟨hlt2, hg2⟩ := List.getElem?_eq_some_iff.mp hb
  have := List.chain'_iff_get.mp hc i (by omega)
  simp only [List.get_eq_getElem] at this
  rw [hg1, hg2] at this
  exact this

/-- A well-shaped token list alternates operands and operators. -/
theorem WellShaped.alternating {α : Type} {tokens : List (Token α)} (hw : WellShaped tokens) :
    Alternating tokens := by
  obtain ⟨z, hz, hze⟩ := hw.last
  have hne : tokens ≠ [] := by
    rintro rfl
    simp at hz
  have hzl : tokens[tokens.length - 1]? = some z := by
    rw [← List.getLast?_eq_getElem?]
    exact hz
  refine ⟨hne, ?_, ?_, ?_, ?_, ?_⟩
  · intro t ht
    exact (startsOperand_iff t).mp (hw.first t ht)
  · intro t ht
    rw [Option.mem_def] at hz ht
    rw [hz] at ht
    cases ht
    exact (endsOperand_iff z).mp hze
  · intro i t ht hop
    have hts : t.startsOperand = false := by
      cases t <;> simp [Token.startsOperand, Token.getType] at hop ⊢
    have hi : 0 < i := by
      rcases Nat.eq_zero_or_pos i with rfl | h
      · have := hw.first t (by rw [Option.mem_def, List.head?_eq_getElem?]; exact ht)
        rw [this] at hts
        cases hts
      · exact h
    obtain ⟨hlt, _⟩ := List.getElem?_eq_some_iff.mp ht
    have ha : tokens[i - 1]? = some tokens[i - 1] := List.getElem?_eq_getElem (by omega)
    refine ⟨_, hi, ha, ?_⟩
    have ht' : tokens[i - 1 + 1]? = some t := by
      have e : i - 1 + 1 = i := by omega
      rw [e]
      exact ht
    have hf := chain_follows hw.chain ha ht'
    rw [← endsOperand_iff]
    cases hae : (tokens[i - 1]).endsOperand with
    | true => rfl
    | false =>
      rw [follows, hae, hts] at hf
      cases hf
  · intro i t ht hop
    have hte : t.endsOperand = false := by
      cases t <;> simp [Token.endsOperand, Token.getType] at hop ⊢
    obtain ⟨hlt, hg⟩ := List.getElem?_eq_some_iff.mp ht
    have hlast : i ≠ tokens.length - 1 := by
      rintro rfl
      rw [ht] at hzl
      cases hzl
      rw [hze] at hte
      cases hte
    have hb : tokens[i + 1]? = some tokens[i + 1] := List.getElem?_eq_getElem (by omega)
    refine ⟨_, hb, ?_⟩
    have hf := chain_follows hw.chain ht hb
    rw [follows, hte] at hf
    exact (startsOperand_iff _).mp (by simpa using hf)
  · intro i a b ha hb hae
    have hf := chain_follows hw.chain ha hb
    rw [follows, (endsOperand_iff a).mpr hae] at hf
    have hbs : b.startsOperand = false := by simpa using hf
    cases b <;> simp [Token.startsOperand, Token.getType] at hbs ⊢

/-! ## The evaluator, one call at a time -/

theorem resolveTokenList_succ {α : Type} (D : DoubleOps α) (fuel : Nat) (tokens : List (Token α))
    (start_pos end_pos : Int) :
    resolveTokenList D (fuel + 1) tokens start_pos end_pos =
      match tokenAt tokens start_pos with
      | .error e => .error e
      | .ok _ =>
        match resolveValueAtPos D fuel tokens start_pos with
        | .error e => .error e
        | .ok result =>
          match getSubExpressionEndPos tokens start_pos with
          | .error e => .error e
          | .ok p => resolveLoop D fuel tokens end_pos (end_pos + 1) (p + 1) result := by
  rfl

theorem resolveValueAtPos_succ {α : Type} (D : DoubleOps α) (fuel : Nat) (tokens : List (Token α))
    (position : Int) :
    resolveValueAtPos D (fuel + 1) tokens position =
      match tokenAt tokens position with
      | .error e => .error e
      | .ok (.ValueToken value) => .ok value
      | .ok .OpenParenToken =>
        match getSubExpressionEndPos tokens position with
        | .error e => .error e
        | .ok p => resolveTokenList D fuel tokens (position + 1) (p - 1)
      | .ok _ => .error (.exception EXMSG_UNEXPECTED_TOKEN) := by
  rfl

theorem resolveLoop_succ {α : Type} (D : DoubleOps α) (fuel : Nat) (tokens : List (Token α))
    (end_pos completed_pos current_pos : Int) (result : α) :
    resolveLoop D (fuel + 1) tokens end_pos completed_pos current_pos result =
      if current_pos < completed_pos then
        match tokenAt tokens current_pos with
        | .error e => .error e
        | .ok (.OperatorToken function) =>
          match function with
          | .ADDITION =>
            match resolveTokenList D fuel tokens (current_pos + 1) end_pos with
            | .error e => .error e
            | .ok r =>
              resolveLoop D fuel tokens end_pos completed_pos completed_pos (D.add result r)
          | .SUBTRACTION =>
            match resolveTokenList D fuel tokens (current_pos + 1) end_pos with
            | .error e => .error e
            | .ok r =>
              resolveLoop D fuel tokens end_pos completed_pos completed_pos (D.sub result r)
          | .MUTILPICATION =>
            match resolveValueAtPos D fuel tokens (current_pos + 1) with
            | .error e => .error e
            | .ok r =>
              match getSubExpressionEndPos tokens (current_pos + 1) with
              | .error e => .error e
              | .ok p =>
                resolveLoop D fuel tokens end_pos completed_pos (p + 1) (D.mul result r)
          | .DIVISION =>
            match resolveValueAtPos D fuel tokens (current_pos + 1) with
            | .error e => .error e
            | .ok r =>
              match getSubExpressionEndPos tokens (current_pos + 1) with
              | .error e => .error e
              | .ok p =>
                resolveLoop D fuel tokens end_pos completed_pos (p + 1) (D.div result r)
        | .ok _ => .error (.exception EXMSG_UNEXPECTED_TOKEN)
      else .ok result := by
  rfl

/-- More fuel does not change a result that did not run out of fuel. -/
theorem resolve_fuel_succ {α : Type} (D : DoubleOps α) (tokens : List (Token α)) :
    ∀ f : Nat,
      (∀ s e, resolveTokenList D f tokens s e ≠ .error .out_of_fuel →
        resolveTokenList D (f + 1) tokens s e = resolveTokenList D f tokens s e) ∧
      (∀ e c cur res, resolveLoop D f tokens e c cur res ≠ .error .out_of_fuel →
        resolveLoop D (f + 1) tokens e c cur res = resolveLoop D f tokens e c cur res) ∧
      (∀ p, resolveValueAtPos D f tokens p ≠ .error .out_of_fuel →
        resolveValueAtPos D (f + 1) tokens p = resolveValueAtPos D f tokens p) := by
  intro f
  induction f with
  | zero =>
    exact ⟨fun s e h => absurd rfl h, fun e c cur res h => absurd rfl h,
      fun p h => absurd rfl h⟩
  | succ f ih =>
    obtain ⟨ihR, ihL, ihV⟩ := ih
    refine ⟨?_, ?_, ?_⟩
    · intro s e h
      rw [resolveTokenList_succ D (f + 1), resolveTokenList_succ D f] at *
      cases ht : tokenAt tokens s with
      | error e1 => rfl
      | ok t =>
        rw [ht] at h
        simp only at h ⊢
        have hx : resolveValueAtPos D f tokens s ≠ .error .out_of_fuel := by
          intro hx
          rw [hx] at h
          exact h rfl
        rw [ihV s hx]
        cases hv : resolveValueAtPos D f tokens s with
        | error e1 => rfl
        | ok v =>
          rw [hv] at h
          simp only at h ⊢
          cases hq : getSubExpressionEndPos tokens s with
          | error e1 => rfl
          | ok q =>
            rw [hq] at h
            simp only at h ⊢
            exact ihL _ _ _ _ h
    · intro e c cur res h
      rw [resolveLoop_succ D (f + 1), resolveLoop_succ D f] at *
      by_cases hlt : cur < c
      · simp only [hlt, if_true] at h ⊢
        cases ht : tokenAt tokens cur with
        | error e1 => rfl
        | ok t =>
          rw [ht] at h
          cases t with
          | OpenParenToken => rfl
          | CloseParenToken => rfl
          | ValueToken v => rfl
          | OperatorToken fn =>
            cases fn with
            | ADDITION =>
              simp only at h ⊢
              have hx : resolveTokenList D f tokens (cur + 1) e ≠ .error .out_of_fuel := by
                intro hx
                rw [hx] at h
                exact h rfl
              rw [ihR _ _ hx]
              cases hr : resolveTokenList D f tokens (cur + 1) e with
              | error e1 => rfl
              | ok r =>
                rw [hr] at h
                simp only at h ⊢
                exact ihL _ _ _ _ h
            | SUBTRACTION =>
              simp only at h ⊢
              have hx : resolveTokenList D f tokens (cur + 1) e ≠ .error .out_of_fuel := by
                intro hx
                rw [hx] at h
                exact h rfl
              rw [ihR _ _ hx]
              cases hr : resolveTokenList D f tokens (cur + 1) e with
              | error e1 => rfl
              | ok r =>
                rw [hr] at h
                simp only at h ⊢
                exact ihL _ _ _ _ h
            | MUTILPICATION =>
              simp only at h ⊢
              have hx : resolveValueAtPos D f tokens (cur + 1) ≠ .error .out_of_fuel := by
                intro hx
                rw [hx] at h
                exact h rfl
              rw [ihV _ hx]
              cases hr : resolveValueAtPos D f tokens (cur + 1) with
              | error e1 => rfl
              | ok r =>
                rw [hr] at h
                simp only at h ⊢
                cases hq : getSubExpressionEndPos tokens (cur + 1) with
                | error e1 => rfl
                | ok q =>
                  rw [hq] at h
                  simp only at h ⊢
                  exact ihL _ _ _ _ h
            | DIVISION =>
              simp only at h ⊢
              have hx : resolveValueAtPos D f tokens (cur + 1) ≠ .error .out_of_fuel := by
                intro hx
                rw [hx] at h
                exact h rfl
              rw [ihV _ hx]
              cases hr : resolveValueAtPos D f tokens (cur + 1) with
              | error e1 => rfl
              | ok r =>
                rw [hr] at h
                simp only at h ⊢
                cases hq : getSubExpressionEndPos tokens (cur + 1) with
                | error e1 => rfl
                | ok q =>
                  rw [hq] at h
                  simp only at h ⊢
                  exact ihL _ _ _ _ h
      · simp only [hlt, if_false]
    · intro p h
      rw [resolveValueAtPos_succ D (f + 1), resolveValueAtPos_succ D f] at *
      cases ht : tokenAt tokens p with
      | error e1 => rfl
      | ok t =>
        rw [ht] at h
        cases t with
        | CloseParenToken => rfl
        | OperatorToken fn => rfl
        | ValueToken v => rfl
        | OpenParenToken =>
          simp only at h ⊢
          cases hq : getSubExpressionEndPos tokens p with
          | error e1 => rfl
          | ok q =>
            rw [hq] at h
            simp only at h ⊢
            exact ihR _ _ h

/-- A value found with some fuel is found with any larger fuel. -/
theorem resolve_fuel_mono {α : Type} (D : DoubleOps α) (tokens : List (Token α))
    (f g : Nat) (hfg : f ≤ g) :
    (∀ s e v, resolveTokenList D f tokens s e = .ok v →
        resolveTokenList D g tokens s e = .ok v) ∧
      (∀ e c cur res v, resolveLoop D f tokens e c cur res = .ok v →
        resolveLoop D g tokens e c cur res = .ok v) ∧
      (∀ p v, resolveValueAtPos D f tokens p = .ok v →
        resolveValueAtPos D g tokens p = .ok v) := by
  induction g with
  | zero =>
    have : f = 0 := by omega
    subst this
    exact ⟨fun _ _ _ h => h, fun _ _ _ _ _ h => h, fun _ _ h => h⟩
  | succ g ih =>
    by_cases hfg1 : f = g + 1
    · subst hfg1
      exact ⟨fun _ _ _ h => h, fun _ _ _ _ _ h => h, fun _ _ h => h⟩
    · obtain ⟨i1, i2, i3⟩ := ih (by omega)
      obtain ⟨s1, s2, s3⟩ := resolve_fuel_succ D tokens g
      refine ⟨?_, ?_, ?_⟩
      · intro s e v h
        have := i1 s e v h
        rw [s1 s e (by rw [this]; intro hx; cases hx), this]
      · intro e c cur res v h
        have := i2 e c cur res v h
        rw [s2 e c cur res (by rw [this]; intro hx; cases hx), this]
      · intro p v h
        have := i3 p v h
        rw [s3 p (by rw [this]; intro hx; cases hx), this]

theorem scanParens_ge {α : Type} :
    ∀ (rest : List (Token α)) (b pos q : Int), scanParens rest b pos = .ok q → pos ≤ q := by
  intro rest
  induction rest with
  | nil =>
    intro b pos q h
    cases h
  | cons t rest ih =>
    intro b pos q h
    rw [scanParens_cons] at h
    split at h
    · have := ih _ _ _ h
      omega
    · cases h
      exact le_refl _

theorem getSubExpressionEndPos_ge {α : Type} {tokens : List (Token α)} {p q : Int}
    (h : getSubExpressionEndPos tokens p = .ok q) : p ≤ q := by
  unfold getSubExpressionEndPos at h
  split at h
  · cases h
  · split at h
    · cases h
      exact le_refl _
    · have := scanParens_ge _ _ _ _ h
      omega

theorem Factors.le {α : Type} {D : DoubleOps α} {tokens : List (Token α)} {cur k : Int}
    {fs : List (operator_function × α)} (h : Factors D tokens cur fs k) : cur ≤ k := by
  induction h with
  | done k => exact le_refl _
  | times fuel _ _ hq _ ih =>
    have := getSubExpressionEndPos_ge hq
    omega
  | over fuel _ _ hq _ ih =>
    have := getSubExpressionEndPos_ge hq
    omega

/-- The loop of `resolveTokenList` over the factors of a product and the first
operator `+` or `-`: the product is built from left to right, and the whole
remainder of the range is added to it or subtracted from it. -/
theorem resolveLoop_factors {α : Type} {D : DoubleOps α} {tokens : List (Token α)}
    {cur k e : Int} {fs : List (operator_function × α)} {op : operator_function} {R : α}
    {f1 : Nat} (hfs : Factors D tokens cur fs k)
    (hk : tokenAt tokens k = .ok (.OperatorToken op))
    (hop : op = .ADDITION ∨ op = .SUBTRACTION) (hke : k ≤ e)
    (hrest : resolveTokenList D f1 tokens (k + 1) e = .ok R) :
    ∃ F0 : Nat, ∀ F : Nat, F0 ≤ F → ∀ res : α,
      resolveLoop D F tokens e (e + 1) cur res = .ok (applyLow D op (productOf D res fs) R) := by
  induction hfs with
  | done k =>
    refine ⟨f1 + 2, ?_⟩
    intro F hF res
    obtain ⟨G, rfl⟩ : ∃ G, F = G + 1 := ⟨F - 1, by omega⟩
    obtain ⟨G1, rfl⟩ : ∃ G1, G = G1 + 1 := ⟨G - 1, by omega⟩
    have hr := (resolve_fuel_mono D tokens f1 (G1 + 1) (by omega)).1 _ _ _ hrest
    rw [resolveLoop_succ]
    have hlt : k < e + 1 := by omega
    simp only [hlt, if_true, hk]
    rcases hop with rfl | rfl
    · simp only [hr]
      rw [resolveLoop_succ]
      simp [applyLow, productOf]
    · simp only [hr]
      rw [resolveLoop_succ]
      simp [applyLow, productOf]
  | times fuel ht hv hq hrest' ih =>
    rename_i cur q k v fs
    obtain ⟨F0, hF0⟩ := ih hk hke hrest
    have hle := Factors.le hrest'
    have hge := getSubExpressionEndPos_ge hq
    refine ⟨max F0 fuel + 1, ?_⟩
    intro F hF res
    obtain ⟨G, rfl⟩ : ∃ G, F = G + 1 := ⟨F - 1, by omega⟩
    have hv' := (resolve_fuel_mono D tokens fuel G (by omega)).2.2 _ _ hv
    rw [resolveLoop_succ]
    have hlt : cur < e + 1 := by omega
    simp only [hlt, if_true, ht, hv', hq]
    rw [hF0 G (by omega)]
    simp [productOf, applyFactor]
  | over fuel ht hv hq hrest' ih =>
    rename_i cur q k v fs
    obtain ⟨F0, hF0⟩ := ih hk hke hrest
    have hle := Factors.le hrest'
    have hge := getSubExpressionEndPos_ge hq
    refine ⟨max F0 fuel + 1, ?_⟩
    intro F hF res
    obtain ⟨G, rfl⟩ : ∃ G, F = G + 1 := ⟨F - 1, by omega⟩
    have hv' := (resolve_fuel_mono D tokens fuel G (by omega)).2.2 _ _ hv
    rw [resolveLoop_succ]
    have hlt : cur < e + 1 := by omega
    simp only [hlt, if_true, ht, hv', hq]
    rw [hF0 G (by omega)]
    simp [productOf, applyFactor]

/-! ## The calls of the evaluator stay inside the token list -/

/-- The range of the call made by `evaluateExpression`. -/
theorem rangeOk_top {α : Type} {tokens : List (Token α)} (hw : WellShaped tokens) :
    RangeOk tokens 0 ((tokens.length : Int) - 1) := by
  obtain ⟨z, hz, hze⟩ := hw.last
  rw [Option.mem_def, List.getLast?_eq_getElem?] at hz
  obtain ⟨hlt, hg⟩ := List.getElem?_eq_some_iff.mp hz
  have hzat : tokenAt tokens ((tokens.length : Int) - 1) = .ok z := by
    rw [tokenAt_ok_iff]
    refine ⟨by omega, ?_⟩
    have e : ((tokens.length : Int) - 1).toNat = tokens.length - 1 := by omega
    rw [e]
    exact hz
  obtain ⟨a, ha⟩ := tokenAt_exists tokens 0 (le_refl _) (by omega)
  have has : a.startsOperand = true := by
    apply hw.first
    obtain ⟨_, h1⟩ := (tokenAt_ok_iff tokens 0 a).mp ha
    rw [Option.mem_def, List.head?_eq_getElem?]
    simpa using h1
  refine ⟨by omega, ⟨a, ha, has⟩, ⟨z, hzat, hze⟩, ?_⟩
  rw [Int.sub_add_cancel, depthAt_length, depthAt_zero, hw.balance]

/-- Behind an operator inside a range starts an operand inside the range. -/
theorem after_operator {α : Type} {tokens : List (Token α)} (hw : WellShaped tokens)
    {cur e : Int} {f : operator_function} {z : Token α}
    (ht : tokenAt tokens cur = .ok (.OperatorToken f))
    (hz : tokenAt tokens e = .ok z) (hze : z.endsOperand = true) (hce : cur ≤ e) :
    cur + 1 ≤ e ∧ (∃ b, tokenAt tokens (cur + 1) = .ok b ∧ b.startsOperand = true)
      ∧ depthAt tokens (cur + 1) = depthAt tokens cur := by
  have hne : cur ≠ e := by
    rintro rfl
    have := tokenAt_unique ht hz
    subst this
    simp [Token.getType, Token.endsOperand] at hze
  obtain ⟨b, hb⟩ := next_exists hw ht (by simp [Token.getType, Token.endsOperand])
  have hbs : b.startsOperand = true := by
    have := follows_at hw.chain ht hb
    simpa [follows, Token.endsOperand, Token.getType] using this
  refine ⟨by omega, ⟨b, hb, hbs⟩, ?_⟩
  rw [depthAt_succ ht]
  simp [Token.weight, Token.getType]

/-- The inside of a group whose depth is reached again by `k` is a range, and
the group ends at a CloseParen not behind `k`. -/
theorem group_range {α : Type} {tokens : List (Token α)} (hw : WellShaped tokens)
    {p k : Int} (ha : tokenAt tokens p = .ok .OpenParenToken) (hpk : p < k)
    (hkn : k < tokens.length) (hdk : depthAt tokens (k + 1) ≤ depthAt tokens p) :
    ∃ q, getSubExpressionEndPos tokens p = .ok q ∧ p < q ∧ q ≤ k
      ∧ (∃ c, tokenAt tokens q = .ok c ∧ c.getType = .CLOSE_PAREN)
      ∧ RangeOk tokens (p + 1) (q - 1) := by
  obtain ⟨q, hq, hpq, hqk, ⟨c, hc, hct⟩, hdq⟩ :=
    getSubExpressionEndPos_open ha rfl k hpk hkn hdk
  refine ⟨q, hq, hpq, hqk, ⟨c, hc, hct⟩, ?_⟩
  obtain ⟨b, hb⟩ := next_exists hw ha (by simp [Token.getType, Token.endsOperand])
  have hbs : b.startsOperand = true := by
    have := follows_at hw.chain ha hb
    simpa [follows, Token.endsOperand, Token.getType] using this
  have hq2 : q ≠ p + 1 := by
    rintro rfl
    have := tokenAt_unique hb hc
    subst this
    cases b <;> simp [Token.getType, Token.startsOperand] at hct hbs
  obtain ⟨y, hy⟩ := tokenAt_exists tokens (q - 1) (by have := tokenAt_bounds ha; omega)
    (by have := tokenAt_bounds hc; omega)
  have hc' : tokenAt tokens (q - 1 + 1) = .ok c := by
    rw [Int.sub_add_cancel]
    exact hc
  have hye : y.endsOperand = true := by
    have := follows_at hw.chain hy hc'
    cases hyo : y.endsOperand with
    | true => rfl
    | false =>
      rw [follows, hyo] at this
      cases c <;> simp [Token.getType, Token.startsOperand] at hct this
  have hd1 := depthAt_succ ha
  have hd2 := depthAt_succ hc'
  rw [Int.sub_add_cancel] at hd2
  rw [(weight_of_type c).2.1 hct] at hd2
  simp only [Token.weight, Token.getType] at hd1
  refine ⟨by omega, ⟨b, hb, hbs⟩, ⟨y, hy, hye⟩, ?_⟩
  rw [Int.sub_add_cancel]
  omega

/-- Every point the evaluation can come to on a well-shaped list lies in a
range with an operand at each end, and is as `Point.Ok` says. -/
theorem Visits.point_ok {α : Type} {tokens : List (Token α)} (hw : WellShaped tokens)
    {s e : Int} {pt : Point} (h : Visits tokens s e pt) :
    RangeOk tokens s e ∧ pt.Ok tokens s e := by
  induction h with
  | top => exact ⟨rangeOk_top hw, trivial⟩
  | first _ ih =>
    obtain ⟨hr, _⟩ := ih
    exact ⟨hr, le_refl _, hr.1, hr.2.1, hr.2.2.2⟩
  | after _ hq ih =>
    obtain ⟨hr, hsp, hpe, ⟨a, ha, has⟩, hd⟩ := ih
    obtain ⟨z, hz, hze⟩ := hr.2.2.1
    obtain ⟨_, q1, hq1, hpq, hqe, hdq⟩ := operand_end ha has hz hze hpe hd
    rw [hq] at hq1
    cases hq1
    exact ⟨hr, by omega, by have := tokenAt_bounds ha; omega, by omega, ⟨z, hz, hze⟩,
      by omega⟩
  | factor _ hlt ht _ ih =>
    obtain ⟨hr, hsc, _, _, ⟨z, hz, hze⟩, hd⟩ := ih
    obtain ⟨h1, hb, h3⟩ := after_operator hw ht hz hze (by omega)
    exact ⟨hr, by omega, h1, hb, by omega⟩
  | rest _ hlt ht _ ih =>
    obtain ⟨hr, hsc, _, _, ⟨z, hz, hze⟩, hd⟩ := ih
    obtain ⟨h1, hb, h3⟩ := after_operator hw ht hz hze (by omega)
    exact ⟨⟨h1, hb, ⟨z, hz, hze⟩, by omega⟩, trivial⟩
  | @group s1 e1 p q _ hopen hq ih =>
    obtain ⟨hr, hsp, hpe, _, hd⟩ := ih
    obtain ⟨z, hz, hze⟩ := hr.2.2.1
    have hne : p ≠ e1 := by
      rintro rfl
      have := tokenAt_unique hopen hz
      subst this
      simp [Token.getType, Token.endsOperand] at hze
    obtain ⟨q1, hq1, _, _, _, hrange⟩ :=
      group_range hw hopen (lt_of_le_of_ne hpe hne) (tokenAt_bounds hz).2 hd
    rw [hq] at hq1
    cases hq1
    exact ⟨hrange, trivial⟩

/-- Every point the evaluation can come to on a well-shaped list keeps inside
its range, and the ranges keep inside the list. -/
theorem Visits.inRange {α : Type} {tokens : List (Token α)} (hw : WellShaped tokens)
    {s e : Int} {pt : Point} (h : Visits tokens s e pt) :
    0 ≤ s ∧ s ≤ e ∧ e < tokens.length ∧ pt.InRange tokens s e := by
  obtain ⟨hr, hpt⟩ := h.point_ok hw
  obtain ⟨hse, ⟨a0, ha0, _⟩, ⟨z, hz, hze⟩, _⟩ := hr
  refine ⟨(tokenAt_bounds ha0).1, hse, (tokenAt_bounds hz).2, ?_⟩
  cases pt with
  | call => trivial
  | operand p =>
    obtain ⟨hsp, hpe, ⟨a, ha, has⟩, hd⟩ := hpt
    obtain ⟨_, q, hq, hpq, hqe, _⟩ := operand_end ha has hz hze hpe hd
    refine ⟨hsp, hpe, q, hq, hpq, hqe, ?_⟩
    intro a1 ha1 hopen
    have := tokenAt_unique ha ha1
    subst this
    have hne : p ≠ e := by
      rintro rfl
      have := tokenAt_unique ha hz
      subst this
      cases a <;> simp [Token.getType, Token.endsOperand] at hopen hze
    obtain ⟨q1, hq1, _, _, hc, _⟩ :=
      getSubExpressionEndPos_open ha hopen e (lt_of_le_of_ne hpe hne) (tokenAt_bounds hz).2 hd
    rw [hq] at hq1
    cases hq1
    exact hc
  | slot cur =>
    obtain ⟨hsc, _, hce, _, _⟩ := hpt
    refine ⟨hsc, hce, ?_⟩
    intro f hlt ht
    exact (after_operator hw ht hz hze (by omega)).1

/-! ## Tools for comparing the evaluator with the conventional value -/

theorem restAt_cons {α : Type} {tokens : List (Token α)} {p : Int} {t : Token α}
    (h : tokenAt tokens p = .ok t) : restAt tokens p = t :: restAt tokens (p + 1) := by
  obtain ⟨h0, h1⟩ := (tokenAt_ok_iff tokens p t).mp h
  obtain ⟨hlt, hg⟩ := List.getElem?_eq_some_iff.mp h1
  have e : (p + 1).toNat = p.toNat + 1 := by omega
  unfold restAt
  rw [e, List.drop_eq_getElem_cons hlt, hg]

theorem restAt_length {α : Type} (tokens : List (Token α)) :
    restAt tokens (tokens.length : Int) = [] := by
  unfold restAt
  simp

theorem restAt_zero {α : Type} (tokens : List (Token α)) : restAt tokens 0 = tokens := by
  unfold restAt
  simp

/-- While the scan for the matching `CloseParen` runs, the balance stays positive. -/
theorem scanParens_depth {α : Type} :
    ∀ (rest : List (Token α)) (b pos q : Int), 1 ≤ b → scanParens rest b pos = .ok q →
      ∀ i : Nat, (i : Int) ≤ q - pos → 1 ≤ b + depth (rest.take i) := by
  intro rest
  induction rest with
  | nil =>
    intro b pos q _ h
    cases h
  | cons t rest ih =>
    intro b pos q hb h i hi
    rw [scanParens_cons] at h
    have hwb := weight_bounds t
    cases i with
    | zero =>
      simp only [List.take_zero, depth_nil]
      omega
    | succ i1 =>
      rw [List.take_succ_cons, depth_cons]
      split at h
      · rename_i hne
        have := ih (b + t.weight) (pos + 1) q (by omega) h i1 (by push_cast at hi; omega)
        omega
      · cases h
        push_cast at hi
        omega

/-- Between an `OpenParen` and the `CloseParen` that `getSubExpressionEndPos`
returns, the depth stays above the depth in front of the `OpenParen`. -/
theorem getSubExpressionEndPos_inside {α : Type} {tokens : List (Token α)} {p q : Int}
    {a : Token α} (ha : tokenAt tokens p = .ok a) (hopen : a.getType = .OPEN_PAREN)
    (hq : getSubExpressionEndPos tokens p = .ok q) :
    ∀ j : Int, p < j → j ≤ q → depthAt tokens p + 1 ≤ depthAt tokens j := by
  intro j hpj hjq
  obtain ⟨h0, _⟩ := tokenAt_bounds ha
  have h1 := depthAt_succ ha
  rw [(weight_of_type a).1 hopen] at h1
  unfold getSubExpressionEndPos at hq
  rw [ha] at hq
  simp only [hopen, ne_eq, not_true_eq_false, if_false] at hq
  have hs := scanParens_depth _ _ _ _ (le_refl 1) hq (j - (p + 1)).toNat (by omega)
  have hsplit : depthAt tokens j
      = depthAt tokens (p + 1) + depth ((tokens.drop (p + 1).toNat).take (j - (p + 1)).toNat) := by
    unfold depthAt
    have e : j.toNat = (p + 1).toNat + (j - (p + 1)).toNat := by omega
    rw [e, List.take_add, depth_append]
  omega

/-- More fuel does not change a result that did not run out of fuel. -/
theorem resolveTokenList_fuel_le {α : Type} (D : DoubleOps α) (tokens : List (Token α))
    (s e : Int) (f g : Nat) (hfg : f ≤ g)
    (h : resolveTokenList D f tokens s e ≠ .error .out_of_fuel) :
    resolveTokenList D g tokens s e = resolveTokenList D f tokens s e := by
  induction g with
  | zero =>
    have : f = 0 := by omega
    subst this
    rfl
  | succ g ih =>
    by_cases hfg1 : f = g + 1
    · subst hfg1
      rfl
    · have h1 := ih (by omega)
      rw [(resolve_fuel_succ D tokens g).1 s e (by rw [h1]; exact h), h1]

theorem Factors.append {α : Type} {D : DoubleOps α} {tokens : List (Token α)} {a b c : Int}
    {fs1 fs2 : List (operator_function × α)} (h1 : Factors D tokens a fs1 b)
    (h2 : Factors D tokens b fs2 c) : Factors D tokens a (fs1 ++ fs2) c := by
  induction h1 with
  | done k => exact h2
  | times fuel ht hv hq _ ih => exact Factors.times fuel ht hv hq (ih h2)
  | over fuel ht hv hq _ ih => exact Factors.over fuel ht hv hq (ih h2)

theorem productOf_append {α : Type} (D : DoubleOps α) (first : α)
    (fs1 fs2 : List (operator_function × α)) :
    productOf D first (fs1 ++ fs2) = productOf D (productOf D first fs1) fs2 := by
  simp [productOf, List.foldl_append]

theorem productOf_cons {α : Type} (D : DoubleOps α) (first : α) (f : operator_function × α)
    (fs : List (operator_function × α)) :
    productOf D first (f :: fs) = productOf D (applyFactor D first f) fs := by
  simp [productOf]

/-- The loop of `resolveTokenList` over factors that reach the end of the range:
the product, built from left to right. -/
theorem resolveLoop_factors_end {α : Type} {D : DoubleOps α} {tokens : List (Token α)}
    {cur k e : Int} {fs : List (operator_function × α)}
    (hfs : Factors D tokens cur fs k) (hke : k = e + 1) :
    ∃ F0 : Nat, ∀ F : Nat, F0 ≤ F → ∀ res : α,
      resolveLoop D F tokens e (e + 1) cur res = .ok (productOf D res fs) := by
  induction hfs with
  | done k =>
    refine ⟨1, ?_⟩
    intro F hF res
    obtain ⟨G, rfl⟩ : ∃ G, F = G + 1 := ⟨F - 1, by omega⟩
    rw [resolveLoop_succ]
    have hlt : ¬ k < e + 1 := by omega
    simp [hlt, productOf]
  | times fuel ht hv hq hrest' ih =>
    rename_i cur q k v fs
    obtain ⟨F0, hF0⟩ := ih hke
    have hle := Factors.le hrest'
    have hge := getSubExpressionEndPos_ge hq
    refine ⟨max F0 fuel + 1, ?_⟩
    intro F hF res
    obtain ⟨G, rfl⟩ : ∃ G, F = G + 1 := ⟨F - 1, by omega⟩
    have hv' := (resolve_fuel_mono D tokens fuel G (by omega)).2.2 _ _ hv
    rw [resolveLoop_succ]
    have hlt : cur < e + 1 := by omega
    simp only [hlt, if_true, ht, hv', hq]
    rw [hF0 G (by omega)]
    simp [productOf, applyFactor]
  | over fuel ht hv hq hrest' ih =>
    rename_i cur q k v fs
    obtain ⟨F0, hF0⟩ := ih hke
    have hle := Factors.le hrest'
    have hge := getSubExpressionEndPos_ge hq
    refine ⟨max F0 fuel + 1, ?_⟩
    intro F hF res
    obtain ⟨G, rfl⟩ : ∃ G, F = G + 1 := ⟨F - 1, by omega⟩
    have hv' := (resolve_fuel_mono D tokens fuel G (by omega)).2.2 _ _ hv
    rw [resolveLoop_succ]
    have hlt : cur < e + 1 := by omega
    simp only [hlt, if_true, ht, hv', hq]
    rw [hF0 G (by omega)]
    simp [productOf, applyFactor]

/-- A range that is one product: `resolveTokenList` returns the product. -/
theorem resolveTokenList_product {α : Type} (D : DoubleOps α) (tokens : List (Token α))
    (start_pos end_pos q0 : Int) (v0 : α) (fs : List (operator_function × α)) (fuel0 : Nat)
    (hfirst : resolveValueAtPos D fuel0 tokens start_pos = .ok v0)
    (hq0 : getSubExpressionEndPos tokens start_pos = .ok q0)
    (hfs : Factors D tokens (q0 + 1) fs (end_pos + 1)) :
    ∃ F0 : Nat, ∀ F : Nat, F0 ≤ F →
      resolveTokenList D F tokens start_pos end_pos = .ok (productOf D v0 fs) := by
  obtain ⟨F0, hF0⟩ := resolveLoop_factors_end hfs rfl
  refine ⟨max F0 fuel0 + 1, ?_⟩
  intro F hF
  obtain ⟨G, rfl⟩ : ∃ G, F = G + 1 := ⟨F - 1, by omega⟩
  have hv := (resolve_fuel_mono D tokens fuel0 G (by omega)).2.2 _ _ hfirst
  have ht : ∃ t, tokenAt tokens start_pos = .ok t := by
    unfold getSubExpressionEndPos at hq0
    cases h : tokenAt tokens start_pos with
    | error e =>
      rw [h] at hq0
      cases hq0
    | ok t => exact ⟨t, rfl⟩
  obtain ⟨t, ht⟩ := ht
  rw [resolveTokenList_succ]
  simp only [ht, hv, hq0]
  exact hF0 G (by omega) v0

theorem convExpr_succ (fuel : Nat) (ts : List (Token ℚ)) :
    convExpr (fuel + 1) ts =
      match convTerm fuel ts with
      | some (t, rest) => convExprLoop fuel t rest
      | none => none := by
  rfl

theorem convExprLoop_succ (fuel : Nat) (acc : ℚ) (ts : List (Token ℚ)) :
    convExprLoop (fuel + 1) acc ts =
      match ts with
      | .OperatorToken .ADDITION :: rest =>
        match convTerm fuel rest with
        | some (t, rest1) => convExprLoop fuel (acc + t) rest1
        | none => none
      | .OperatorToken .SUBTRACTION :: rest =>
        match convTerm fuel rest with
        | some (t, rest1) => convExprLoop fuel (acc - t) rest1
        | none => none
      | _ => some (acc, ts) := by
  rfl

theorem convTerm_succ (fuel : Nat) (ts : List (Token ℚ)) :
    convTerm (fuel + 1) ts =
      match convFactor fuel ts with
      | some (f, rest) => convTermLoop fuel f rest
      | none => none := by
  rfl

theorem convTermLoop_succ (fuel : Nat) (acc : ℚ) (ts : List (Token ℚ)) :
    convTermLoop (fuel + 1) acc ts =
      match ts with
      | .OperatorToken .MUTILPICATION :: rest =>
        match convFactor fuel rest with
        | some (f, rest1) => convTermLoop fuel (acc * f) rest1
        | none => none
      | .OperatorToken .DIVISION :: rest =>
        match convFactor fuel rest with
        | some (f, rest1) => convTermLoop fuel (acc / f) rest1
        | none => none
      | _ => some (acc, ts) := by
  rfl

theorem convFactor_succ (fuel : Nat) (ts : List (Token ℚ)) :
    convFactor (fuel + 1) ts =
      if isNegatedGroup ts then
        match convExpr fuel (ts.drop 3) with
        | some (x, .CloseParenToken :: rest) => some (-x, rest)
        | _ => none
      else
        match ts with
        | .ValueToken v :: rest => some (v, rest)
        | .OpenParenToken :: rest =>
          match convExpr fuel rest with
          | some (x, .CloseParenToken :: rest1) => some (x, rest1)
          | _ => none
        | _ => none := by
  rfl

theorem tokenAt_mem {α : Type} {tokens : List (Token α)} {p : Int} {t : Token α}
    (h : tokenAt tokens p = .ok t) : t ∈ tokens := by
  obtain ⟨_, h1⟩ := (tokenAt_ok_iff tokens p t).mp h
  obtain ⟨hlt, hg⟩ := List.getElem?_eq_some_iff.mp h1
  rw [← hg]
  exact List.getElem_mem hlt

/-- Behind a range the tokens end or start with a `CloseParen`. -/
theorem restAt_behind {α : Type} {tokens : List (Token α)} {s e : Int}
    (hr : NestedRange tokens s e) :
    restAt tokens (e + 1) = [] ∨ ∃ r, restAt tokens (e + 1) = .CloseParenToken :: r := by
  rcases hr.2.2.2 with h | ⟨c, hc, hct⟩
  · left
    rw [h]
    exact restAt_length tokens
  · right
    cases c <;> simp [Token.getType] at hct
    exact ⟨_, restAt_cons hc⟩

/-- The inside of a group is a range of a well-nested sequence. -/
theorem group_nested {α : Type} {tokens : List (Token α)} (hw : WellShaped tokens)
    {p k : Int} (ha : tokenAt tokens p = .ok .OpenParenToken) (hpk : p < k)
    (hkn : k < tokens.length) (hdk : depthAt tokens (k + 1) ≤ depthAt tokens p) :
    ∃ q, getSubExpressionEndPos tokens p = .ok q ∧ p + 1 < q ∧ q ≤ k
      ∧ tokenAt tokens q = .ok .CloseParenToken
      ∧ depthAt tokens (q + 1) = depthAt tokens p
      ∧ NestedRange tokens (p + 1) (q - 1) := by
  obtain ⟨q, hq, hpq, hqk, ⟨c, hc, hct⟩, hrange⟩ := group_range hw ha hpk hkn hdk
  obtain ⟨q1, hq1, _, _, _, hdq⟩ := getSubExpressionEndPos_open ha rfl k hpk hkn hdk
  rw [hq] at hq1
  cases hq1
  have hcc : c = .CloseParenToken := by
    cases c <;> simp [Token.getType] at hct
    rfl
  subst hcc
  have hd1 := depthAt_succ ha
  have hd2 := depthAt_succ hc
  simp only [Token.weight, Token.getType] at hd1 hd2
  have hin := getSubExpressionEndPos_inside ha rfl hq
  refine ⟨q, hq, by have := hrange.1; omega, hqk, hc, hdq, hrange, ?_, ?_, ?_⟩
  · rw [Int.sub_add_cancel]
    omega
  · intro j hj1 hj2
    rw [Int.sub_add_cancel] at hj2
    have := hin j (by omega) hj2
    omega
  · right
    rw [Int.sub_add_cancel]
    exact ⟨_, hc, rfl⟩

/-- At the depth of a range, behind an operand and inside the range, stands an
operator. -/
theorem slot_token {α : Type} {tokens : List (Token α)} (hw : WellShaped tokens)
    {s e cur : Int} (hr : NestedRange tokens s e) (hs : SlotOk tokens s e cur)
    (hce : cur ≤ e) : ∃ op, tokenAt tokens cur = .ok (.OperatorToken op) := by
  obtain ⟨hsc, _, hdc, y, hy, hye⟩ := hs
  obtain ⟨z, hz, _⟩ := hr.1.2.2.1
  obtain ⟨t, ht⟩ := tokenAt_exists tokens cur (by have := tokenAt_bounds hy; omega)
    (by have := tokenAt_bounds hz; omega)
  have ht' : tokenAt tokens (cur - 1 + 1) = .ok t := by
    rw [Int.sub_add_cancel]
    exact ht
  have hf := follows_at hw.chain hy ht'
  rw [follows, hye] at hf
  have hd := depthAt_succ ht
  have hmin := hr.2.2.1 (cur + 1) (by omega) (by omega)
  cases t with
  | OperatorToken op => exact ⟨op, ht⟩
  | ValueToken v => simp [Token.startsOperand, Token.getType] at hf
  | OpenParenToken => simp [Token.startsOperand, Token.getType] at hf
  | CloseParenToken =>
    simp only [Token.weight, Token.getType] at hd
    omega

theorem restAt_head {α : Type} {tokens : List (Token α)} {p : Int} {t : Token α}
    {r : List (Token α)} (h0 : 0 ≤ p) (h : restAt tokens p = t :: r) :
    tokenAt tokens p = .ok t ∧ r = restAt tokens (p + 1) := by
  unfold restAt at h
  have hlt : p.toNat < tokens.length := by
    by_contra hcon
    rw [List.drop_eq_nil_of_le (by omega)] at h
    cases h
  rw [List.drop_eq_getElem_cons hlt] at h
  have e : (p + 1).toNat = p.toNat + 1 := by omega
  constructor
  · rw [tokenAt_ok_iff]
    refine ⟨h0, ?_⟩
    rw [List.getElem?_eq_getElem hlt]
    exact congrArg some (List.cons.inj h).1
  · unfold restAt
    rw [e]
    exact (List.cons.inj h).2.symm

/-- A group inside a range: the evaluator and the conventional evaluation agree
on it when they agree on every smaller range. -/
theorem group_agrees {tokens : List (Token ℚ)} (hw : WellShaped tokens) {s e p : Int}
    (hsp : s ≤ p) (hpe : p < e) (hen : e < tokens.length)
    (hd : depthAt tokens (e + 1) ≤ depthAt tokens p)
    (ha : tokenAt tokens p = .ok .OpenParenToken)
    (ih : ∀ s1 e1 : Int, s ≤ s1 → e1 ≤ e → e1 - s1 < e - s → NestedRange tokens s1 e1 →
      ∃ v, Agrees tokens s1 e1 v) :
    ∃ (q : Int) (x : ℚ), p + 1 < q ∧ q ≤ e ∧ tokenAt tokens q = .ok .CloseParenToken
      ∧ depthAt tokens (q + 1) = depthAt tokens p
      ∧ getSubExpressionEndPos tokens p = .ok q
      ∧ (∃ f, resolveValueAtPos Exact f tokens p = .ok x)
      ∧ ∃ G0 : Nat, ∀ G : Nat, G0 ≤ G →
          convExpr G (restAt tokens (p + 1)) = some (x, .CloseParenToken :: restAt tokens (q + 1)) := by
  obtain ⟨q, hq, hpq, hqe, hc, hdq, hnest⟩ := group_nested hw ha hpe hen hd
  obtain ⟨x, ⟨F0, hF0⟩, ⟨G0, hG0⟩⟩ := ih (p + 1) (q - 1) (by omega) (by omega) (by omega) hnest
  refine ⟨q, x, hpq, hqe, hc, hdq, hq, ⟨F0 + 1, ?_⟩, G0 + 1, ?_⟩
  · rw [resolveValueAtPos_succ]
    simp only [ha, hq]
    exact hF0 F0 (le_refl _)
  · intro G hG
    obtain ⟨G1, rfl⟩ : ∃ G1, G = G1 + 1 := ⟨G - 1, by omega⟩
    have h := hG0 G1 (by omega) 0
    rw [Int.sub_add_cancel, restAt_cons hc] at h
    rw [convExpr_succ]
    cases hterm : convTerm G1 (restAt tokens (p + 1)) with
    | none =>
      rw [hterm] at h
      cases h
    | some tr =>
      obtain ⟨t, r⟩ := tr
      rw [hterm] at h
      simp only [zero_add] at h ⊢
      exact h

/-- An operand at the depth of a range: the evaluator and the conventional
evaluation agree on it when they agree on every smaller range.  For the tokens
of a negated group the evaluator reads the operand `-1` and the factor `* y`,
the conventional evaluation the factor `-y`. -/
theorem operand_agrees {tokens : List (Token ℚ)} (hw : WellShaped tokens) {s e p : Int}
    {a : Token ℚ} (hr : NestedRange tokens s e) (hsp : s ≤ p) (hpe : p ≤ e)
    (hdp : depthAt tokens p = depthAt tokens s)
    (ha : tokenAt tokens p = .ok a) (has : a.startsOperand = true)
    (ih : ∀ s1 e1 : Int, s ≤ s1 → e1 ≤ e → e1 - s1 < e - s → NestedRange tokens s1 e1 →
      ∃ v, Agrees tokens s1 e1 v) :
    ∃ (q q1 : Int) (x v1 : ℚ) (fs1 : List (operator_function × ℚ)),
      p ≤ q ∧ q ≤ e ∧ SlotOk tokens s e (q + 1)
      ∧ (∃ f, resolveValueAtPos Exact f tokens p = .ok v1)
      ∧ getSubExpressionEndPos tokens p = .ok q1
      ∧ Factors Exact tokens (q1 + 1) fs1 (q + 1)
      ∧ ((fs1 = [] ∧ v1 = x)
          ∨ (isNegatedGroup (restAt tokens p) = true ∧ v1 = -1
              ∧ ∃ y, fs1 = [(.MUTILPICATION, y)] ∧ x = -y))
      ∧ ∃ G0 : Nat, ∀ G : Nat, G0 ≤ G →
          convFactor G (restAt tokens p) = some (x, restAt tokens (q + 1)) := by
  obtain ⟨hrange, hde, hmin, hbehind⟩ := hr
  obtain ⟨z, hz, hze⟩ := hrange.2.2.1
  have hen := (tokenAt_bounds hz).2
  have h0 := (tokenAt_bounds ha).1
  cases a with
  | CloseParenToken => simp [Token.startsOperand, Token.getType] at has
  | OperatorToken fn => simp [Token.startsOperand, Token.getType] at has
  | OpenParenToken =>
    have hne : p ≠ e := by
      rintro rfl
      have := tokenAt_unique ha hz
      subst this
      simp [Token.getType, Token.endsOperand] at hze
    obtain ⟨q, x, hpq, hqe, hc, hdq, hq, hv, G0, hG0⟩ :=
      group_agrees hw hsp (lt_of_le_of_ne hpe hne) hen (by omega) ha ih
    refine ⟨q, q, x, x, [], by omega, hqe, ⟨by omega, by omega, by omega, ?_⟩, hv, hq,
      Factors.done _, Or.inl ⟨rfl, rfl⟩, G0 + 1, ?_⟩
    · refine ⟨.CloseParenToken, ?_, ?_⟩
      · rw [Int.add_sub_cancel]
        exact hc
      · simp [Token.endsOperand, Token.getType]
    · intro G hG
      obtain ⟨G1, rfl⟩ : ∃ G1, G = G1 + 1 := ⟨G - 1, by omega⟩
      rw [convFactor_succ, restAt_cons ha]
      simp only [isNegatedGroup, Bool.false_eq_true, if_false]
      rw [hG0 G1 (by omega)]
  | ValueToken v =>
    have hv1 : resolveValueAtPos Exact 1 tokens p = .ok v := by
      rw [resolveValueAtPos_succ]
      simp only [ha]
    have hq1 : getSubExpressionEndPos tokens p = .ok p :=
      getSubExpressionEndPos_other ha (by simp [Token.getType])
    have hdv : depthAt tokens (p + 1) = depthAt tokens p := by
      rw [depthAt_succ ha]
      simp [Token.weight, Token.getType]
    by_cases hneg : isNegatedGroup (restAt tokens p) = true
    · -- the tokens of a negated group
      have hcons := restAt_cons ha
      obtain ⟨hm, ho, hvneg⟩ : (∃ r, restAt tokens (p + 1) = .OperatorToken .MUTILPICATION :: r)
          ∧ (∃ r, restAt tokens (p + 1 + 1) = .OpenParenToken :: r) ∧ v = -1 := by
        rw [hcons] at hneg
        cases h1 : restAt tokens (p + 1) with
        | nil =>
          rw [h1] at hneg
          simp [isNegatedGroup] at hneg
        | cons t1 r1 =>
          have hr1 := (restAt_head (by omega) h1).2
          rw [h1] at hneg
          cases r1 with
          | nil => cases t1 <;> simp [isNegatedGroup] at hneg
          | cons t2 r2 =>
            cases t1 with
            | OperatorToken f1 =>
              cases f1 <;> cases t2 <;> simp [isNegatedGroup] at hneg
              exact ⟨⟨_, rfl⟩, ⟨_, hr1.symm⟩, hneg⟩
            | OpenParenToken => simp [isNegatedGroup] at hneg
            | CloseParenToken => simp [isNegatedGroup] at hneg
            | ValueToken w => simp [isNegatedGroup] at hneg
      subst hvneg
      obtain ⟨rm, hrm⟩ := hm
      obtain ⟨ro, hro⟩ := ho
      obtain ⟨htm, _⟩ := restAt_head (by omega) hrm
      obtain ⟨hto, _⟩ := restAt_head (by omega) hro
      have hp1 : p + 1 ≤ e := by
        by_contra hcon
        have hpe' : p = e := by omega
        subst hpe'
        rcases hbehind with h | ⟨c, hc, hct⟩
        · have := (tokenAt_bounds htm).2
          omega
        · have := tokenAt_unique htm hc
          subst this
          simp [Token.getType] at hct
      obtain ⟨hp2, _, hd2⟩ := after_operator hw htm hz hze hp1
      have hne : p + 1 + 1 ≠ e := by
        intro h
        rw [h] at hto
        have := tokenAt_unique hto hz
        subst this
        simp [Token.getType, Token.endsOperand] at hze
      obtain ⟨q, y, hpq, hqe, hc, hdq, hq, ⟨f, hvy⟩, G0, hG0⟩ :=
        group_agrees hw (by omega : s ≤ p + 1 + 1) (lt_of_le_of_ne hp2 hne) hen (by omega)
          hto ih
      refine ⟨q, p, -y, -1, [(.MUTILPICATION, y)], by omega, hqe,
        ⟨by omega, by omega, by omega, ?_⟩, ⟨1, hv1⟩, hq1,
        Factors.times f htm hvy hq (Factors.done _), Or.inr ⟨hneg, rfl, y, rfl, rfl⟩,
        G0 + 1, ?_⟩
      · refine ⟨.CloseParenToken, ?_, ?_⟩
        · rw [Int.add_sub_cancel]
          exact hc
        · simp [Token.endsOperand, Token.getType]
      · intro G hG
        obtain ⟨G1, rfl⟩ : ∃ G1, G = G1 + 1 := ⟨G - 1, by omega⟩
        rw [convFactor_succ]
        simp only [hneg, if_true]
        have hdrop : (restAt tokens p).drop 3 = restAt tokens (p + 1 + 1 + 1) := by
          rw [hcons, restAt_cons htm, restAt_cons hto]
          rfl
        rw [hdrop, hG0 G1 (by omega)]
    · -- a number
      refine ⟨p, p, v, v, [], le_refl _, hpe, ⟨by omega, by omega, by omega, ?_⟩, ⟨1, hv1⟩,
        hq1, Factors.done _, Or.inl ⟨rfl, rfl⟩, 1, ?_⟩
      · refine ⟨.ValueToken v, ?_, ?_⟩
        · rw [Int.add_sub_cancel]
          exact ha
        · simp [Token.endsOperand, Token.getType]
      · intro G hG
        obtain ⟨G1, rfl⟩ : ∃ G1, G = G1 + 1 := ⟨G - 1, by omega⟩
        rw [convFactor_succ]
        simp only [hneg, Bool.false_eq_true, if_false]
        rw [restAt_cons ha]

/-- The factors behind an operand of a range without `-` and without a division
by a negated group: the evaluator and the conventional evaluation read the
same product, when they agree on every smaller range. -/
theorem factors_agree {tokens : List (Token ℚ)} (hw : WellShaped tokens)
    (hsub : NoSubtraction tokens) (hdiv : NoDivisionByNegatedGroup tokens) {s e : Int}
    (hr : NestedRange tokens s e)
    (ih : ∀ s1 e1 : Int, s ≤ s1 → e1 ≤ e → e1 - s1 < e - s → NestedRange tokens s1 e1 →
      ∃ v, Agrees tokens s1 e1 v) :
    ∀ (m : Nat) (cur : Int), (e + 1 - cur).toNat ≤ m → SlotOk tokens s e cur →
      ∃ (k : Int) (fs : List (operator_function × ℚ)),
        Factors Exact tokens cur fs k ∧ SlotOk tokens s e k
        ∧ (k = e + 1 ∨ tokenAt tokens k = .ok (.OperatorToken .ADDITION))
        ∧ ∃ G0 : Nat, ∀ G : Nat, G0 ≤ G → ∀ res : ℚ,
            convTermLoop G res (restAt tokens cur)
              = some (productOf Exact res fs, restAt tokens k) := by
  intro m
  induction m with
  | zero =>
    intro cur hm hs
    have hcur : cur = e + 1 := by
      have := hs.2.1
      omega
    subst hcur
    refine ⟨e + 1, [], Factors.done _, hs, Or.inl rfl, 1, ?_⟩
    intro G hG res
    obtain ⟨G1, rfl⟩ : ∃ G1, G = G1 + 1 := ⟨G - 1, by omega⟩
    rw [convTermLoop_succ]
    rcases restAt_behind hr with h | ⟨r, h⟩ <;> rw [h] <;> rfl
  | succ m ihm =>
    intro cur hm hs
    by_cases hend : cur = e + 1
    · exact ihm cur (by omega) hs
    · have hce : cur ≤ e := by
        have := hs.2.1
        omega
      obtain ⟨z, hz, hze⟩ := hr.1.2.2.1
      obtain ⟨op, ht⟩ := slot_token hw hr hs hce
      have hstop : ∀ G : Nat, 1 ≤ G → ∀ res : ℚ, op = .ADDITION →
          convTermLoop G res (restAt tokens cur) = some (productOf Exact res [], restAt tokens cur) := by
        intro G hG res hop
        subst hop
        obtain ⟨G1, rfl⟩ : ∃ G1, G = G1 + 1 := ⟨G - 1, by omega⟩
        rw [convTermLoop_succ, restAt_cons ht]
        rfl
      obtain ⟨hn1, ⟨b, hb, hbs⟩, hdn⟩ := after_operator hw ht hz hze hce
      have hgo : (op = .MUTILPICATION ∨ op = .DIVISION) →
          ∃ (k : Int) (fs : List (operator_function × ℚ)),
            Factors Exact tokens cur fs k ∧ SlotOk tokens s e k
            ∧ (k = e + 1 ∨ tokenAt tokens k = .ok (.OperatorToken .ADDITION))
            ∧ ∃ G0 : Nat, ∀ G : Nat, G0 ≤ G → ∀ res : ℚ,
                convTermLoop G res (restAt tokens cur)
                  = some (productOf Exact res fs, restAt tokens k) := by
        intro hop
        obtain ⟨q, q1, x, v1, fs1, hpq, hqe, hslot, ⟨f, hv⟩, hq1, hfs1, hrel, Gf, hGf⟩ :=
          operand_agrees hw hr (by have := hs.1; omega) hn1 (by rw [hdn]; exact hs.2.2.1) hb hbs
            ih
        obtain ⟨k, fs2, hfs2, hslotk, hk, G2, hG2⟩ := ihm (q + 1) (by omega) hslot
        have hfact : Factors Exact tokens cur ((op, v1) :: (fs1 ++ fs2)) k := by
          rcases hop with rfl | rfl
          · exact Factors.times f ht hv hq1 (hfs1.append hfs2)
          · exact Factors.over f ht hv hq1 (hfs1.append hfs2)
        have hval : ∀ res : ℚ, productOf Exact res ((op, v1) :: (fs1 ++ fs2))
            = productOf Exact (applyFactor Exact res (op, x)) fs2 := by
          intro res
          rw [productOf_cons, productOf_append]
          rcases hrel with ⟨rfl, rfl⟩ | ⟨hneg, rfl, y, rfl, rfl⟩
          · rfl
          · rcases hop with rfl | rfl
            · congr 1
              simp only [productOf, applyFactor, Exact, List.foldl_cons, List.foldl_nil]
              ring
            · exfalso
              have h0 := (tokenAt_bounds ht).1
              obtain ⟨_, hget⟩ := (tokenAt_ok_iff tokens cur _).mp ht
              have hlt := (List.getElem?_eq_some_iff.mp hget).1
              have := hdiv cur.toNat hlt hget
              have e1 : (cur + 1).toNat = cur.toNat + 1 := by omega
              unfold restAt at hneg
              rw [e1, this] at hneg
              cases hneg
        refine ⟨k, (op, v1) :: (fs1 ++ fs2), hfact, hslotk, hk, max Gf G2 + 1, ?_⟩
        intro G hG res
        obtain ⟨G1, rfl⟩ : ∃ G1, G = G1 + 1 := ⟨G - 1, by omega⟩
        rw [convTermLoop_succ, restAt_cons ht, hval]
        rcases hop with rfl | rfl
        · simp only [hGf G1 (by omega)]
          rw [hG2 G1 (by omega)]
          rfl
        · simp only [hGf G1 (by omega)]
          rw [hG2 G1 (by omega)]
          rfl
      cases op with
      | ADDITION =>
        exact ⟨cur, [], Factors.done _, hs, Or.inr ht, 1, fun G hG res => hstop G hG res rfl⟩
      | SUBTRACTION => exact absurd rfl (hsub _ (tokenAt_mem ht))
      | MUTILPICATION => exact hgo (Or.inl rfl)
      | DIVISION => exact hgo (Or.inr rfl)

/-- A sum: the evaluator adds the whole remainder behind the first `+` to the
product in front of it. -/
theorem resolveTokenList_sum {α : Type} (D : DoubleOps α) (tokens : List (Token α))
    (start_pos end_pos q0 k : Int) (v0 R : α) (fs : List (operator_function × α))
    (fuel0 : Nat)
    (hfirst : resolveValueAtPos D fuel0 tokens start_pos = .ok v0)
    (hq0 : getSubExpressionEndPos tokens start_pos = .ok q0)
    (hfs : Factors D tokens (q0 + 1) fs k)
    (hk : tokenAt tokens k = .ok (.OperatorToken .ADDITION))
    (hke : k ≤ end_pos)
    (hrest : ∃ F1 : Nat, ∀ F : Nat, F1 ≤ F →
      resolveTokenList D F tokens (k + 1) end_pos = .ok R) :
    ∃ F0 : Nat, ∀ F : Nat, F0 ≤ F →
      resolveTokenList D F tokens start_pos end_pos = .ok (D.add (productOf D v0 fs) R) := by
  obtain ⟨F1, hF1⟩ := hrest
  obtain ⟨F0, hF0⟩ := resolveLoop_factors hfs hk (Or.inl rfl) hke (hF1 F1 (le_refl _))
  refine ⟨max F0 fuel0 + 1, ?_⟩
  intro F hF
  obtain ⟨G, rfl⟩ : ∃ G, F = G + 1 := ⟨F - 1, by omega⟩
  have hv := (resolve_fuel_mono D tokens fuel0 G (by omega)).2.2 _ _ hfirst
  have ht : ∃ t, tokenAt tokens start_pos = .ok t := by
    unfold getSubExpressionEndPos at hq0
    cases h : tokenAt tokens start_pos with
    | error e =>
      rw [h] at hq0
      cases hq0
    | ok t => exact ⟨t, rfl⟩
  obtain ⟨t, ht⟩ := ht
  rw [resolveTokenList_succ]
  simp only [ht, hv, hq0]
  exact hF0 G (by omega) v0

/-- On every range of a well-nested sequence without `-` and without a
division by a negated group, the evaluator over exact arithmetic and the
conventional evaluation agree. -/
theorem range_agrees {tokens : List (Token ℚ)} (hw : WellShaped tokens)
    (hsub : NoSubtraction tokens) (hdiv : NoDivisionByNegatedGroup tokens) :
    ∀ (n : Nat) (s e : Int), (e - s).toNat < n → NestedRange tokens s e →
      ∃ v, Agrees tokens s e v := by
  intro n
  induction n with
  | zero =>
    intro s e h
    omega
  | succ n ihn =>
    intro s e hn hr
    have ih : ∀ s1 e1 : Int, s ≤ s1 → e1 ≤ e → e1 - s1 < e - s → NestedRange tokens s1 e1 →
        ∃ v, Agrees tokens s1 e1 v := by
      intro s1 e1 _ _ hlt hr1
      exact ihn s1 e1 (by have := hr1.1.1; omega) hr1
    obtain ⟨hse, ⟨a, ha, has⟩, ⟨z, hz, hze⟩, _⟩ := hr.1
    obtain ⟨q, q1, x, v1, fs1, hpq, hqe, hslot, ⟨f, hv⟩, hq1, hfs1, hrel, Gf, hGf⟩ :=
      operand_agrees hw hr (le_refl _) hse rfl ha has ih
    obtain ⟨k, fs2, hfs2, hslotk, hk, G2, hG2⟩ :=
      factors_agree hw hsub hdiv hr ih _ (q + 1) (le_refl _) hslot
    have hP : productOf Exact v1 (fs1 ++ fs2) = productOf Exact x fs2 := by
      rw [productOf_append]
      rcases hrel with ⟨rfl, rfl⟩ | ⟨_, rfl, y, rfl, rfl⟩
      · rfl
      · congr 1
        simp only [productOf, applyFactor, Exact, List.foldl_cons, List.foldl_nil]
        ring
    have hterm : ∀ G : Nat, max Gf G2 + 1 ≤ G →
        convTerm G (restAt tokens s) = some (productOf Exact x fs2, restAt tokens k) := by
      intro G hG
      obtain ⟨G1, rfl⟩ : ∃ G1, G = G1 + 1 := ⟨G - 1, by omega⟩
      rw [convTerm_succ]
      simp only [hGf G1 (by omega)]
      exact hG2 G1 (by omega) x
    rcases hk with hk | hk
    · -- the range is one product
      subst hk
      refine ⟨productOf Exact x fs2, ?_, max Gf G2 + 1, ?_⟩
      · rw [← hP]
        exact resolveTokenList_product Exact tokens s e q1 v1 _ f hv hq1 (hfs1.append hfs2)
      · intro G hG acc
        rw [hterm G hG]
        simp only
        obtain ⟨G1, rfl⟩ : ∃ G1, G = G1 + 1 := ⟨G - 1, by omega⟩
        rw [convExprLoop_succ]
        rcases restAt_behind hr with h | ⟨r, h⟩ <;> rw [h]
    · -- a product, `+`, and the remainder
      have hke : k ≤ e := by
        have := (tokenAt_bounds hk).2
        have := hslotk.2.1
        by_contra hcon
        have hk1 : k = e + 1 := by omega
        rcases hr.2.2.2 with h | ⟨c, hc, hct⟩
        · omega
        · rw [hk1] at hk
          have := tokenAt_unique hk hc
          subst this
          simp [Token.getType] at hct
      obtain ⟨hn1, hb, hdn⟩ := after_operator hw hk hz hze hke
      have hrest : NestedRange tokens (k + 1) e := by
        refine ⟨⟨hn1, hb, ⟨z, hz, hze⟩, ?_⟩, ?_, ?_, hr.2.2.2⟩
        · rw [hdn, hslotk.2.2.1, hr.2.1]
        · rw [hdn, hslotk.2.2.1, hr.2.1]
        · intro j hj1 hj2
          rw [hdn, hslotk.2.2.1]
          exact hr.2.2.1 j (by have := hslotk.1; omega) hj2
      obtain ⟨w, hcode, Gr, hGr⟩ :=
        ih (k + 1) e (by have := hslotk.1; omega) (le_refl _) (by have := hslotk.1; omega)
          hrest
      refine ⟨productOf Exact x fs2 + w, ?_, max (max Gf G2) Gr + 2, ?_⟩
      · rw [← hP]
        exact resolveTokenList_sum Exact tokens s e q1 k v1 w _ f hv hq1 (hfs1.append hfs2) hk
          hke hcode
      · intro G hG acc
        rw [hterm G (by omega)]
        simp only
        obtain ⟨G1, rfl⟩ : ∃ G1, G = G1 + 1 := ⟨G - 1, by omega⟩
        rw [convExprLoop_succ, restAt_cons hk]
        simp only
        rw [hGr G1 (by omega) (acc + productOf Exact x fs2), add_assoc]

/-! ## Evaluation at concrete inputs -/

/-- C1: the input "10 - 2 - 3" tokenizes successfully, and resolveTokenList over
the full token sequence gives 11, the value of 10 - (2 - 3); conventional
left-to-right grouping gives (10 - 2) - 3 = 5. -/
theorem subtraction_chain_resolved_from_the_right :
    Expression.setExpression Dbl.ops "10 - 2 - 3" (Expression.raw (Dbl.fin 0) false)
        = .returned
          { _value := Dbl.fin 11
            _exp := "10 - 2 - 3"
            _token_list :=
              [.ValueToken (Dbl.fin 10), .OperatorToken .SUBTRACTION, .ValueToken (Dbl.fin 2),
                .OperatorToken .SUBTRACTION, .ValueToken (Dbl.fin 3)]
            _is_valid := true
            _error_message := "" }
      ∧ resolveTokenList Dbl.ops (evalFuel 5)
          [.ValueToken (Dbl.fin 10), .OperatorToken .SUBTRACTION, .ValueToken (Dbl.fin 2),
            .OperatorToken .SUBTRACTION, .ValueToken (Dbl.fin 3)] 0 4 = .ok (Dbl.fin 11)
      ∧ Dbl.sub (Dbl.sub (Dbl.fin 10) (Dbl.fin 2)) (Dbl.fin 3) = Dbl.fin 5 := by
  decide!

/-- C2: in "8 / -(2)" the group has value 2, so the term "-(2)" should contribute
-2 and the input should have value 8 / (-2) = -4; the tokens Value(-1),
Operator(Mul), OpenParen after the division make it (8 / -1) * 2 = -16. -/
theorem negated_group_after_division :
    Expression.setExpression Dbl.ops "8 / -(2)" (Expression.raw (Dbl.fin 0) false)
        = .returned
          { _value := Dbl.fin (-16)
            _exp := "8 / -(2)"
            _token_list :=
              [.ValueToken (Dbl.fin 8), .OperatorToken .DIVISION, .ValueToken (Dbl.fin (-1)),
                .OperatorToken .MUTILPICATION, .OpenParenToken, .ValueToken (Dbl.fin 2),
                .CloseParenToken]
            _is_valid := true
            _error_message := "" }
      ∧ Expression.setExpression Dbl.ops "2" (Expression.raw (Dbl.fin 0) false)
        = .returned
          { _value := Dbl.fin 2
            _exp := "2"
            _token_list := [.ValueToken (Dbl.fin 2)]
            _is_valid := true
            _error_message := "" }
      ∧ Dbl.div (Dbl.fin 8) (Dbl.neg (Dbl.fin 2)) = Dbl.fin (-4) := by
  decide!

/-- C3: on the input "1) + (2" the tokenizer reports success (the counts of
parentheses agree), the evaluator meets the CloseParen where it expects an
operator, and the `std::logic_error` is not turned into the flag and a message
only: it leaves `setExpression`, and it leaves the constructor. -/
theorem unexpected_token_leaves_setExpression :
    Expression.setExpression Dbl.ops "1) + (2" (Expression.raw (Dbl.fin 0) false)
        = .thrown EXMSG_UNEXPECTED_TOKEN
          { _value := Dbl.fin 0
            _exp := "1) + (2"
            _token_list := []
            _is_valid := false
            _error_message := EXMSG_UNEXPECTED_TOKEN }
      ∧ Expression.construct Dbl.ops (Dbl.fin 0) false "1) + (2"
        = .thrown EXMSG_UNEXPECTED_TOKEN
          { _value := Dbl.fin 0
            _exp := "1) + (2"
            _token_list := []
            _is_valid := false
            _error_message := EXMSG_UNEXPECTED_TOKEN } := by
  decide!

/-- The exceptions that can leave the driver: for every arithmetic, every input
string and every prior state, `setExpression` (and the constructor) either
returns normally, or lets through the exception of `std::stod`, of
`getOpTokenFromString` or of the evaluator after recording it: the flag is
false, the message is the text of the exception and the token list is empty. -/
theorem setExpression_returns_or_rethrows {α : Type} (D : DoubleOps α) (exp : String) :
    (∀ self : Expression α,
      (∃ self1, self.setExpression D exp = .returned self1)
      ∨ ∃ what self1, self.setExpression D exp = .thrown what self1
          ∧ (what = EXMSG_STOD ∨ what = EXMSG_INVALID_OPERATOR ∨ what = EXMSG_UNEXPECTED_TOKEN)
          ∧ self1.isValid = false ∧ self1.getErrorMessage = what ∧ self1._token_list = [])
    ∧ ∀ (value : α) (is_valid : Bool),
      (∃ self1, Expression.construct D value is_valid exp = .returned self1)
      ∨ ∃ what self1, Expression.construct D value is_valid exp = .thrown what self1
          ∧ (what = EXMSG_STOD ∨ what = EXMSG_INVALID_OPERATOR ∨ what = EXMSG_UNEXPECTED_TOKEN)
          ∧ self1.isValid = false ∧ self1.getErrorMessage = what ∧ self1._token_list = [] := by
  obtain ⟨V, hS, hV⟩ := Expression.evaluateExpression_verdict D exp
  have key : ∀ self : Expression α, self._exp = exp →
      (∃ self1, self.evaluateExpression D = .returned self1)
      ∨ ∃ what self1, self.evaluateExpression D = .thrown what self1
          ∧ (what = EXMSG_STOD ∨ what = EXMSG_INVALID_OPERATOR ∨ what = EXMSG_UNEXPECTED_TOKEN)
          ∧ self1.isValid = false ∧ self1.getErrorMessage = what ∧ self1._token_list = [] := by
    intro self hself
    rw [hV self hself]
    cases V with
    | empty => exact Or.inl ⟨_, rfl⟩
    | raised what => exact Or.inr ⟨what, _, rfl, hS, rfl, rfl, rfl⟩
    | rejected ts m => exact Or.inl ⟨_, rfl⟩
    | resolved ts x => exact Or.inl ⟨_, rfl⟩
  exact ⟨fun self => key _ rfl, fun value is_valid => key _ rfl⟩

/-- C4: the input "0 / 0" tokenizes without error and evaluates to NaN, which
`std::isinf` does not report: the Expression is valid while its value is not
finite. -/
theorem nan_result_is_valid :
    Expression.setExpression Dbl.ops "0 / 0" (Expression.raw (Dbl.fin 0) false)
        = .returned
          { _value := Dbl.nan
            _exp := "0 / 0"
            _token_list :=
              [.ValueToken (Dbl.fin 0), .OperatorToken .DIVISION, .ValueToken (Dbl.fin 0)]
            _is_valid := true
            _error_message := "" }
      ∧ Dbl.isfinite Dbl.nan = false := by
  decide!

/-- C5: in "1 / (1 / 0)" the inner division has the divisor zero and gives
+infinity, the outer division gives 0: the Expression is valid with an empty
message. -/
theorem division_by_zero_inside_is_valid :
    Expression.setExpression Dbl.ops "1 / (1 / 0)" (Expression.raw (Dbl.fin 0) false)
        = .returned
          { _value := Dbl.fin 0
            _exp := "1 / (1 / 0)"
            _token_list :=
              [.ValueToken (Dbl.fin 1), .OperatorToken .DIVISION, .OpenParenToken,
                .ValueToken (Dbl.fin 1), .OperatorToken .DIVISION, .ValueToken (Dbl.fin 0),
                .CloseParenToken]
            _is_valid := true
            _error_message := "" }
      ∧ Dbl.div (Dbl.fin 1) (Dbl.fin 0) = Dbl.pinf
      ∧ Dbl.div (Dbl.fin 1) Dbl.pinf = Dbl.fin 0 := by
  decide!

/-- C6: after "6 / 0" the stored value is +infinity; setting the empty string
then leaves the infinite-result message, not "no expression was provided". -/
theorem empty_string_after_infinite_value :
    Expression.setExpression Dbl.ops "6 / 0" (Expression.raw (Dbl.fin 0) false)
        = .returned
          { _value := Dbl.pinf
            _exp := "6 / 0"
            _token_list :=
              [.ValueToken (Dbl.fin 6), .OperatorToken .DIVISION, .ValueToken (Dbl.fin 0)]
            _is_valid := false
            _error_message := MSG_INFINFITE_RESULT }
      ∧ Expression.setExpression Dbl.ops ""
          { _value := Dbl.pinf
            _exp := "6 / 0"
            _token_list :=
              [.ValueToken (Dbl.fin 6), .OperatorToken .DIVISION, .ValueToken (Dbl.fin 0)]
            _is_valid := false
            _error_message := MSG_INFINFITE_RESULT }
        = .returned
          { _value := Dbl.pinf
            _exp := ""
            _token_list :=
              [.ValueToken (Dbl.fin 6), .OperatorToken .DIVISION, .ValueToken (Dbl.fin 0)]
            _is_valid := false
            _error_message := MSG_INFINFITE_RESULT }
      ∧ MSG_INFINFITE_RESULT ≠ MSG_EMPTY_EXPRESSION := by
  decide!

/-- C7: the string "+" set after "6 / 0" leaves the infinite-result message, set
after "5" it leaves the value-not-found message: the outcome depends on the
prior state. -/
theorem message_depends_on_prior_value :
    (Expression.setExpression Dbl.ops "6 / 0" (Expression.raw (Dbl.fin 0) false)).self?.map
        (fun self => (Expression.setExpression Dbl.ops "+" self).self?.map
          Expression.getErrorMessage)
      = some (some MSG_INFINFITE_RESULT)
    ∧ (Expression.setExpression Dbl.ops "5" (Expression.raw (Dbl.fin 0) false)).self?.map
        (fun self => (Expression.setExpression Dbl.ops "+" self).self?.map
          Expression.getErrorMessage)
      = some (some MSG_VALUE_NOT_FOUND)
    ∧ MSG_INFINFITE_RESULT ≠ MSG_VALUE_NOT_FOUND := by
  decide!

/-- C8: for every arithmetic, every string and every prior state, a second
`setExpression` with the same string ends as the first one did and leaves the
object as the first one left it: the same flag, message and value. -/
theorem setExpression_twice {α : Type} (D : DoubleOps α) (exp : String)
    (self : Expression α) :
    ∃ self1, (self.setExpression D exp).self? = some self1
      ∧ self1.setExpression D exp = self.setExpression D exp := by
  obtain ⟨V, _, hV⟩ := Expression.evaluateExpression_verdict D exp
  obtain ⟨self1, h1, h2⟩ := V.apply_twice D { self with _exp := exp }
  have hexp : self1._exp = exp := by
    cases V <;>
      simp only [Verdict.apply, Outcome.self?, Expression.checkInfinite, Option.some.injEq] at h1
    all_goals first
      | (subst h1; rfl)
      | (split at h1 <;> (subst h1; rfl))
  refine ⟨self1, ?_, ?_⟩
  · show (Expression.evaluateExpression D { self with _exp := exp }).self? = some self1
    rw [hV _ rfl]
    exact h1
  · show Expression.evaluateExpression D { self1 with _exp := exp }
      = Expression.evaluateExpression D { self with _exp := exp }
    rw [hV _ rfl, hV _ rfl]
    have e : ({ self1 with _exp := exp } : Expression α) = self1 := by
      cases self1
      simp only at hexp
      subst hexp
      rfl
    rw [e]
    exact h2

/-- C9: for every arithmetic, every input string and every prior state, after
`setExpression` and after the constructor the error message is the empty
string if and only if the validity flag is true. -/
theorem message_empty_iff_valid {α : Type} (D : DoubleOps α) (exp : String) :
    (∀ self : Expression α, ∃ self1, (self.setExpression D exp).self? = some self1
      ∧ (self1.getErrorMessage = "" ↔ self1.isValid = true))
    ∧ ∀ (value : α) (is_valid : Bool),
      ∃ self1, (Expression.construct D value is_valid exp).self? = some self1
        ∧ (self1.getErrorMessage = "" ↔ self1.isValid = true) := by
  obtain ⟨V, hS, hV⟩ := Expression.evaluateExpression_verdict D exp
  have key : ∀ self : Expression α, self._exp = exp →
      ∃ self1, (self.evaluateExpression D).self? = some self1
        ∧ (self1.getErrorMessage = "" ↔ self1.isValid = true) := by
    intro self hself
    rw [hV self hself]
    cases V with
    | empty =>
      refine ⟨_, rfl, ?_⟩
      simp only [Expression.checkInfinite, Expression.getErrorMessage, Expression.isValid]
      split <;> simp [MSG_INFINFITE_RESULT, MSG_EMPTY_EXPRESSION]
    | raised what =>
      refine ⟨_, rfl, ?_⟩
      simp only [Expression.getErrorMessage, Expression.isValid]
      rcases hS with h | h | h <;> subst h <;>
        simp [EXMSG_STOD, EXMSG_INVALID_OPERATOR, EXMSG_UNEXPECTED_TOKEN]
    | rejected ts m =>
      refine ⟨_, rfl, ?_⟩
      have hm : m ≠ "" := hS
      simp only [Expression.checkInfinite, Expression.getErrorMessage, Expression.isValid]
      split <;> simp [MSG_INFINFITE_RESULT, hm]
    | resolved ts x =>
      refine ⟨_, rfl, ?_⟩
      simp only [Expression.checkInfinite, Expression.getErrorMessage, Expression.isValid]
      split <;> simp [MSG_INFINFITE_RESULT, MSG_NO_ERROR]
  exact ⟨fun self => key _ rfl, fun value is_valid => key _ rfl⟩

/-- C10: when the loop of `createTokenList` has consumed an operand and the
closing parentheses after it (it is in the state FIND_OPERATOR) and the
remaining text is not whitespace-only and does not begin, after optional
whitespace, with one of + - * /, then `createTokenList` returns with the flag
cleared and the message "expected arithmetic operator not found". -/
theorem operator_not_found_after_operand {α : Type} (D : DoubleOps α) (self : Expression α)
    (n : Nat) (l : Lexer α)
    (hreach : Lexer.steps D n (Lexer.init self) = .ok l)
    (hstate : l.state = .FIND_OPERATOR)
    (hws : ∃ c ∈ l.exp, patterns.isSpace c = false)
    (hop : ∀ c ∈ (l.exp.dropWhile patterns.isSpace).head?,
      ¬ (c = '+' ∨ c = '-' ∨ c = '*' ∨ c = '/')) :
    self.createTokenList D =
      .ok { self with
        _token_list := l._token_list
        _is_valid := false
        _error_message := MSG_OPERATOR_NOT_FOUND } := by
  obtain ⟨state, exp, bal, toks, valid, msg⟩ := l
  simp only at hstate hws hop
  subst hstate
  have hsearch : patterns.search_operator exp = none := by
    unfold patterns.search_operator
    split
    · rename_i c r hr
      have := hop c (by simp [hr])
      simp only [not_or] at this
      simp [this.1, this.2.1, this.2.2.1, this.2.2.2]
    · rfl
  have hnotws : (exp.isEmpty || patterns.match_whitespace exp) = false := by
    obtain ⟨c, hc, hcs⟩ := hws
    have h1 : exp.isEmpty = false := by
      cases exp with
      | nil => simp at hc
      | cons a r => rfl
    have h2 : patterns.match_whitespace exp = false := by
      unfold patterns.match_whitespace
      rw [Bool.eq_false_iff]
      intro hall
      rw [List.all_eq_true] at hall
      rw [hall c hc] at hcs
      cases hcs
    simp [h1, h2]
  have h2 : Lexer.steps D 2
      ({ state := .FIND_OPERATOR, exp := exp, paren_balance := bal, _token_list := toks,
         _is_valid := valid, _error_message := msg } : Lexer α)
      = .ok { state := .FINISHED, exp := exp, paren_balance := bal, _token_list := toks,
              _is_valid := false, _error_message := MSG_OPERATOR_NOT_FOUND } := by
    simp only [Lexer.steps, Lexer.step, hsearch, hnotws]
    rfl
  have hall : Lexer.steps D (n + 2) (Lexer.init self)
      = .ok { state := .FINISHED, exp := exp, paren_balance := bal, _token_list := toks,
              _is_valid := false, _error_message := MSG_OPERATOR_NOT_FOUND } := by
    rw [Lexer.steps_add, hreach]
    exact h2
  have hm : (Lexer.init self).measure ≤ lexFuel self._exp.data.length := by
    simp only [Lexer.measure, Lexer.init, parse_state.rank, lexFuel]
    omega
  unfold Expression.createTokenList
  rw [Lexer.run_of_steps D _ _ _ _ hm hall rfl]

/-- C10 (witness): the input "7 + 8 9" reaches the state FIND_OPERATOR after seven
passes, with " 9" left. -/
theorem operator_not_found_after_operand_witness :
    Lexer.steps Dbl.ops 7
        (Lexer.init { Expression.raw (Dbl.fin 0) false with _exp := "7 + 8 9" })
      = .ok
          { state := .FIND_OPERATOR
            exp := [' ', '9']
            paren_balance := 0
            _token_list :=
              [.ValueToken (Dbl.fin 7), .OperatorToken .ADDITION, .ValueToken (Dbl.fin 8)]
            _is_valid := false
            _error_message := "" }
    ∧ Expression.createTokenList Dbl.ops
        { Expression.raw (Dbl.fin 0) false with _exp := "7 + 8 9" }
      = .ok
          { _value := Dbl.fin 0
            _exp := "7 + 8 9"
            _token_list :=
              [.ValueToken (Dbl.fin 7), .OperatorToken .ADDITION, .ValueToken (Dbl.fin 8)]
            _is_valid := false
            _error_message := MSG_OPERATOR_NOT_FOUND } :=
  ⟨by decide!,
    operator_not_found_after_operand Dbl.ops
      { Expression.raw (Dbl.fin 0) false with _exp := "7 + 8 9" } 7
      { state := .FIND_OPERATOR
        exp := [' ', '9']
        paren_balance := 0
        _token_list :=
          [.ValueToken (Dbl.fin 7), .OperatorToken .ADDITION, .ValueToken (Dbl.fin 8)]
        _is_valid := false
        _error_message := "" }
      (by decide!) rfl ⟨'9', by decide, by decide⟩ (by decide)⟩

/-- The inputs of the tests for a missing operator: two operands with nothing
between them, a value directly followed by an open parenthesis, a malformed
number. -/
theorem operator_not_found_examples :
    (Expression.setExpression Dbl.ops "7 + 8 9" (Expression.raw (Dbl.fin 0) false)).self?.map
        (fun self => (self.isValid, self.getErrorMessage))
      = some (false, MSG_OPERATOR_NOT_FOUND)
    ∧ (Expression.setExpression Dbl.ops "4(3 + 2)" (Expression.raw (Dbl.fin 0) false)).self?.map
        (fun self => (self.isValid, self.getErrorMessage))
      = some (false, MSG_OPERATOR_NOT_FOUND)
    ∧ (Expression.setExpression Dbl.ops "7.8.9" (Expression.raw (Dbl.fin 0) false)).self?.map
        (fun self => (self.isValid, self.getErrorMessage))
      = some (false, MSG_OPERATOR_NOT_FOUND) := by
  decide!

/-- C11: when the loop of `createTokenList` expects an operand (it is in the
state FIND_OPEN_PAREN: at the start, after an operator or after an open
parenthesis) and the remaining text begins, after optional whitespace, with
neither an optionally signed '(' nor an optionally signed digit, then
`createTokenList` returns with the flag cleared and the message "expected value
or open parentheses not found". -/
theorem value_not_found_where_operand_expected {α : Type} (D : DoubleOps α)
    (self : Expression α) (n : Nat) (l : Lexer α)
    (hreach : Lexer.steps D n (Lexer.init self) = .ok l)
    (hstate : l.state = .FIND_OPEN_PAREN)
    (hfirst : ∀ c ∈ (l.exp.dropWhile patterns.isSpace).head?,
      c ≠ '(' ∧ patterns.isDigit c = false)
    (hsigned : ∀ c ∈ (l.exp.dropWhile patterns.isSpace).head?, (c = '-' ∨ c = '+') →
      ∀ d ∈ (l.exp.dropWhile patterns.isSpace).tail.head?,
        d ≠ '(' ∧ patterns.isDigit d = false) :
    self.createTokenList D =
      .ok { self with
        _token_list := l._token_list
        _is_valid := false
        _error_message := MSG_VALUE_NOT_FOUND } := by
  obtain ⟨state, exp, bal, toks, valid, msg⟩ := l
  simp only at hstate hfirst hsigned
  subst hstate
  obtain ⟨h1, h2⟩ := patterns.no_operand exp hfirst hsigned
  have hall : Lexer.steps D (n + 2) (Lexer.init self)
      = .ok { state := .FINISHED, exp := exp, paren_balance := bal, _token_list := toks,
              _is_valid := false, _error_message := MSG_VALUE_NOT_FOUND } := by
    rw [Lexer.steps_add, hreach]
    simp only [Lexer.steps, Lexer.step, h1, h2]
  exact Expression.createTokenList_of_steps D self _ _ hall rfl

/-- C11 (witness): the input "(3 + )" expects an operand after five passes, with
" )" left. -/
theorem value_not_found_where_operand_expected_witness :
    Expression.createTokenList Dbl.ops
        { Expression.raw (Dbl.fin 0) false with _exp := "(3 + )" }
      = .ok
          { _value := Dbl.fin 0
            _exp := "(3 + )"
            _token_list :=
              [.OpenParenToken, .ValueToken (Dbl.fin 3), .OperatorToken .ADDITION]
            _is_valid := false
            _error_message := MSG_VALUE_NOT_FOUND } :=
  value_not_found_where_operand_expected Dbl.ops
    { Expression.raw (Dbl.fin 0) false with _exp := "(3 + )" } 5
    { state := .FIND_OPEN_PAREN
      exp := [' ', ')']
      paren_balance := 1
      _token_list := [.OpenParenToken, .ValueToken (Dbl.fin 3), .OperatorToken .ADDITION]
      _is_valid := false
      _error_message := "" }
    (by decide!) rfl (by decide) (by decide)

/-- The inputs of the tests for a missing operand, and a whitespace-only text. -/
theorem value_not_found_examples :
    ["+", ")", "()", "6 + * 5", "(3 + )", " ", " \t\n"].map
        (fun exp =>
          (Expression.setExpression Dbl.ops exp (Expression.raw (Dbl.fin 0) false)).self?.map
            (fun self => (self.isValid, self.getErrorMessage)))
      = List.replicate 7 (some (false, MSG_VALUE_NOT_FOUND)) := by
  decide!

/-- The check of the balance at the end of the text: when the loop of
`createTokenList` has consumed the whole text but
whitespace (it looks for an operator and only whitespace is left) and the
text holds different numbers of '(' and ')', then `createTokenList` returns
with the flag cleared and the message "unmatched parentheses in expression";
`evaluateExpression` leaves that flag and message when the value stored
before is not an infinity. -/
theorem unbalanced_parentheses_reported {α : Type} (D : DoubleOps α) (self : Expression α)
    (n : Nat) (l : Lexer α)
    (hreach : Lexer.steps D n (Lexer.init self) = .ok l)
    (hstate : l.state = .FIND_OPERATOR)
    (hws : ∀ c ∈ l.exp, patterns.isSpace c = true)
    (hcount : self._exp.data.count '(' ≠ self._exp.data.count ')') :
    self.createTokenList D =
        .ok { self with
          _token_list := l._token_list
          _is_valid := false
          _error_message := MSG_UNBALANCED_PARENS }
      ∧ (D.isinf self._value = false →
          self.evaluateExpression D =
            .returned { self with
              _token_list := l._token_list
              _is_valid := false
              _error_message := MSG_UNBALANCED_PARENS }) := by
  have hk := Lexer.steps_induction D
    (fun m => m.paren_balance + m.exp.count '(' - m.exp.count ')'
      = (self._exp.data.count '(' : Int) - self._exp.data.count ')')
    (fun m m1 hm h => Lexer.step_count D _ m m1 hm h) n (Lexer.init self) l
    (by simp [Lexer.init]) hreach
  obtain ⟨state, exp, bal, toks, valid, msg⟩ := l
  simp only at hstate hws hk
  subst hstate
  rw [patterns.count_of_all_space '(' (by decide) exp hws,
    patterns.count_of_all_space ')' (by decide) exp hws] at hk
  have hbal : bal ≠ 0 := by
    intro h0
    apply hcount
    omega
  have hsearch : patterns.search_operator exp = none := by
    unfold patterns.search_operator
    have : exp.dropWhile patterns.isSpace = [] := by
      rw [List.dropWhile_eq_nil_iff]
      exact hws
    rw [this]
  have hwhite : (exp.isEmpty || patterns.match_whitespace exp) = true := by
    have : patterns.match_whitespace exp = true := by
      unfold patterns.match_whitespace
      rw [List.all_eq_true]
      exact hws
    simp [this]
  have hall : Lexer.steps D (n + 2) (Lexer.init self)
      = .ok { state := .FINISHED, exp := exp, paren_balance := bal, _token_list := toks,
              _is_valid := false, _error_message := MSG_UNBALANCED_PARENS } := by
    rw [Lexer.steps_add, hreach]
    simp only [Lexer.steps, Lexer.step, hsearch, hwhite, hbal, ne_eq, not_false_eq_true,
      if_true]
  have hcreate := Expression.createTokenList_of_steps D self _ _ hall rfl
  refine ⟨hcreate, ?_⟩
  intro hinf
  have hne : self._exp.data.isEmpty = false := by
    cases hd : self._exp.data with
    | nil =>
      rw [hd] at hcount
      exact absurd rfl hcount
    | cons a r => rfl
  unfold Expression.evaluateExpression
  simp only [hne, Bool.false_eq_true, if_false, hcreate, Expression.checkInfinite, hinf]

/-- The input "(1 + 1" is consumed after eight passes, with one parenthesis
open. -/
theorem unbalanced_parentheses_reported_witness :
    Expression.createTokenList Dbl.ops
        { Expression.raw (Dbl.fin 0) false with _exp := "(1 + 1" }
      = .ok
          { _value := Dbl.fin 0
            _exp := "(1 + 1"
            _token_list :=
              [.OpenParenToken, .ValueToken (Dbl.fin 1), .OperatorToken .ADDITION,
                .ValueToken (Dbl.fin 1)]
            _is_valid := false
            _error_message := MSG_UNBALANCED_PARENS }
    ∧ (Dbl.ops.isinf (Dbl.fin 0) = false →
        Expression.evaluateExpression Dbl.ops
            { Expression.raw (Dbl.fin 0) false with _exp := "(1 + 1" }
          = .returned
            { _value := Dbl.fin 0
              _exp := "(1 + 1"
              _token_list :=
                [.OpenParenToken, .ValueToken (Dbl.fin 1), .OperatorToken .ADDITION,
                  .ValueToken (Dbl.fin 1)]
              _is_valid := false
              _error_message := MSG_UNBALANCED_PARENS }) :=
  unbalanced_parentheses_reported Dbl.ops
    { Expression.raw (Dbl.fin 0) false with _exp := "(1 + 1" } 8
    { state := .FIND_OPERATOR
      exp := []
      paren_balance := 1
      _token_list :=
        [.OpenParenToken, .ValueToken (Dbl.fin 1), .OperatorToken .ADDITION,
          .ValueToken (Dbl.fin 1)]
      _is_valid := false
      _error_message := "" }
    (by decide!) rfl (by decide) (by decide)

/-- The inputs of the tests for unbalanced parentheses. -/
theorem unbalanced_parentheses_examples :
    ["((1 + 1)", "(1 + 1))", "(1 + 1", "1 + 1)"].map
        (fun exp =>
          (Expression.setExpression Dbl.ops exp (Expression.raw (Dbl.fin 0) false)).self?.map
            (fun self => (self.isValid, self.getErrorMessage)))
      = List.replicate 4 (some (false, MSG_UNBALANCED_PARENS)) := by
  decide!

/-- C12: the input "(1 + 1" is consumed completely and holds one '(' and no ')';
`createTokenList` sets the message "unmatched parentheses in expression", but
when the value stored before is +infinity (left by "6 / 0") the test
`std::isinf(_value)` at the end of `evaluateExpression` replaces it: the result
of `setExpression` carries the infinite-result message. -/
theorem unbalanced_parentheses_after_infinite_value :
    Expression.setExpression Dbl.ops "6 / 0" (Expression.raw (Dbl.fin 0) false)
        = .returned
          { _value := Dbl.pinf
            _exp := "6 / 0"
            _token_list :=
              [.ValueToken (Dbl.fin 6), .OperatorToken .DIVISION, .ValueToken (Dbl.fin 0)]
            _is_valid := false
            _error_message := MSG_INFINFITE_RESULT }
      ∧ Expression.createTokenList Dbl.ops
          { _value := Dbl.pinf
            _exp := "(1 + 1"
            _token_list :=
              [.ValueToken (Dbl.fin 6), .OperatorToken .DIVISION, .ValueToken (Dbl.fin 0)]
            _is_valid := false
            _error_message := MSG_INFINFITE_RESULT }
        = .ok
          { _value := Dbl.pinf
            _exp := "(1 + 1"
            _token_list :=
              [.OpenParenToken, .ValueToken (Dbl.fin 1), .OperatorToken .ADDITION,
                .ValueToken (Dbl.fin 1)]
            _is_valid := false
            _error_message := MSG_UNBALANCED_PARENS }
      ∧ Expression.setExpression Dbl.ops "(1 + 1"
          { _value := Dbl.pinf
            _exp := "6 / 0"
            _token_list :=
              [.ValueToken (Dbl.fin 6), .OperatorToken .DIVISION, .ValueToken (Dbl.fin 0)]
            _is_valid := false
            _error_message := MSG_INFINFITE_RESULT }
        = .returned
          { _value := Dbl.pinf
            _exp := "(1 + 1"
            _token_list :=
              [.OpenParenToken, .ValueToken (Dbl.fin 1), .OperatorToken .ADDITION,
                .ValueToken (Dbl.fin 1)]
            _is_valid := false
            _error_message := MSG_INFINFITE_RESULT }
      ∧ "(1 + 1".data.count '(' ≠ "(1 + 1".data.count ')'
      ∧ MSG_INFINFITE_RESULT ≠ MSG_UNBALANCED_PARENS := by
  decide!

/-- C13: a line feed in front of a token is whitespace for the patterns `operator`
and `open_paren`, but not for the patterns that classify the matched text: with
"1 + 2" valid and worth 3, the input "1 \n+ 2" raises the invalid-operator
error, and with " -(2)" worth -2, the input "\n-(2)" is worth 2. -/
theorem line_feed_before_token_changes_result :
    Expression.setExpression Dbl.ops "1 + 2" (Expression.raw (Dbl.fin 0) false)
        = .returned
          { _value := Dbl.fin 3
            _exp := "1 + 2"
            _token_list :=
              [.ValueToken (Dbl.fin 1), .OperatorToken .ADDITION, .ValueToken (Dbl.fin 2)]
            _is_valid := true
            _error_message := "" }
    ∧ Expression.setExpression Dbl.ops "1 \n+ 2" (Expression.raw (Dbl.fin 0) false)
        = .thrown EXMSG_INVALID_OPERATOR
          { _value := Dbl.fin 0
            _exp := "1 \n+ 2"
            _token_list := []
            _is_valid := false
            _error_message := EXMSG_INVALID_OPERATOR }
    ∧ Expression.setExpression Dbl.ops " -(2)" (Expression.raw (Dbl.fin 0) false)
        = .returned
          { _value := Dbl.fin (-2)
            _exp := " -(2)"
            _token_list :=
              [.ValueToken (Dbl.fin (-1)), .OperatorToken .MUTILPICATION, .OpenParenToken,
                .ValueToken (Dbl.fin 2), .CloseParenToken]
            _is_valid := true
            _error_message := "" }
    ∧ Expression.setExpression Dbl.ops "\n-(2)" (Expression.raw (Dbl.fin 0) false)
        = .returned
          { _value := Dbl.fin 2
            _exp := "\n-(2)"
            _token_list := [.OpenParenToken, .ValueToken (Dbl.fin 2), .CloseParenToken]
            _is_valid := true
            _error_message := "" } := by
  decide!

/-- C14: the literal 10^309 is beyond the largest finite double: `std::stod`
throws, `evaluateExpression` records the text of that exception as the message
and throws it on.  The literal of the test, 10^308, is in range, and the test's
input is invalid with the infinite-result message because of its "* 2". -/
theorem literal_out_of_range_raises :
    Expression.setExpression Dbl.ops
        "1000000000000000000000000000000000000000000000000000000000000000000000000000000000000000000000000000000000000000000000000000000000000000000000000000000000000000000000000000000000000000000000000000000000000000000000000000000000000000000000000000000000000000000000000000000000000000000000000000000000000000000000"
        (Expression.raw (Dbl.fin 0) false)
      = .thrown EXMSG_STOD
          { _value := Dbl.fin 0
            _exp :=
              "1000000000000000000000000000000000000000000000000000000000000000000000000000000000000000000000000000000000000000000000000000000000000000000000000000000000000000000000000000000000000000000000000000000000000000000000000000000000000000000000000000000000000000000000000000000000000000000000000000000000000000000000"
            _token_list := []
            _is_valid := false
            _error_message := EXMSG_STOD }
    ∧ (Expression.setExpression Dbl.ops
        "100000000000000000000000000000000000000000000000000000000000000000000000000000000000000000000000000000000000000000000000000000000000000000000000000000000000000000000000000000000000000000000000000000000000000000000000000000000000000000000000000000000000000000000000000000000000000000000000000000000000000000000 * 2"
        (Expression.raw (Dbl.fin 0) false)).self?.map
          (fun self => (self.isValid, self.getErrorMessage, self.getValue))
      = some (false, MSG_INFINFITE_RESULT, Dbl.pinf)
    ∧ EXMSG_STOD ≠ MSG_INFINFITE_RESULT := by
  decide!

/-- C15: for every arithmetic, every string and every prior state, after
`setExpression` and after the constructor `getExpression` returns the string
that was given, whether the call returned or threw. -/
theorem getExpression_returns_the_text {α : Type} (D : DoubleOps α) (exp : String) :
    (∀ self : Expression α, ∃ self1, (self.setExpression D exp).self? = some self1
      ∧ self1.getExpression = exp)
    ∧ ∀ (value : α) (is_valid : Bool),
      ∃ self1, (Expression.construct D value is_valid exp).self? = some self1
        ∧ self1.getExpression = exp := by
  obtain ⟨V, _, hV⟩ := Expression.evaluateExpression_verdict D exp
  have key : ∀ self : Expression α, self._exp = exp →
      ∃ self1, (self.evaluateExpression D).self? = some self1 ∧ self1.getExpression = exp := by
    intro self hself
    rw [hV self hself]
    cases V with
    | empty =>
      refine ⟨_, rfl, ?_⟩
      simp only [Expression.checkInfinite, Expression.getExpression]
      split <;> exact hself
    | raised what => exact ⟨_, rfl, hself⟩
    | rejected ts m =>
      refine ⟨_, rfl, ?_⟩
      simp only [Expression.checkInfinite, Expression.getExpression]
      split <;> exact hself
    | resolved ts x =>
      refine ⟨_, rfl, ?_⟩
      simp only [Expression.checkInfinite, Expression.getExpression]
      split <;> exact hself
  exact ⟨fun self => key _ rfl, fun value is_valid => key _ rfl⟩

/-- C16: on the input "1) + (2" `createTokenList` finishes without error, and the
first two tokens of its sequence hold no OpenParen and one CloseParen. -/
theorem balanced_count_without_nesting :
    Expression.createTokenList Dbl.ops
        { Expression.raw (Dbl.fin 0) false with _exp := "1) + (2" }
      = .ok
          { _value := Dbl.fin 0
            _exp := "1) + (2"
            _token_list :=
              [.ValueToken (Dbl.fin 1), .CloseParenToken, .OperatorToken .ADDITION,
                .OpenParenToken, .ValueToken (Dbl.fin 2)]
            _is_valid := true
            _error_message := "" }
    ∧ depth (List.take 2
        [Token.ValueToken (Dbl.fin 1), .CloseParenToken, .OperatorToken .ADDITION,
          .OpenParenToken, .ValueToken (Dbl.fin 2)]) = -1 := by
  decide!

/-- C17: for every arithmetic and every input string on which `createTokenList`
finishes without error, the token sequence is not empty, starts with a Value
or an OpenParen, ends with a Value or a CloseParen, has every Operator between
a Value or CloseParen and a Value or OpenParen, and has no Value or CloseParen
directly followed by a Value or an OpenParen. -/
theorem valid_tokens_alternate {α : Type} (D : DoubleOps α) (self self1 : Expression α)
    (hcreate : self.createTokenList D = .ok self1) (hvalid : self1._is_valid = true) :
    Alternating self1._token_list := by
  rw [Expression.createTokenList_eq] at hcreate
  rcases lexExpression_result D self._exp with (hl | hl) | ⟨ts, v, m, hl, _, hws⟩
  · rw [hl] at hcreate
    cases hcreate
  · rw [hl] at hcreate
    cases hcreate
  · rw [hl] at hcreate
    cases hcreate
    exact (hws hvalid).alternating

/-- C17 (witness): the tokens of "2 * (3 + 4)". -/
theorem valid_tokens_alternate_witness :
    Alternating
      [Token.ValueToken (Dbl.fin 2), .OperatorToken .MUTILPICATION, .OpenParenToken,
        .ValueToken (Dbl.fin 3), .OperatorToken .ADDITION, .ValueToken (Dbl.fin 4),
        .CloseParenToken] :=
  valid_tokens_alternate Dbl.ops
    { Expression.raw (Dbl.fin 0) false with _exp := "2 * (3 + 4)" }
    { _value := Dbl.fin 0
      _exp := "2 * (3 + 4)"
      _token_list :=
        [.ValueToken (Dbl.fin 2), .OperatorToken .MUTILPICATION, .OpenParenToken,
          .ValueToken (Dbl.fin 3), .OperatorToken .ADDITION, .ValueToken (Dbl.fin 4),
          .CloseParenToken]
      _is_valid := true
      _error_message := "" }
    (by decide!) rfl

/-- C18: when a range starts with an operand of value `v0`, continues with the
factors `fs` (operators `*` or `/`, each with one operand) and has its first
operator `+` or `-` at the position `k`, and the whole remainder `[k+1, end]`
resolves to `R`, then `resolveTokenList(start, end)` is `P + R` or `P - R`, where
`P` is the left-to-right product/quotient of `v0` and the factors. -/
theorem resolveTokenList_splits_at_first_low_operator {α : Type} (D : DoubleOps α)
    (tokens : List (Token α)) (start_pos end_pos q0 k : Int) (v0 R : α)
    (fs : List (operator_function × α)) (op : operator_function) (fuel0 fuel1 : Nat)
    (hfirst : resolveValueAtPos D fuel0 tokens start_pos = .ok v0)
    (hq0 : getSubExpressionEndPos tokens start_pos = .ok q0)
    (hfs : Factors D tokens (q0 + 1) fs k)
    (hk : tokenAt tokens k = .ok (.OperatorToken op))
    (hop : op = .ADDITION ∨ op = .SUBTRACTION)
    (hke : k ≤ end_pos)
    (hrest : resolveTokenList D fuel1 tokens (k + 1) end_pos = .ok R) :
    ∃ F0 : Nat, ∀ F : Nat, F0 ≤ F →
      resolveTokenList D F tokens start_pos end_pos
        = .ok (applyLow D op (productOf D v0 fs) R) := by
  obtain ⟨F0, hF0⟩ := resolveLoop_factors hfs hk hop hke hrest
  refine ⟨max F0 fuel0 + 1, ?_⟩
  intro F hF
  obtain ⟨G, rfl⟩ : ∃ G, F = G + 1 := ⟨F - 1, by omega⟩
  have hv := (resolve_fuel_mono D tokens fuel0 G (by omega)).2.2 _ _ hfirst
  have ht : ∃ t, tokenAt tokens start_pos = .ok t := by
    unfold getSubExpressionEndPos at hq0
    cases h : tokenAt tokens start_pos with
    | error e =>
      rw [h] at hq0
      cases hq0
    | ok t => exact ⟨t, rfl⟩
  obtain ⟨t, ht⟩ := ht
  rw [resolveTokenList_succ]
  simp only [ht, hv, hq0]
  exact hF0 G (by omega) v0

/-- C18 (witness): in the tokens of "10 - 2 - 3" the first operand is 10, there
are no factors, the first '-' is at position 1 and the remainder resolves to
2 - 3: the range resolves to 10 - (2 - 3). -/
theorem resolveTokenList_splits_at_first_low_operator_witness :
    ∃ F0 : Nat, ∀ F : Nat, F0 ≤ F →
      resolveTokenList Dbl.ops F
          [.ValueToken (Dbl.fin 10), .OperatorToken .SUBTRACTION, .ValueToken (Dbl.fin 2),
            .OperatorToken .SUBTRACTION, .ValueToken (Dbl.fin 3)] 0 4
        = .ok (Dbl.sub (Dbl.fin 10) (Dbl.sub (Dbl.fin 2) (Dbl.fin 3))) :=
  resolveTokenList_splits_at_first_low_operator Dbl.ops
    [.ValueToken (Dbl.fin 10), .OperatorToken .SUBTRACTION, .ValueToken (Dbl.fin 2),
      .OperatorToken .SUBTRACTION, .ValueToken (Dbl.fin 3)]
    0 4 0 (0 + 1) (Dbl.fin 10) (Dbl.sub (Dbl.fin 2) (Dbl.fin 3)) [] .SUBTRACTION 1 5
    (by decide!) (by decide!) (Factors.done _) (by decide!) (Or.inr rfl) (by decide)
    (by decide!)

/-- For all values a, b and c, the tokens of "a - b - c" resolve to a - (b - c). -/
theorem subtraction_chain_value {α : Type} (D : DoubleOps α) (a b c : α) :
    resolveAll D
        [.ValueToken a, .OperatorToken .SUBTRACTION, .ValueToken b,
          .OperatorToken .SUBTRACTION, .ValueToken c]
      = .ok (D.sub a (D.sub b c)) := by
  rfl

/-- C19: for every arithmetic and every input string on which `createTokenList`
finishes without error, the evaluation `resolveTokenList(0, len-1)` returns a
number or raises the unexpected-token error (it does not read outside the
token list), and at every point it can come to: the call has
`0 <= start <= end < len`, an operand lies in the range and the scan of
`getSubExpressionEndPos` stops at a CloseParen in the range, and the position
behind an operator is in the range. -/
theorem evaluation_stays_inside {α : Type} (D : DoubleOps α) (self self1 : Expression α)
    (hcreate : self.createTokenList D = .ok self1) (hvalid : self1._is_valid = true) :
    Resolved (resolveAll D self1._token_list)
      ∧ ∀ (s e : Int) (pt : Point), Visits self1._token_list s e pt →
          0 ≤ s ∧ s ≤ e ∧ e < self1._token_list.length
            ∧ pt.InRange self1._token_list s e := by
  have hw : WellShaped self1._token_list := by
    rw [Expression.createTokenList_eq] at hcreate
    rcases lexExpression_result D self._exp with (hl | hl) | ⟨ts, v, m, hl, _, hws⟩
    · rw [hl] at hcreate
      cases hcreate
    · rw [hl] at hcreate
      cases hcreate
    · rw [hl] at hcreate
      cases hcreate
      exact hws hvalid
  exact ⟨resolveAll_resolved D _ hw, fun s e pt h => h.inRange hw⟩

/-- C19 (witness): the tokens of "1) + (2", where the evaluation raises the
unexpected-token error at the CloseParen. -/
theorem evaluation_stays_inside_witness :
    Resolved (resolveAll Dbl.ops
        [.ValueToken (Dbl.fin 1), .CloseParenToken, .OperatorToken .ADDITION,
          .OpenParenToken, .ValueToken (Dbl.fin 2)])
      ∧ resolveAll Dbl.ops
          [.ValueToken (Dbl.fin 1), .CloseParenToken, .OperatorToken .ADDITION,
            .OpenParenToken, .ValueToken (Dbl.fin 2)]
        = .error (.exception EXMSG_UNEXPECTED_TOKEN) :=
  ⟨(evaluation_stays_inside Dbl.ops
      { Expression.raw (Dbl.fin 0) false with _exp := "1) + (2" }
      { _value := Dbl.fin 0
        _exp := "1) + (2"
        _token_list :=
          [.ValueToken (Dbl.fin 1), .CloseParenToken, .OperatorToken .ADDITION,
            .OpenParenToken, .ValueToken (Dbl.fin 2)]
        _is_valid := true
        _error_message := "" }
      (by decide!) rfl).1,
    by decide!⟩

/-- C20: for every input string on which `createTokenList` finishes without error
and whose token sequence is well nested, holds no Operator(Sub) and no
Operator(Div) directly in front of Value(-1), Operator(Mul), OpenParen, the
evaluation `resolveTokenList(0, len-1)` over exact rational arithmetic returns a
value, and it is the value of the conventional evaluation: `*` and `/` before
`+` and `-`, from left to right, a negated group as one factor. -/
theorem evaluator_agrees_with_convention (self self1 : Expression ℚ)
    (hcreate : self.createTokenList Exact = .ok self1) (hvalid : self1._is_valid = true)
    (hnest : WellNested self1._token_list)
    (hsub : NoSubtraction self1._token_list)
    (hdiv : NoDivisionByNegatedGroup self1._token_list) :
    ∃ v : ℚ, resolveAll Exact self1._token_list = .ok v
      ∧ ∃ G0 : Nat, ∀ G : Nat, G0 ≤ G → convExpr G self1._token_list = some (v, []) := by
  have hw : WellShaped self1._token_list := by
    rw [Expression.createTokenList_eq] at hcreate
    rcases lexExpression_result Exact self._exp with (hl | hl) | ⟨ts, v, m, hl, _, hws⟩
    · rw [hl] at hcreate
      cases hcreate
    · rw [hl] at hcreate
      cases hcreate
    · rw [hl] at hcreate
      cases hcreate
      exact hws hvalid
  generalize self1._token_list = tokens at hw hnest hsub hdiv
  have htop := rangeOk_top hw
  have hlen : 0 < tokens.length := by
    have := (tokenAt_bounds htop.2.1.choose_spec.1).2
    omega
  have hr : NestedRange tokens 0 ((tokens.length : Int) - 1) := by
    refine ⟨htop, ?_, ?_, Or.inl (by omega)⟩
    · rw [Int.sub_add_cancel, depthAt_length, depthAt_zero, hw.balance]
    · intro j hj0 hjn
      rw [depthAt_zero]
      exact hnest j.toNat (by omega)
  obtain ⟨v, ⟨F0, hF0⟩, ⟨G0, hG0⟩⟩ := range_agrees hw hsub hdiv _ _ _ (Nat.lt_succ_self _) hr
  refine ⟨v, ?_, G0 + 1, ?_⟩
  · have hres := resolveAll_resolved Exact tokens hw
    unfold resolveAll at hres ⊢
    have hne : resolveTokenList Exact (evalFuel tokens.length) tokens 0
        ((tokens.length : Int) - 1) ≠ .error .out_of_fuel := by
      rcases hres with ⟨x, hx⟩ | hx <;> rw [hx] <;> intro h <;> cases h
    rw [← resolveTokenList_fuel_le Exact tokens _ _ _ (max F0 (evalFuel tokens.length))
      (le_max_right _ _) hne]
    exact hF0 _ (le_max_left _ _)
  · intro G hG
    obtain ⟨G1, rfl⟩ : ∃ G1, G = G1 + 1 := ⟨G - 1, by omega⟩
    have h := hG0 G1 (by omega) 0
    rw [Int.sub_add_cancel, restAt_length, restAt_zero] at h
    rw [convExpr_succ]
    cases hterm : convTerm G1 tokens with
    | none =>
      rw [hterm] at h
      cases h
    | some tr =>
      obtain ⟨t, r⟩ := tr
      rw [hterm] at h
      simp only [zero_add] at h ⊢
      exact h

/-- C20 (witness): the tokens of "-(2 + 3) * 4 + 6 / (1 + 2)", with the value -18. -/
theorem evaluator_agrees_with_convention_witness :
    (∃ v : ℚ,
      resolveAll Exact
          [.ValueToken (-1), .OperatorToken .MUTILPICATION, .OpenParenToken, .ValueToken 2,
            .OperatorToken .ADDITION, .ValueToken 3, .CloseParenToken,
            .OperatorToken .MUTILPICATION, .ValueToken 4, .OperatorToken .ADDITION,
            .ValueToken 6, .OperatorToken .DIVISION, .OpenParenToken, .ValueToken 1,
            .OperatorToken .ADDITION, .ValueToken 2, .CloseParenToken] = .ok v
        ∧ ∃ G0 : Nat, ∀ G : Nat, G0 ≤ G →
          convExpr G
            [.ValueToken (-1), .OperatorToken .MUTILPICATION, .OpenParenToken, .ValueToken 2,
              .OperatorToken .ADDITION, .ValueToken 3, .CloseParenToken,
              .OperatorToken .MUTILPICATION, .ValueToken 4, .OperatorToken .ADDITION,
              .ValueToken 6, .OperatorToken .DIVISION, .OpenParenToken, .ValueToken 1,
              .OperatorToken .ADDITION, .ValueToken 2, .CloseParenToken] = some (v, []))
    ∧ resolveAll Exact
        [.ValueToken (-1), .OperatorToken .MUTILPICATION, .OpenParenToken, .ValueToken 2,
          .OperatorToken .ADDITION, .ValueToken 3, .CloseParenToken,
          .OperatorToken .MUTILPICATION, .ValueToken 4, .OperatorToken .ADDITION,
          .ValueToken 6, .OperatorToken .DIVISION, .OpenParenToken, .ValueToken 1,
          .OperatorToken .ADDITION, .ValueToken 2, .CloseParenToken] = .ok (-18) :=
  ⟨evaluator_agrees_with_convention
      { Expression.raw (0 : ℚ) false with _exp := "-(2 + 3) * 4 + 6 / (1 + 2)" }
      { _value := 0
        _exp := "-(2 + 3) * 4 + 6 / (1 + 2)"
        _token_list :=
          [.ValueToken (-1), .OperatorToken .MUTILPICATION, .OpenParenToken, .ValueToken 2,
            .OperatorToken .ADDITION, .ValueToken 3, .CloseParenToken,
            .OperatorToken .MUTILPICATION, .ValueToken 4, .OperatorToken .ADDITION,
            .ValueToken 6, .OperatorToken .DIVISION, .OpenParenToken, .ValueToken 1,
            .OperatorToken .ADDITION, .ValueToken 2, .CloseParenToken]
        _is_valid := true
        _error_message := "" }
      (by decide!) rfl (by unfold WellNested; decide!) (by unfold NoSubtraction; decide!)
      (by unfold NoDivisionByNegatedGroup; decide!),
    by decide!⟩

/-- The conventional value of the tokens of "10 - 2 - 3" is 5, of the tokens of
"8 / -(2)" it is -4; the evaluator gives 11 and -16. -/
theorem convention_examples :
    convExpr 10
        [.ValueToken 10, .OperatorToken .SUBTRACTION, .ValueToken 2,
          .OperatorToken .SUBTRACTION, .ValueToken 3] = some (5, [])
    ∧ resolveAll Exact
        [.ValueToken 10, .OperatorToken .SUBTRACTION, .ValueToken 2,
          .OperatorToken .SUBTRACTION, .ValueToken 3] = .ok 11
    ∧ convExpr 10
        [.ValueToken 8, .OperatorToken .DIVISION, .ValueToken (-1),
          .OperatorToken .MUTILPICATION, .OpenParenToken, .ValueToken 2, .CloseParenToken]
        = some (-4, [])
    ∧ resolveAll Exact
        [.ValueToken 8, .OperatorToken .DIVISION, .ValueToken (-1),
          .OperatorToken .MUTILPICATION, .OpenParenToken, .ValueToken 2, .CloseParenToken]
        = .ok (-16) := by
  decide!

end ap
